import Mathlib

/-!
# VFX archive reader (`src/metro/VFXReader.cpp`)

A shallow embedding of `VFXReader` and the properties of its index parser,
path resolver, extractor and recursive folder queries.

Conventions of the embedding:
* bytes and `char`s are natural numbers below 256, strings (`CharString`) are
  lists of bytes;
* `size_t` / `uintN_t` values are natural numbers, reduced modulo `2 ^ w` where
  the source can wrap;
* an access outside a buffer or a vector (undefined behaviour in the source) is the
  outcome `Res.outOfBounds`; recursion that is cut off by the fuel of the model is
  the outcome `Res.outOfFuel`.
-/

namespace MetroEX

/-! ## Outcomes -/

/-- Outcome of a piece of the reader: a value, an access outside a buffer or vector,
or recursion deeper than the fuel given to the model. -/
inductive Res (α : Type) where
  | ok (v : α)
  | outOfBounds
  | outOfFuel
deriving DecidableEq, Repr

/-- Sequencing of outcomes: the first failure is the failure of the whole. -/
def Res.bind {α β : Type} (x : Res α) (f : α → Res β) : Res β :=
  match x with
  | .ok v => f v
  | .outOfBounds => .outOfBounds
  | .outOfFuel => .outOfFuel

instance : Monad Res where
  pure := Res.ok
  bind := Res.bind

/-! ## Bytes, strings and the stream cursor -/

/-- A narrow string: the list of its bytes. -/
abbrev CharString := List Nat

/-- Modelled from the spec: the cursor/stream primitive `MemStream` (its class is declared
outside src/): a buffer, a cursor for sequential reads, and the validity flag that
separates a stream built over a buffer from a default-constructed one. -/
structure MemStream where
  good : Bool
  data : List Nat
  cursor : Nat
deriving DecidableEq, Repr

/-- Modelled from the spec: the default-constructed stream `MemStream result;`, the invalid
view: no buffer, not `Good()`. -/
def MemStream.empty : MemStream := { good := false, data := [], cursor := 0 }

/-- Modelled from the spec: the stream `MemStream(data, size)` over a whole buffer, cursor at
its start. -/
def MemStream.over (bytes : List Nat) : MemStream := { good := true, data := bytes, cursor := 0 }

/-- Modelled from the spec: `MemStream::Good`, true for a stream built over a buffer and false
for the default-constructed (invalid) one. -/
def MemStream.Good (s : MemStream) : Bool := s.good

/-- Modelled from the spec: `MemStream::SetWindow(offset, length)`, the bounded window that
restricts the stream to the sub-range `[offset, offset + length)` of its buffer. -/
def MemStream.SetWindow (s : MemStream) (wndOffset wndLength : Nat) : MemStream :=
  { s with data := (s.data.drop wndOffset).take wndLength, cursor := 0 }

/-- The bytes not yet consumed. -/
def MemStream.remaining (s : MemStream) : List Nat := s.data.drop s.cursor

/-- The same stream with the cursor moved `n` bytes further. -/
def MemStream.advance (s : MemStream) (n : Nat) : MemStream := { s with cursor := s.cursor + n }

/-- Modelled from the spec: the sequential read of one byte at the cursor; reading past the
end of the buffer is out of bounds. -/
def MemStream.ReadU8 (s : MemStream) : Res (Nat × MemStream) :=
  match s.remaining with
  | b :: _ => .ok (b % 256, s.advance 1)
  | [] => .outOfBounds

/-- Modelled from the spec: `MemStream::ReadTyped<T>` for an unsigned integer type of `width`
bytes, a sequential fixed-width little-endian read. -/
def MemStream.ReadTyped : (width : Nat) → MemStream → Res (Nat × MemStream)
  | 0, s => .ok (0, s)
  | w + 1, s => do
    let (lo, s1) ← s.ReadU8
    let (hi, s2) ← MemStream.ReadTyped w s1
    pure (lo + 256 * hi, s2)

/-- The characters before the first NUL byte of a buffer, if it has one. -/
def takeZ : List Nat → Option CharString
  | [] => none
  | b :: t => if b % 256 = 0 then some [] else (takeZ t).map (fun r => b % 256 :: r)

/-- Modelled from the spec: `MemStream::ReadStringZ`, the null-terminated-string read: the
characters up to the next NUL, which is consumed as well. -/
def MemStream.ReadStringZ (s : MemStream) : Res (CharString × MemStream) :=
  match takeZ s.remaining with
  | some str => .ok (str, s.advance (str.length + 1))
  | none => .outOfBounds

/-- Modelled from the spec: `MemStream::ReadStruct` for a struct of `n` bytes, the raw-struct
read that copies the next `n` bytes verbatim. -/
def MemStream.ReadBytes : (n : Nat) → MemStream → Res (List Nat × MemStream)
  | 0, s => .ok ([], s)
  | n + 1, s => do
    let (b, s1) ← s.ReadU8
    let (bs, s2) ← MemStream.ReadBytes n s1
    pure (b :: bs, s2)

/-! ## String decoder (`readCharStringXored`, lines 33-49) -/

/-- The body of `for (size_t i = 1; i < stringLen; ++i)`, run `count` times: read one
`char`, unmask it with `xorMask`, append it to `result`. -/
def readCharsXored (xorMask : Nat) : (count : Nat) → MemStream → CharString →
    Res (CharString × MemStream)
  | 0, s, result => .ok (result, s)
  | n + 1, s, result => do
    let (ch, s1) ← s.ReadTyped 1
    readCharsXored xorMask n s1 (result ++ [(ch ^^^ xorMask) % 256])

/-- The lambda `readCharStringXored`: a 16-bit header (low byte: length with the
terminator, high byte: mask), `stringLen - 1` masked characters (the loop runs for
`i = 1, ..., stringLen - 1`, not at all when `stringLen` is 0 or 1), one terminator. -/
def readCharStringXored (stream : MemStream) : Res (CharString × MemStream) := do
  let (stringHeader, s1) ← stream.ReadTyped 2
  let stringLen := stringHeader &&& 0xFF
  let xorMask := (stringHeader >>> 8) &&& 0xFF
  let (result, s2) ← readCharsXored xorMask (stringLen - 1) s1 []
  let (_, s3) ← s2.ReadTyped 1
  pure (result, s3)

/-- The encoder of the spec ("String Decoder" round trip): header byte `len + 1`, mask
byte, the masked characters, one raw terminator byte. -/
def encodeXored (S : CharString) (X terminator : Nat) : List Nat :=
  [S.length + 1, X] ++ S.map (fun c => c ^^^ X) ++ [terminator]

/-- Little-endian bytes of a `width`-byte unsigned integer (the layout of section 6). -/
def leBytes : (width : Nat) → Nat → List Nat
  | 0, _ => []
  | w + 1, v => v % 256 :: leBytes w (v / 256)

/-! ## Data model -/

/-- A package descriptor (`Pak`): name of the backing file, level tags, chunk id. -/
structure Pak where
  name : CharString
  levels : List CharString
  chunk : Nat
deriving DecidableEq, Repr

/-- An entry of the flat table (`MetroFile`), file or folder: the common fields, the
fields of the file variant and the fields of the folder variant. -/
structure MetroFile where
  idx : Nat
  flags : Nat
  name : CharString
  pakIdx : Nat
  offset : Nat
  sizeUncompressed : Nat
  sizeCompressed : Nat
  numFiles : Nat
  firstFile : Nat
deriving DecidableEq, Repr

/-- Modelled from the spec: `MetroFile::IsFile` (declared outside src/): the low bit of the
flags distinguishes a file (set) from a folder (unset). -/
def MetroFile.IsFile (mf : MetroFile) : Bool := mf.flags % 2 = 1

/-- Modelled from the spec: the iteration `for (const size_t idx : folder)` over a `MetroFile`
(its `begin`/`end` are declared outside src/): the linear scan of the containment range
`[firstFile, firstFile + numFiles)`. -/
def MetroFile.range (mf : MetroFile) : List Nat := List.range' mf.firstFile mf.numFiles

/-- Modelled from the spec: `MetroFile::ContainsFile` (declared outside src/): whether an index
falls inside the containment range of the entry. -/
def MetroFile.ContainsFile (mf : MetroFile) (fileIdx : Nat) : Bool :=
  decide (mf.firstFile ≤ fileIdx ∧ fileIdx < mf.firstFile + mf.numFiles)

/-- A file-system path (`fs::path`), kept as its parent directory and its file name. -/
structure FsPath where
  parent_path : CharString
  filename : CharString
deriving DecidableEq, Repr

/-- The members of `VFXReader`. -/
structure VFXReader where
  mContentVersion : CharString
  mGUID : List Nat
  mPaks : List Pak
  mFiles : List MetroFile
  mFolders : List Nat
  mBasePath : CharString
  mFileName : CharString
deriving DecidableEq, Repr

/-- What `VFXReader.cpp` takes from outside src/: constants of the headers, the elements
that `resize` appends, the files on disk, the decompression collaborator, and the
indeterminate content of freshly allocated memory. -/
structure Externals where
  /-- The constant `MetroCompression::Type_LZ4`. -/
  Type_LZ4 : Nat
  /-- The constant `kInvalidValue`, sentinel of the sub-range arguments. -/
  kInvalidValue : Nat
  /-- The constant `MetroFile::InvalidFileIdx`, the not-found sentinel. -/
  InvalidFileIdx : Nat
  /-- The value-initialised `Pak` appended by `mPaks.resize`. -/
  newPak : Pak
  /-- The value-initialised `MetroFile` appended by `mFiles.resize`. -/
  newFile : MetroFile
  /-- Content of the file at a path; `none` when the file cannot be opened. -/
  disk : FsPath → Option (List Nat)
  /-- The collaborator `MetroCompression::DecompressStream(src, srcLen, dst, dstLen)`:
  the content of `dst` afterwards and the number of bytes written. -/
  DecompressStream : List Nat → Nat → Nat → List Nat × Nat
  /-- The byte found at position `i` of a buffer returned by `malloc`. -/
  junk : Nat → Nat

/-- The reader right after `VFXReader::VFXReader()`: empty strings and vectors (the GUID
member is not initialised by the constructor and is given as `guid`). -/
def VFXReader.fresh (guid : List Nat) : VFXReader :=
  { mContentVersion := [], mGUID := guid, mPaks := [], mFiles := [], mFolders := [],
    mBasePath := [], mFileName := [] }

/-- The call `v.resize(n)` of a vector: the first `n` elements, or the vector followed
by value-initialised elements `d` up to length `n`. -/
def resize {α : Type} (v : List α) (n : Nat) (d : α) : List α :=
  v.take n ++ List.replicate (n - v.length) d

/-! ## Index parser (`VFXReader::LoadFromFile`, lines 16-119) -/

/-- The constant `kVFXVersionExodus`. -/
def kVFXVersionExodus : Nat := 3

/-- The loop `for (auto& s : pak.levels) s = stream.ReadStringZ();`. -/
def readLevels : List CharString → MemStream → Res (List CharString × MemStream)
  | [], s => .ok ([], s)
  | _ :: rest, s => do
    let (str, s1) ← s.ReadStringZ
    let (rest', s2) ← readLevels rest s1
    pure (str :: rest', s2)

/-- The loop `for (Pak& pak : mPaks)` (lines 71-81) over the resized package vector. -/
def readPaks : List Pak → MemStream → Res (List Pak × MemStream)
  | [], s => .ok ([], s)
  | pak :: rest, s => do
    let (name, s1) ← s.ReadStringZ
    let (numStrings, s2) ← s1.ReadTyped 4
    let (levels, s3) ← readLevels (resize pak.levels numStrings []) s2
    let (chunk, s4) ← s3.ReadTyped 4
    let (rest', s5) ← readPaks rest s4
    pure ({ name := name, levels := levels, chunk := chunk } :: rest', s5)

/-- The loop `for (MetroFile& mf : mFiles)` (lines 84-104) over the resized entry
vector, with the running `fileIdx` and the folder-index vector `mFolders`. -/
def readFiles : List MetroFile → (fileIdx : Nat) → (mFolders : List Nat) → MemStream →
    Res (List MetroFile × List Nat × MemStream)
  | [], _, mFolders, s => .ok ([], mFolders, s)
  | mf :: rest, fileIdx, mFolders, s => do
    let (flags, s1) ← s.ReadTyped 2
    let mf1 : MetroFile := { mf with idx := fileIdx, flags := flags }
    if mf1.IsFile then
      let (pakIdx, s2) ← s1.ReadTyped 2
      let (offset, s3) ← s2.ReadTyped 4
      let (sizeUncompressed, s4) ← s3.ReadTyped 4
      let (sizeCompressed, s5) ← s4.ReadTyped 4
      let (name, s6) ← readCharStringXored s5
      let mf2 : MetroFile :=
        { mf1 with
          pakIdx := pakIdx
          offset := offset
          sizeUncompressed := sizeUncompressed
          sizeCompressed := sizeCompressed
          name := name }
      let (rest', mFolders', s7) ← readFiles rest (fileIdx + 1) mFolders s6
      pure (mf2 :: rest', mFolders', s7)
    else
      let (numFiles, s2) ← s1.ReadTyped 2
      let (firstFile, s3) ← s2.ReadTyped 4
      let (name, s4) ← readCharStringXored s3
      let mf2 : MetroFile := { mf1 with numFiles := numFiles, firstFile := firstFile, name := name }
      let (rest', mFolders', s5) ← readFiles rest (fileIdx + 1) (mFolders ++ [fileIdx]) s4
      pure (mf2 :: rest', mFolders', s5)

/-- The body of `LoadFromFile` once the file is open and read into `fileData`
(lines 31-113): the returned flag and the reader afterwards. -/
def VFXReader.loadFromData (ext : Externals) (filePath : FsPath) (fileData : List Nat)
    (r : VFXReader) : Res (Bool × VFXReader) := do
  let stream := MemStream.over fileData
  let (version, s1) ← stream.ReadTyped 4
  let (compressionType, s2) ← s1.ReadTyped 4
  if version = kVFXVersionExodus ∧ compressionType = ext.Type_LZ4 then
    let (contentVersion, s3) ← s2.ReadStringZ
    let (guid, s4) ← s3.ReadBytes 16
    let (numVFS, s5) ← s4.ReadTyped 4
    let (numFiles, s6) ← s5.ReadTyped 4
    let (_unknown_0, s7) ← s6.ReadTyped 4
    let (paks, s8) ← readPaks (resize r.mPaks numVFS ext.newPak) s7
    let (files, folders, _) ← readFiles (resize r.mFiles numFiles ext.newFile) 0 r.mFolders s8
    pure (true, { mContentVersion := contentVersion, mGUID := guid, mPaks := paks,
                  mFiles := files, mFolders := folders,
                  mBasePath := filePath.parent_path, mFileName := filePath.filename })
  else
    pure (false, r)

/-- `VFXReader::LoadFromFile`: the returned flag and the reader afterwards. -/
def VFXReader.LoadFromFile (ext : Externals) (filePath : FsPath) (r : VFXReader) :
    Res (Bool × VFXReader) :=
  match ext.disk filePath with
  | some fileData => r.loadFromData ext filePath fileData
  | none => .ok (false, r)

/-! ## The index layout of section 4.2, as a serialiser -/

/-- A string followed by its NUL terminator. -/
def encodeStringZ (s : CharString) : List Nat := s ++ [0]

/-- A package record: name, count of tags, the tags, chunk id. -/
def encodePak (p : Pak) : List Nat :=
  encodeStringZ p.name ++ leBytes 4 p.levels.length ++
    (p.levels.map encodeStringZ).flatten ++ leBytes 4 p.chunk

/-- An entry of an archive value together with the mask and the terminator byte its
name is written with. -/
structure EntryRecord where
  mf : MetroFile
  xorMask : Nat
  terminator : Nat
deriving DecidableEq, Repr

/-- An entry record: 16-bit flags, the fixed fields of its variant, the masked name. -/
def encodeEntry (e : EntryRecord) : List Nat :=
  leBytes 2 e.mf.flags ++
    (if e.mf.IsFile then
      leBytes 2 e.mf.pakIdx ++ leBytes 4 e.mf.offset ++ leBytes 4 e.mf.sizeUncompressed ++
        leBytes 4 e.mf.sizeCompressed
    else
      leBytes 2 e.mf.numFiles ++ leBytes 4 e.mf.firstFile) ++
    encodeXored e.mf.name e.xorMask e.terminator

/-- An archive value: what an index file describes. -/
structure Archive where
  contentVersion : CharString
  guid : List Nat
  unknown_0 : Nat
  paks : List Pak
  entries : List EntryRecord
deriving DecidableEq, Repr

/-- The index file of an archive value with the given version and compression tag. -/
def serialize (version compressionType : Nat) (a : Archive) : List Nat :=
  leBytes 4 version ++ leBytes 4 compressionType ++ encodeStringZ a.contentVersion ++ a.guid ++
    leBytes 4 a.paks.length ++ leBytes 4 a.entries.length ++ leBytes 4 a.unknown_0 ++
    (a.paks.map encodePak).flatten ++ (a.entries.map encodeEntry).flatten

/-- A string that can be written NUL-terminated: bytes, none of them NUL. -/
def ZString (s : CharString) : Prop := ∀ c ∈ s, 0 < c ∧ c < 256

/-- A package whose fields fit the layout. -/
def Pak.Fits (p : Pak) : Prop :=
  ZString p.name ∧ p.levels.length < 2 ^ 32 ∧ (∀ l ∈ p.levels, ZString l) ∧ p.chunk < 2 ^ 32

/-- An entry whose fields fit the layout: 16-bit flags, the fields of its variant within
their widths, a name of at most 254 bytes, a mask byte and a terminator byte. -/
def EntryRecord.Fits (e : EntryRecord) : Prop :=
  e.mf.flags < 2 ^ 16 ∧ e.mf.name.length ≤ 254 ∧ (∀ c ∈ e.mf.name, c < 256) ∧
    e.xorMask < 256 ∧
    (if e.mf.IsFile then
      e.mf.pakIdx < 2 ^ 16 ∧ e.mf.offset < 2 ^ 32 ∧ e.mf.sizeUncompressed < 2 ^ 32 ∧
        e.mf.sizeCompressed < 2 ^ 32
    else e.mf.numFiles < 2 ^ 16 ∧ e.mf.firstFile < 2 ^ 32)

/-- An archive value whose fields fit the layout of section 4.2. -/
def Archive.Fits (a : Archive) : Prop :=
  ZString a.contentVersion ∧ a.guid.length = 16 ∧ (∀ b ∈ a.guid, b < 256) ∧
    a.unknown_0 < 2 ^ 32 ∧ a.paks.length < 2 ^ 32 ∧ a.entries.length < 2 ^ 32 ∧
    (∀ p ∈ a.paks, p.Fits) ∧ (∀ e ∈ a.entries, e.Fits)

/-- The entry stored at position `i` for the record `e` when the vector element it
overwrites was `old`: own index, flags, name and the fields of its variant come from
the record, the fields of the other variant stay those of `old`. -/
def parsedEntry (old : MetroFile) (i : Nat) (e : EntryRecord) : MetroFile :=
  if e.mf.IsFile then
    { old with idx := i, flags := e.mf.flags, name := e.mf.name, pakIdx := e.mf.pakIdx,
               offset := e.mf.offset, sizeUncompressed := e.mf.sizeUncompressed,
               sizeCompressed := e.mf.sizeCompressed }
  else
    { old with idx := i, flags := e.mf.flags, name := e.mf.name, numFiles := e.mf.numFiles,
               firstFile := e.mf.firstFile }

/-! ## Extractor (`VFXReader::ExtractFile`, lines 121-156) -/

/-- Subtraction of two `size_t` values, wrapping like the machine operation; `size_t` is
taken to be 64 bits wide. -/
def sizeSub (a b : Nat) : Nat := (a + 2 ^ 64 - b % 2 ^ 64) % 2 ^ 64

/-- Lines 132-133: the window `(streamOffset, streamLength)` later given to `SetWindow`,
for a file of uncompressed size `sizeUncompressed`. -/
def streamWindow (ext : Externals) (sizeUncompressed subOffset subLength : Nat) : Nat × Nat :=
  let streamOffset :=
    if subOffset = ext.kInvalidValue then 0 else min subOffset sizeUncompressed
  let streamLength :=
    if subLength = ext.kInvalidValue then sizeSub sizeUncompressed streamOffset
    else min subLength (sizeSub sizeUncompressed streamOffset)
  (streamOffset, streamLength)

/-- Lines 130, 135-136: a buffer of `n` bytes from `malloc`, filled by `file.read` with the
bytes of the file from `offset` on; positions the file does not reach keep the
indeterminate bytes of the allocation. -/
def readAt (ext : Externals) (bytes : List Nat) (offset n : Nat) : List Nat :=
  let got := (bytes.drop offset).take n
  got ++ (List.range' got.length (n - got.length)).map ext.junk

/-- `VFXReader::ExtractFile`: the view returned for entry `fileIdx` and the sub-range
`(subOffset, subLength)`. -/
def VFXReader.ExtractFile (ext : Externals) (r : VFXReader) (fileIdx subOffset subLength : Nat) :
    Res MemStream :=
  match r.mFiles[fileIdx]? with
  | none => .outOfBounds
  | some mf =>
    match r.mPaks[mf.pakIdx]? with
    | none => .outOfBounds
    | some pak =>
      let pakPath : FsPath := { parent_path := r.mBasePath, filename := pak.name }
      match ext.disk pakPath with
      | none => .ok MemStream.empty
      | some bytes =>
        let (streamOffset, streamLength) :=
          streamWindow ext mf.sizeUncompressed subOffset subLength
        let fileContent := readAt ext bytes mf.offset mf.sizeCompressed
        let result : MemStream :=
          if mf.sizeCompressed = mf.sizeUncompressed then
            MemStream.over (fileContent.take mf.sizeUncompressed)
          else
            let (uncompressedContent, decompressResult) :=
              ext.DecompressStream fileContent mf.sizeCompressed mf.sizeUncompressed
            if decompressResult = mf.sizeUncompressed then
              MemStream.over (uncompressedContent.take mf.sizeUncompressed)
            else MemStream.empty
        .ok (if result.Good then result.SetWindow streamOffset streamLength else result)

/-! ## Path resolver (`GetFolder`, `FindFile`, lines 166-219) -/

/-- The path separator `'\\'`. -/
def backslash : Nat := 92

/-- `s.find_first_of(c, pos)`: position of the first `c` at or after `pos`; `none` is
`npos`. -/
def findFirstOf (s : CharString) (c pos : Nat) : Option Nat :=
  let tail := s.drop pos
  if c ∈ tail then some (pos + tail.indexOf c) else none

/-- `s.find_last_of(c)`: position of the last `c`; `none` is `npos`. -/
def findLastOf (s : CharString) (c : Nat) : Option Nat :=
  if c ∈ s then some (s.length - 1 - s.reverse.indexOf c) else none

/-- `s.substr(pos, len)`. -/
def substr (s : CharString) (pos len : Nat) : CharString := (s.drop pos).take len

/-- The scan `for (const size_t idx : *folder)` of `GetFolder` and `FindFile`
(lines 173-179, 209-215): the first index of the range whose entry carries `name`, or
the initial value `notFound` of the result variable. -/
def scanName (mFiles : List MetroFile) (name : CharString) (notFound : Nat) : List Nat → Res Nat
  | [] => .ok notFound
  | idx :: rest =>
    match mFiles[idx]? with
    | none => .outOfBounds
    | some mf => if name = mf.name then .ok idx else scanName mFiles name notFound rest

/-- The loop `while (slashPos != CharString::npos)` of `GetFolder` (lines 169-188) on
the state `(slashPos, lastSlashPos, folder)`; every turn moves `slashPos` forward, so
`folderPath.length + 1` turns are never used up. -/
def getFolderLoop (ext : Externals) (mFiles : List MetroFile) (folderPath : CharString) :
    (fuel : Nat) → (slashPos : Option Nat) → (lastSlashPos : Nat) → (folder : MetroFile) →
    Res (Option MetroFile)
  | _, none, _, folder => .ok (some folder)
  | 0, some _, _, _ => .outOfFuel
  | fuel + 1, some slashPos, lastSlashPos, folder =>
    let name := substr folderPath lastSlashPos (slashPos - lastSlashPos)
    match scanName mFiles name ext.InvalidFileIdx folder.range with
    | .ok folderIdx =>
      if folderIdx = ext.InvalidFileIdx then .ok none
      else
        match mFiles[folderIdx]? with
        | none => .outOfBounds
        | some next =>
          getFolderLoop ext mFiles folderPath fuel
            (findFirstOf folderPath backslash (slashPos + 1)) (slashPos + 1) next
    | .outOfBounds => .outOfBounds
    | .outOfFuel => .outOfFuel

/-- The expression `(inFolder == nullptr) ? &mFiles.front() : inFolder`. -/
def startFolder (mFiles : List MetroFile) (inFolder : Option MetroFile) : Res MetroFile :=
  match inFolder with
  | some f => .ok f
  | none =>
    match mFiles.head? with
    | some f => .ok f
    | none => .outOfBounds

/-- `VFXReader::GetFolder`: the entry reached, `none` for `nullptr`. -/
def VFXReader.GetFolder (ext : Externals) (r : VFXReader) (folderPath : CharString)
    (inFolder : Option MetroFile) : Res (Option MetroFile) := do
  let folder ← startFolder r.mFiles inFolder
  getFolderLoop ext r.mFiles folderPath (folderPath.length + 1)
    (findFirstOf folderPath backslash 0) 0 folder

/-- `VFXReader::FindFile`: the index found, or `MetroFile::InvalidFileIdx`. -/
def VFXReader.FindFile (ext : Externals) (r : VFXReader) (fileName : CharString)
    (inFolder : Option MetroFile) : Res Nat := do
  let folder0 ← startFolder r.mFiles inFolder
  let (folder, lastSlashPos) ←
    (match findLastOf fileName backslash with
     | some p => do
       let f ← r.GetFolder ext (substr fileName 0 (p + 1)) inFolder
       pure (f, p + 1)
     | none => (pure (some folder0, 0) : Res (Option MetroFile × Nat)))
  match folder with
  | some f => scanName r.mFiles (fileName.drop lastSlashPos) ext.InvalidFileIdx f.range
  | none => pure ext.InvalidFileIdx

/-! ## Recursive folder queries (lines 243-279) -/

/-- `VFXReader::CountFilesInFolder`, with `fuel` bounding the depth of the recursion;
`result` is a 64-bit `size_t`. -/
def VFXReader.CountFilesInFolder (r : VFXReader) : (fuel : Nat) → (idx : Nat) → Res Nat
  | 0, _ => .outOfFuel
  | fuel + 1, idx =>
    match r.mFiles[idx]? with
    | none => .outOfBounds
    | some folder =>
      folder.range.foldlM
        (fun result i =>
          match r.mFiles[i]? with
          | none => Res.outOfBounds
          | some mf =>
            if mf.IsFile then Res.ok ((result + 1) % 2 ^ 64)
            else
              match VFXReader.CountFilesInFolder r fuel i with
              | .ok c => Res.ok ((result + c) % 2 ^ 64)
              | .outOfBounds => Res.outOfBounds
              | .outOfFuel => Res.outOfFuel)
        0

/-- Modelled from the spec: the helper `StrEndsWith` (declared outside src/): a case-sensitive
literal suffix match. -/
def StrEndsWith (str ending : CharString) : Bool := ending.isSuffixOf str

/-- The body of the loop of `FindFilesInFolder` (lines 264-275) with the recursive call
given as `sub`; the recursion and the pushed index both use the field `mf.idx`. -/
def findBody (mFiles : List MetroFile) (extension : CharString) (sub : Nat → Res (List Nat))
    (result : List Nat) (idx : Nat) : Res (List Nat) :=
  match mFiles[idx]? with
  | none => Res.outOfBounds
  | some mf =>
    if !mf.IsFile then
      match sub mf.idx with
      | .ok v => Res.ok (result ++ v)
      | .outOfBounds => Res.outOfBounds
      | .outOfFuel => Res.outOfFuel
    else if StrEndsWith mf.name extension then Res.ok (result ++ [mf.idx])
    else Res.ok result

/-- `VFXReader::FindFilesInFolder(folderIdx, extension, withSubfolders)`, with `fuel`
bounding the depth of the recursion. -/
def VFXReader.FindFilesInFolder (r : VFXReader) (extension : CharString) (withSubfolders : Bool) :
    (fuel : Nat) → (folderIdx : Nat) → Res (List Nat)
  | 0, _ => .outOfFuel
  | fuel + 1, folderIdx =>
    match r.mFiles[folderIdx]? with
    | none => .outOfBounds
    | some folder =>
      if !folder.IsFile then
        folder.range.foldlM
          (findBody r.mFiles extension
            (fun i => VFXReader.FindFilesInFolder r extension withSubfolders fuel i)) []
      else .ok []

/-- `VFXReader::GetAllFolders`. -/
def VFXReader.GetAllFolders (r : VFXReader) : List Nat := r.mFolders

/-- The loop of `GetParentFolder` (lines 228-234) over the folder-index vector. -/
def getParentLoop (mFiles : List MetroFile) (fileIdx : Nat) : List Nat → Res (Option MetroFile)
  | [] => .ok none
  | idx :: rest =>
    match mFiles[idx]? with
    | none => .outOfBounds
    | some folder =>
      if folder.ContainsFile fileIdx then .ok (some folder)
      else getParentLoop mFiles fileIdx rest

/-- `VFXReader::GetParentFolder`: the first folder of `mFolders` whose range holds
`fileIdx`, `none` for `nullptr`. -/
def VFXReader.GetParentFolder (r : VFXReader) (fileIdx : Nat) : Res (Option MetroFile) :=
  getParentLoop r.mFiles fileIdx r.mFolders

/-! ## Path segments -/

/-- The segments of a path that are closed by a backslash, in order; `acc` is the part
of the current segment read so far. What follows the last backslash is no segment. -/
def segmentsAux : CharString → CharString → List CharString
  | [], _ => []
  | c :: t, acc => if c = backslash then acc :: segmentsAux t [] else segmentsAux t (acc ++ [c])

/-- The backslash-terminated segments of a path. -/
def segmentsOf (path : CharString) : List CharString := segmentsAux path []

/-- Descent through a list of segment names: each name is looked up by `scanName` in the
range of the entry reached so far. -/
def resolveSegments (ext : Externals) (mFiles : List MetroFile) :
    List CharString → MetroFile → Res (Option MetroFile)
  | [], folder => .ok (some folder)
  | name :: rest, folder =>
    match scanName mFiles name ext.InvalidFileIdx folder.range with
    | .ok folderIdx =>
      if folderIdx = ext.InvalidFileIdx then .ok none
      else
        match mFiles[folderIdx]? with
        | none => .outOfBounds
        | some next => resolveSegments ext mFiles rest next
    | .outOfBounds => .outOfBounds
    | .outOfFuel => .outOfFuel

/-- The path in which every name is followed by one backslash. -/
def chainPath (names : List CharString) : CharString :=
  (names.map (fun n => n ++ [backslash])).flatten

/-- The path in which consecutive names are separated by one backslash. -/
def joinPath (names : List CharString) : CharString := List.intercalate [backslash] names

/-- A chain of folder entries below `cur`: each one lies in the containment range of
the one before. -/
inductive FolderChain (mFiles : List MetroFile) : MetroFile → List MetroFile → Prop where
  | nil (cur : MetroFile) : FolderChain mFiles cur []
  | cons {cur G : MetroFile} {rest : List MetroFile} (i : Nat) (hi : i ∈ cur.range)
      (hG : mFiles[i]? = some G) (hfolder : G.IsFile = false)
      (hrest : FolderChain mFiles G rest) : FolderChain mFiles cur (G :: rest)

/-- The entries of every folder range exist. -/
def RangesInBounds (mFiles : List MetroFile) : Prop :=
  ∀ G ∈ mFiles, G.IsFile = false → ∀ j ∈ G.range, j < mFiles.length

/-- Within the range of a folder no two entries carry the same name. -/
def SiblingNamesDistinct (mFiles : List MetroFile) : Prop :=
  ∀ G ∈ mFiles, G.IsFile = false → ∀ j ∈ G.range, ∀ k ∈ G.range, ∀ A B : MetroFile,
    mFiles[j]? = some A → mFiles[k]? = some B → A.name = B.name → j = k

/-! ## The containment hierarchy -/

/-- Every folder range is in bounds and starts strictly after the index of its folder. -/
def FoldersAfterSelf (mFiles : List MetroFile) : Prop :=
  ∀ (g : Nat) (G : MetroFile), mFiles[g]? = some G → G.IsFile = false →
    g < G.firstFile ∧ G.firstFile + G.numFiles ≤ mFiles.length

/-- No entry lies in the containment range of two different folders. -/
def RangesDisjoint (mFiles : List MetroFile) : Prop :=
  ∀ (g h : Nat) (G H : MetroFile) (x : Nat), mFiles[g]? = some G → mFiles[h]? = some H →
    G.IsFile = false → H.IsFile = false → x ∈ G.range → x ∈ H.range → g = h

/-- Entry `x` is reachable from entry `f` through the containment hierarchy: it lies in
the range of `f`, or it is reachable from a folder that lies in the range of `f`. -/
inductive Reach (mFiles : List MetroFile) : Nat → Nat → Prop where
  | direct {f x : Nat} {F : MetroFile} (hF : mFiles[f]? = some F) (hx : x ∈ F.range) :
      Reach mFiles f x
  | step {f g x : Nat} {F G : MetroFile} (hF : mFiles[f]? = some F) (hg : g ∈ F.range)
      (hG : mFiles[g]? = some G) (hfolder : G.IsFile = false) (hx : Reach mFiles g x) :
      Reach mFiles f x

/-- Entry `x` is a file entry reachable from `f`. -/
def ReachFile (mFiles : List MetroFile) (f x : Nat) : Prop :=
  Reach mFiles f x ∧ ∃ X : MetroFile, mFiles[x]? = some X ∧ X.IsFile = true

/-- What one entry `i` of a range contributes to the files below a folder: itself when it
is a file, the files given by `below i` when it is a folder. -/
def childFiles (mFiles : List MetroFile) (below : Nat → List Nat) (i : Nat) : List Nat :=
  match mFiles[i]? with
  | none => []
  | some X => if X.IsFile then [i] else below i

/-- The file entries reachable from `f`, listed along the hierarchy to depth `depth`. -/
def filesBelow (mFiles : List MetroFile) : (depth : Nat) → Nat → List Nat
  | 0, _ => []
  | depth + 1, f =>
    match mFiles[f]? with
    | none => []
    | some F => F.range.flatMap (childFiles mFiles (filesBelow mFiles depth))

/-- The body of the loop of `CountFilesInFolder` with the recursive call given as `cnt`. -/
def countBody (mFiles : List MetroFile) (cnt : Nat → Res Nat) (result i : Nat) : Res Nat :=
  match mFiles[i]? with
  | none => Res.outOfBounds
  | some mf =>
    if mf.IsFile then Res.ok ((result + 1) % 2 ^ 64)
    else
      match cnt i with
      | .ok c => Res.ok ((result + c) % 2 ^ 64)
      | .outOfBounds => Res.outOfBounds
      | .outOfFuel => Res.outOfFuel

/-- The number of file entries in a list of indices. -/
def countFileEntries (mFiles : List MetroFile) (l : List Nat) : Nat :=
  (l.filter (fun i => match mFiles[i]? with
    | some X => X.IsFile
    | none => false)).length

/-- The indices of a list whose entries are folders. -/
def folderEntries (mFiles : List MetroFile) (l : List Nat) : List Nat :=
  l.filter (fun i => match mFiles[i]? with
    | some X => !X.IsFile
    | none => false)

/-- Entry `z` is `a` itself or is reachable from the folder `a`. -/
def AtOrBelow (mFiles : List MetroFile) (a z : Nat) : Prop :=
  z = a ∨ ∃ A : MetroFile, mFiles[a]? = some A ∧ A.IsFile = false ∧ Reach mFiles a z

/-- The entries stored by the loop of lines 84-104 for the records `es`, over the
resized vector `olds`, starting at index `k`. -/
def parsedEntries : List MetroFile → Nat → List EntryRecord → List MetroFile
  | old :: olds, k, e :: es => parsedEntry old k e :: parsedEntries olds (k + 1) es
  | _, _, _ => []

/-- The positions, counted from `k`, of the records that are folders. -/
def folderIndices : Nat → List EntryRecord → List Nat
  | _, [] => []
  | k, e :: es => if e.mf.IsFile then folderIndices (k + 1) es else k :: folderIndices (k + 1) es

/-! ## Sample data -/

/-- A folder entry with the given name and range. -/
def mkFolder (idx : Nat) (name : CharString) (firstFile numFiles : Nat) : MetroFile :=
  { idx := idx, flags := 0, name := name, pakIdx := 0, offset := 0, sizeUncompressed := 0,
    sizeCompressed := 0, numFiles := numFiles, firstFile := firstFile }

/-- A file entry with the given name, package, offset and sizes. -/
def mkFile (idx : Nat) (name : CharString) (pakIdx offset sizeUncompressed sizeCompressed : Nat) :
    MetroFile :=
  { idx := idx, flags := 1, name := name, pakIdx := pakIdx, offset := offset,
    sizeUncompressed := sizeUncompressed, sizeCompressed := sizeCompressed, numFiles := 0,
    firstFile := 0 }

/-- An archive value: one package, a root folder holding one file. -/
def sampleArchive : Archive :=
  { contentVersion := [49, 46, 48], guid := List.replicate 16 7, unknown_0 := 0,
    paks := [{ name := [112], levels := [[108, 49]], chunk := 5 }],
    entries := [{ mf := mkFolder 0 [] 1 1, xorMask := 17, terminator := 17 },
                { mf := mkFile 1 [97] 0 1 3 3, xorMask := 90, terminator := 90 }] }

/-- Sample surroundings: all-ones sentinels, an index file named `i`, a package file named
`p`, a decompressor that always fills the destination. -/
def sampleExternals : Externals :=
  { Type_LZ4 := 1, kInvalidValue := 2 ^ 64 - 1, InvalidFileIdx := 2 ^ 64 - 1,
    newPak := { name := [], levels := [], chunk := 0 },
    newFile := mkFolder 0 [] 0 0,
    disk := fun p =>
      if p.filename = [105] then some (serialize kVFXVersionExodus 1 sampleArchive)
      else if p.filename = [112] then some [10, 20, 30, 40, 50]
      else none,
    DecompressStream := fun _ _ dstLen => (List.replicate dstLen 0, dstLen),
    junk := fun _ => 0 }

/-- A reader over entries and packages given directly. -/
def readerOf (mFiles : List MetroFile) (mPaks : List Pak) : VFXReader :=
  { mContentVersion := [], mGUID := [], mPaks := mPaks, mFiles := mFiles, mFolders := [],
    mBasePath := [], mFileName := [] }

/-- Root folder holding the folder `a` (which holds the folder `b`) and the file `f`. -/
def treeFiles : List MetroFile :=
  [mkFolder 0 [] 1 2, mkFolder 1 [97] 3 1, mkFile 2 [102] 0 1 3 3, mkFolder 3 [98] 4 0]

/-- Root folder whose range holds the file `a` only. -/
def fileOnlyFiles : List MetroFile := [mkFolder 0 [] 1 1, mkFile 1 [97] 0 0 4 4]

/-- Root folder whose range holds the empty folder `a` only. -/
def folderOnlyFiles : List MetroFile := [mkFolder 0 [] 1 1, mkFolder 1 [97] 2 0]

/-- Root folder with range `[1, 3)`, a folder at 1 with range `[2, 3)`, a file at 2: the
file lies in both ranges. -/
def overlapFiles : List MetroFile :=
  [mkFolder 0 [] 1 2, mkFolder 1 [97] 2 1, mkFile 2 [102] 0 0 4 4]

/-- Root folder, then a file stored raw and a file stored compressed in package `p`. -/
def extractFiles : List MetroFile :=
  [mkFolder 0 [] 1 2, mkFile 1 [97] 0 1 3 3, mkFile 2 [98] 0 0 4 2]

/-- The archive value of `fileOnlyFiles`, with one package. -/
def fileOnlyArchive : Archive :=
  { contentVersion := [49], guid := List.replicate 16 0, unknown_0 := 0,
    paks := [{ name := [112], levels := [], chunk := 0 }],
    entries := [{ mf := mkFolder 0 [] 1 1, xorMask := 17, terminator := 17 },
                { mf := mkFile 1 [97] 0 0 4 4, xorMask := 90, terminator := 90 }] }

/-- The archive value of `folderOnlyFiles`. -/
def folderOnlyArchive : Archive :=
  { contentVersion := [49], guid := List.replicate 16 0, unknown_0 := 0, paks := [],
    entries := [{ mf := mkFolder 0 [] 1 1, xorMask := 17, terminator := 17 },
                { mf := mkFolder 1 [97] 2 0, xorMask := 90, terminator := 90 }] }

/-- The sample surroundings with the index file of `a` on disk. -/
def diskOf (a : Archive) : Externals :=
  { sampleExternals with disk := fun _ => some (serialize kVFXVersionExodus 1 a) }

/-- The path of the index file. -/
def indexPath : FsPath := { parent_path := [], filename := [105] }

/-- The reader that holds `fileOnlyArchive` after a load. -/
def fileOnlyReader : VFXReader :=
  { mContentVersion := [49], mGUID := List.replicate 16 0,
    mPaks := [{ name := [112], levels := [], chunk := 0 }], mFiles := fileOnlyFiles,
    mFolders := [0], mBasePath := [], mFileName := [105] }

/-- The reader that holds `folderOnlyArchive` after a load. -/
def folderOnlyReader : VFXReader :=
  { mContentVersion := [49], mGUID := List.replicate 16 0, mPaks := [],
    mFiles := folderOnlyFiles, mFolders := [0, 1], mBasePath := [], mFileName := [105] }

/-! ## Definitions for the folder queries on loaded archives -/

/-- `VFXReader::FindFilesInFolder(folder, extension, withSubfolders)` (lines 281-290), the
overload that takes the folder as a path: `GetFolder` from the root, then the overload
on the index `folderPtr->idx`; an empty list when the path does not resolve. -/
def VFXReader.FindFilesInFolderPath (ext : Externals) (r : VFXReader) (folder : CharString)
    (extension : CharString) (withSubfolders : Bool) (fuel : Nat) : Res (List Nat) :=
  match r.GetFolder ext folder none with
  | .ok (some folderPtr) => r.FindFilesInFolder extension withSubfolders fuel folderPtr.idx
  | .ok none => .ok []
  | .outOfBounds => .outOfBounds
  | .outOfFuel => .outOfFuel

/-- Every entry carries its own position in the field `idx`. -/
def IdxIsPosition (mFiles : List MetroFile) : Prop :=
  ∀ (i : Nat) (mf : MetroFile), mFiles[i]? = some mf → mf.idx = i

/-- The positions, counted from `k`, of the entries that are folders. -/
def folderPositionsFrom : Nat → List MetroFile → List Nat
  | _, [] => []
  | k, mf :: rest =>
    if mf.IsFile then folderPositionsFrom (k + 1) rest else k :: folderPositionsFrom (k + 1) rest

/-- Whether the entry at index `x` carries a name that ends with `extension`. -/
def nameEndsWith (mFiles : List MetroFile) (extension : CharString) (x : Nat) : Bool :=
  match mFiles[x]? with
  | some X => StrEndsWith X.name extension
  | none => false

/-- What one entry `i` of a range contributes to the result of `FindFilesInFolder`: its
index when it is a file whose name ends with `extension`, the list `sub i` when it is a
folder. -/
def childMatches (mFiles : List MetroFile) (extension : CharString) (sub : Nat → List Nat)
    (i : Nat) : List Nat :=
  match mFiles[i]? with
  | none => []
  | some X => if X.IsFile then (if StrEndsWith X.name extension then [i] else []) else sub i

/-- The folder entries listed in `mFolders`, in the order of the list. -/
def listedFolders (r : VFXReader) : List MetroFile := r.mFolders.filterMap (fun i => r.mFiles[i]?)

/-- Root folder with range `[1, 3)`: the folder `a` (range `[3, 4)`) and the file `f`; the
file `g` at index 3 lies in `a`. -/
def preorderFiles : List MetroFile :=
  [mkFolder 0 [] 1 2, mkFolder 1 [97] 3 1, mkFile 2 [102] 0 0 4 4, mkFile 3 [103] 0 4 4 4]

/-- A root folder with an empty range, followed by a file that lies in no range. -/
def orphanFiles : List MetroFile := [mkFolder 0 [] 1 0, mkFile 1 [97] 0 0 4 4]

/-- A single root folder whose range `[5, 8)` lies outside the entry table. -/
def wildRangeFiles : List MetroFile := [mkFolder 0 [] 5 3]

/-- A single folder whose range `[0, 1)` holds its own index. -/
def selfLoopFiles : List MetroFile := [mkFolder 0 [] 0 1]

/-- An archive value with one package and the given entries, each name masked with
`0x5A`. -/
def archiveOf (paks : List Pak) (entries : List MetroFile) : Archive :=
  { contentVersion := [49], guid := List.replicate 16 0, unknown_0 := 0, paks := paks,
    entries := entries.map (fun mf => { mf := mf, xorMask := 90, terminator := 90 }) }

/-- The reader that holds `archiveOf paks entries` after one load of the file `i` into a
fresh reader, when every entry has its position in `idx` and unused fields zero. -/
def loadedReader (paks : List Pak) (entries : List MetroFile) (folders : List Nat) : VFXReader :=
  { mContentVersion := [49], mGUID := List.replicate 16 0, mPaks := paks, mFiles := entries,
    mFolders := folders, mBasePath := [], mFileName := [105] }

/-- The package `p` of the samples. -/
def samplePak : Pak := { name := [112], levels := [], chunk := 0 }

/-! ## Lemmas: outcomes and stream reads -/

@[simp] theorem Res.ok_bind {α β : Type} (v : α) (f : α → Res β) :
    (Res.ok v >>= f) = f v := rfl

@[simp] theorem Res.pure_eq {α : Type} (v : α) : (pure v : Res α) = Res.ok v := rfl

@[simp] theorem Res.outOfBounds_bind {α β : Type} (f : α → Res β) :
    ((Res.outOfBounds : Res α) >>= f) = Res.outOfBounds := rfl

@[simp] theorem Res.outOfFuel_bind {α β : Type} (f : α → Res β) :
    ((Res.outOfFuel : Res α) >>= f) = Res.outOfFuel := rfl

@[simp] theorem MemStream.advance_zero (s : MemStream) : s.advance 0 = s := by
  cases s; simp [MemStream.advance]

@[simp] theorem MemStream.advance_advance (s : MemStream) (a b : Nat) :
    (s.advance a).advance b = s.advance (a + b) := by
  simp [MemStream.advance, Nat.add_assoc]

theorem MemStream.remaining_advance (s : MemStream) (xs rest : List Nat)
    (h : s.remaining = xs ++ rest) : (s.advance xs.length).remaining = rest := by
  simp only [MemStream.remaining, MemStream.advance] at h ⊢
  rw [← List.drop_drop, h]
  simp

theorem MemStream.ReadU8_cons (s : MemStream) (b : Nat) (rest : List Nat)
    (h : s.remaining = b :: rest) : s.ReadU8 = .ok (b % 256, s.advance 1) := by
  simp [MemStream.ReadU8, h]

theorem MemStream.remaining_advance_one (s : MemStream) (b : Nat) (rest : List Nat)
    (h : s.remaining = b :: rest) : (s.advance 1).remaining = rest :=
  MemStream.remaining_advance s [b] rest h


theorem MemStream.ReadTyped_leBytes (w : Nat) : ∀ (v : Nat) (s : MemStream) (rest : List Nat),
    v < 256 ^ w → s.remaining = leBytes w v ++ rest →
    s.ReadTyped w = .ok (v, s.advance w) ∧ (s.advance w).remaining = rest := by
  induction w with
  | zero =>
    intro v s rest hv h
    have : v = 0 := by simpa using hv
    subst this
    simpa [MemStream.ReadTyped, leBytes] using h
  | succ w ih =>
    intro v s rest hv h
    have hcons : s.remaining = v % 256 :: (leBytes w (v / 256) ++ rest) := by
      simpa [leBytes] using h
    have hdiv : v / 256 < 256 ^ w := by
      rw [Nat.div_lt_iff_lt_mul (by norm_num)]
      rw [pow_succ] at hv
      exact hv
    obtain ⟨h1, h2⟩ := ih (v / 256) (s.advance 1) rest hdiv
      (MemStream.remaining_advance_one s (v % 256) _ hcons)
    have hadd : 1 + w = w + 1 := Nat.add_comm 1 w
    refine ⟨?_, ?_⟩
    · simp only [MemStream.ReadTyped, MemStream.ReadU8_cons s _ _ hcons, Res.ok_bind, h1,
        MemStream.advance_advance, Res.pure_eq, Nat.mod_mod, hadd]
      congr 2
      omega
    · simpa [hadd] using h2

/-- One `char` read: the byte at the cursor. -/
theorem MemStream.ReadTyped_one (s : MemStream) (b : Nat) (rest : List Nat) (hb : b < 256)
    (h : s.remaining = b :: rest) :
    s.ReadTyped 1 = .ok (b, s.advance 1) ∧ (s.advance 1).remaining = rest := by
  have := MemStream.ReadTyped_leBytes 1 b s rest (by simpa using hb)
    (by simpa [leBytes, Nat.mod_eq_of_lt hb] using h)
  simpa using this

/-- One `char` read of any byte value: it is taken modulo 256. -/
theorem MemStream.ReadTyped_one_mod (s : MemStream) (b : Nat) (rest : List Nat)
    (h : s.remaining = b :: rest) : s.ReadTyped 1 = .ok (b % 256, s.advance 1) := by
  simp [MemStream.ReadTyped, MemStream.ReadU8_cons s b rest h]

theorem xor_mask_lt (c X : Nat) (hc : c < 256) (hX : X < 256) : c ^^^ X < 256 :=
  Nat.xor_lt_two_pow (n := 8) (by simpa using hc) (by simpa using hX)

theorem xor_mask_cancel (c X : Nat) (hc : c < 256) : ((c ^^^ X) ^^^ X) % 256 = c := by
  rw [Nat.xor_assoc, Nat.xor_self, Nat.xor_zero, Nat.mod_eq_of_lt hc]

theorem readCharsXored_map (X : Nat) (hX : X < 256) : ∀ (S : CharString) (s : MemStream)
    (acc : CharString) (rest : List Nat), (∀ c ∈ S, c < 256) →
    s.remaining = S.map (fun c => c ^^^ X) ++ rest →
    readCharsXored X S.length s acc = .ok (acc ++ S, s.advance S.length) ∧
      (s.advance S.length).remaining = rest := by
  intro S
  induction S with
  | nil =>
    intro s acc rest _ h
    simpa [readCharsXored] using h
  | cons c S ih =>
    intro s acc rest hS h
    have hc : c < 256 := hS c (by simp)
    have hcons : s.remaining = (c ^^^ X) :: (S.map (fun c => c ^^^ X) ++ rest) := by
      simpa using h
    obtain ⟨h1, h2⟩ := MemStream.ReadTyped_one s _ _ (xor_mask_lt c X hc hX) hcons
    obtain ⟨h3, h4⟩ := ih (s.advance 1) (acc ++ [c]) rest
      (fun d hd => hS d (by simp [hd])) h2
    have hadd : 1 + S.length = S.length + 1 := Nat.add_comm _ _
    refine ⟨?_, ?_⟩
    · simp only [List.length_cons, readCharsXored, h1, Res.ok_bind, xor_mask_cancel c X hc, h3,
        MemStream.advance_advance, hadd]
      simp
    · simpa [hadd] using h4

theorem header_low (a b : Nat) (ha : a < 256) : (a + 256 * b) &&& 0xFF = a := by
  have h : (0xFF : Nat) = 2 ^ 8 - 1 := by norm_num
  rw [h, Nat.and_pow_two_sub_one_eq_mod]
  omega

theorem header_high (a b : Nat) (ha : a < 256) (hb : b < 256) :
    ((a + 256 * b) >>> 8) &&& 0xFF = b := by
  have h : (0xFF : Nat) = 2 ^ 8 - 1 := by norm_num
  rw [h, Nat.and_pow_two_sub_one_eq_mod, Nat.shiftRight_eq_div_pow]
  omega

/-- The decoder on an encoded string, anywhere in a stream: the string comes back and
the cursor ends right after the terminator. -/
theorem readCharStringXored_encodeXored (S : CharString) (X terminator : Nat) (s : MemStream)
    (rest : List Nat) (hlen : S.length ≤ 254) (hS : ∀ c ∈ S, c < 256) (hX : X < 256)
    (hs : s.remaining = encodeXored S X terminator ++ rest) :
    readCharStringXored s = .ok (S, s.advance (S.length + 3)) ∧
      (s.advance (S.length + 3)).remaining = rest := by
  have hv : (S.length + 1) + 256 * X < 256 ^ 2 := by norm_num; omega
  have hhead : s.remaining = leBytes 2 ((S.length + 1) + 256 * X) ++
      (S.map (fun c => c ^^^ X) ++ terminator :: rest) := by
    rw [hs]
    have e1 : (S.length + 1 + 256 * X) % 256 = S.length + 1 := by omega
    have e2 : (S.length + 1 + 256 * X) / 256 % 256 = X := by omega
    simp [encodeXored, leBytes, e1, e2]
  obtain ⟨h1, h2⟩ := MemStream.ReadTyped_leBytes 2 _ s _ hv hhead
  obtain ⟨h3, h4⟩ := readCharsXored_map X hX S (s.advance 2) [] _ hS h2
  have h5 : ((s.advance 2).advance S.length).ReadTyped 1 =
      .ok (terminator % 256, ((s.advance 2).advance S.length).advance 1) :=
    MemStream.ReadTyped_one_mod _ _ _ h4
  have h6 := MemStream.remaining_advance_one _ _ _ h4
  have e : 2 + S.length + 1 = S.length + 3 := by omega
  simp only [MemStream.advance_advance, List.nil_append] at h3 h5
  refine ⟨?_, ?_⟩
  · simp only [readCharStringXored, h1, Res.ok_bind, header_low _ X (by omega : S.length + 1 < 256),
      header_high _ X (by omega : S.length + 1 < 256) hX, Nat.add_sub_cancel, h3, h5, Res.pure_eq, List.nil_append, MemStream.advance_advance, e]
  · simpa [e] using h6


/-! ## Lemmas: unsupported formats -/

theorem loadFromData_header (ext : Externals) (filePath : FsPath) (r : VFXReader)
    (version compressionType : Nat) (rest : List Nat)
    (hv : version < 2 ^ 32) (hc : compressionType < 2 ^ 32) :
    r.loadFromData ext filePath (leBytes 4 version ++ leBytes 4 compressionType ++ rest) =
      if version = kVFXVersionExodus ∧ compressionType = ext.Type_LZ4 then
        (do
          let s2 := (MemStream.over
            (leBytes 4 version ++ leBytes 4 compressionType ++ rest)).advance 8
          let (contentVersion, s3) ← s2.ReadStringZ
          let (guid, s4) ← s3.ReadBytes 16
          let (numVFS, s5) ← s4.ReadTyped 4
          let (numFiles, s6) ← s5.ReadTyped 4
          let (_unknown_0, s7) ← s6.ReadTyped 4
          let (paks, s8) ← readPaks (resize r.mPaks numVFS ext.newPak) s7
          let (files, folders, _) ←
            readFiles (resize r.mFiles numFiles ext.newFile) 0 r.mFolders s8
          pure (true, { mContentVersion := contentVersion, mGUID := guid, mPaks := paks,
                        mFiles := files, mFolders := folders,
                        mBasePath := filePath.parent_path, mFileName := filePath.filename }))
      else .ok (false, r) := by
  set data := leBytes 4 version ++ leBytes 4 compressionType ++ rest with hdata
  have h0 : (MemStream.over data).remaining =
      leBytes 4 version ++ (leBytes 4 compressionType ++ rest) := by
    simp [MemStream.remaining, MemStream.over, hdata]
  obtain ⟨h1, h2⟩ := MemStream.ReadTyped_leBytes 4 version _ _ (by norm_num; omega) h0
  obtain ⟨h3, h4⟩ := MemStream.ReadTyped_leBytes 4 compressionType _ _ (by norm_num; omega) h2
  simp only [MemStream.advance_advance] at h3
  simp only [VFXReader.loadFromData, h1, h3, Res.ok_bind]
  split <;> rfl

/-! ## Lemmas: the sub-range window -/

theorem sizeSub_eq (a b : Nat) (ha : a < 2 ^ 64) (hb : b ≤ a) : sizeSub a b = a - b := by
  unfold sizeSub
  have : b % 2 ^ 64 = b := Nat.mod_eq_of_lt (by omega)
  rw [this]
  have : a + 2 ^ 64 - b = (a - b) + 2 ^ 64 := by omega
  rw [this, Nat.add_mod_right]
  exact Nat.mod_eq_of_lt (by omega)

theorem streamWindow_fst (ext : Externals) (n subOffset subLength : Nat) :
    (streamWindow ext n subOffset subLength).1 =
      if subOffset = ext.kInvalidValue then 0 else min subOffset n := rfl

theorem streamWindow_fst_le (ext : Externals) (n subOffset subLength : Nat) :
    (streamWindow ext n subOffset subLength).1 ≤ n := by
  rw [streamWindow_fst]
  split
  · exact Nat.zero_le n
  · exact Nat.min_le_right _ _

theorem streamWindow_snd (ext : Externals) (n subOffset subLength : Nat) (hn : n < 2 ^ 64) :
    (streamWindow ext n subOffset subLength).2 =
      if subLength = ext.kInvalidValue then n - (streamWindow ext n subOffset subLength).1
      else min subLength (n - (streamWindow ext n subOffset subLength).1) := by
  have hle := streamWindow_fst_le ext n subOffset subLength
  have hs := sizeSub_eq n _ hn hle
  simp only [streamWindow] at hs ⊢
  rw [hs]

theorem streamWindow_sum_le (ext : Externals) (n subOffset subLength : Nat) (hn : n < 2 ^ 64) :
    (streamWindow ext n subOffset subLength).1 + (streamWindow ext n subOffset subLength).2 ≤ n := by
  have hle := streamWindow_fst_le ext n subOffset subLength
  rw [streamWindow_snd ext n subOffset subLength hn]
  split
  · omega
  · have := Nat.min_le_right subLength (n - (streamWindow ext n subOffset subLength).1)
    omega

/-! ## Lemmas: the extractor -/

theorem readAt_of_le (ext : Externals) (bytes : List Nat) (offset n : Nat)
    (h : offset + n ≤ bytes.length) : readAt ext bytes offset n = (bytes.drop offset).take n := by
  have hl : ((bytes.drop offset).take n).length = n := by
    rw [List.length_take, List.length_drop]
    omega
  simp [readAt, hl]

theorem ExtractFile_eq (ext : Externals) (r : VFXReader) (fileIdx subOffset subLength : Nat)
    (mf : MetroFile) (pak : Pak) (hmf : r.mFiles[fileIdx]? = some mf)
    (hpak : r.mPaks[mf.pakIdx]? = some pak) :
    r.ExtractFile ext fileIdx subOffset subLength =
      match ext.disk { parent_path := r.mBasePath, filename := pak.name } with
      | none => .ok MemStream.empty
      | some bytes =>
        let fileContent := readAt ext bytes mf.offset mf.sizeCompressed
        let result : MemStream :=
          if mf.sizeCompressed = mf.sizeUncompressed then
            MemStream.over (fileContent.take mf.sizeUncompressed)
          else if (ext.DecompressStream fileContent mf.sizeCompressed mf.sizeUncompressed).2 =
              mf.sizeUncompressed then
            MemStream.over ((ext.DecompressStream fileContent mf.sizeCompressed
              mf.sizeUncompressed).1.take mf.sizeUncompressed)
          else MemStream.empty
        .ok (if result.Good then
            result.SetWindow (streamWindow ext mf.sizeUncompressed subOffset subLength).1
              (streamWindow ext mf.sizeUncompressed subOffset subLength).2
          else result) := by
  simp only [VFXReader.ExtractFile, hmf, hpak]


/-! ## Lemmas: path segments and the loop of `GetFolder` -/

theorem exists_first_backslash : ∀ (suf : CharString), backslash ∈ suf →
    ∃ seg tail, suf = seg ++ backslash :: tail ∧ backslash ∉ seg := by
  intro suf
  induction suf with
  | nil => intro h; simp at h
  | cons c t ih =>
    intro h
    by_cases hc : c = backslash
    · exact ⟨[], t, by simp [hc], by simp⟩
    · have ht : backslash ∈ t := by
        rcases List.mem_cons.mp h with h | h
        · exact absurd h.symm hc
        · exact h
      obtain ⟨seg, tail, e, hn⟩ := ih ht
      refine ⟨c :: seg, tail, by simp [e], ?_⟩
      simp only [List.mem_cons, not_or]
      exact ⟨fun h => hc h.symm, hn⟩

theorem indexOf_first (seg tail : CharString) (c : Nat) (h : c ∉ seg) :
    (seg ++ c :: tail).indexOf c = seg.length := by
  induction seg with
  | nil => simp
  | cons d seg ih =>
    have hd : d ≠ c := fun e => h (by simp [e])
    have hs : c ∉ seg := fun e => h (by simp [e])
    simp [List.indexOf_cons, hd, ih hs]

theorem segmentsAux_no_backslash : ∀ (suf acc : CharString), backslash ∉ suf →
    segmentsAux suf acc = [] := by
  intro suf
  induction suf with
  | nil => intro acc _; rfl
  | cons c t ih =>
    intro acc h
    have hc : c ≠ backslash := fun e => h (by simp [e])
    have ht : backslash ∉ t := fun e => h (by simp [e])
    simp [segmentsAux, hc, ih _ ht]

theorem segmentsAux_first : ∀ (seg acc tail : CharString), backslash ∉ seg →
    segmentsAux (seg ++ backslash :: tail) acc = (acc ++ seg) :: segmentsAux tail [] := by
  intro seg
  induction seg with
  | nil => intro acc tail _; simp [segmentsAux]
  | cons c t ih =>
    intro acc tail h
    have hc : c ≠ backslash := fun e => h (by simp [e])
    have ht : backslash ∉ t := fun e => h (by simp [e])
    simp [segmentsAux, hc, ih _ _ ht]

theorem segmentsOf_first (seg tail : CharString) (h : backslash ∉ seg) :
    segmentsOf (seg ++ backslash :: tail) = seg :: segmentsOf tail := by
  simpa [segmentsOf] using segmentsAux_first seg [] tail h

theorem segmentsOf_chainPath : ∀ (names : List CharString) (tail : CharString),
    (∀ n ∈ names, backslash ∉ n) →
    segmentsOf (chainPath names ++ tail) = names ++ segmentsOf tail := by
  intro names
  induction names with
  | nil => intro tail _; simp [chainPath]
  | cons n names ih =>
    intro tail h
    have e : chainPath (n :: names) ++ tail = n ++ backslash :: (chainPath names ++ tail) := by
      simp [chainPath]
    rw [e, segmentsOf_first _ _ (h n (by simp)), ih tail (fun m hm => h m (by simp [hm]))]
    rfl

theorem findFirstOf_none (pre suf : CharString) (h : backslash ∉ suf) :
    findFirstOf (pre ++ suf) backslash pre.length = none := by
  simp [findFirstOf, h]

theorem findFirstOf_first (pre seg tail : CharString) (h : backslash ∉ seg) :
    findFirstOf (pre ++ (seg ++ backslash :: tail)) backslash pre.length =
      some (pre.length + seg.length) := by
  simp [findFirstOf, indexOf_first seg tail backslash h]

theorem getFolderLoop_eq (ext : Externals) (mFiles : List MetroFile) : ∀ (fuel : Nat)
    (pre suf : CharString) (folder : MetroFile), suf.length < fuel →
    getFolderLoop ext mFiles (pre ++ suf) fuel (findFirstOf (pre ++ suf) backslash pre.length)
      pre.length folder = resolveSegments ext mFiles (segmentsOf suf) folder := by
  intro fuel
  induction fuel with
  | zero => intro pre suf folder h; omega
  | succ fuel ih =>
    intro pre suf folder hfuel
    by_cases hb : backslash ∈ suf
    · obtain ⟨seg, tail, e, hn⟩ := exists_first_backslash suf hb
      subst e
      have hsub : substr (pre ++ (seg ++ backslash :: tail)) pre.length
          (pre.length + seg.length - pre.length) = seg := by
        simp [substr]
      have hpath : pre ++ (seg ++ backslash :: tail) = (pre ++ seg ++ [backslash]) ++ tail := by
        simp
      have hlen : pre.length + seg.length + 1 = (pre ++ seg ++ [backslash]).length := by
        simp [Nat.add_assoc]
      have htail : tail.length < fuel := by
        simp at hfuel
        omega
      have hrec := ih (pre ++ seg ++ [backslash]) tail
      rw [findFirstOf_first pre seg tail hn, segmentsOf_first seg tail hn]
      simp only [getFolderLoop, resolveSegments, hsub]
      cases hscan : scanName mFiles seg ext.InvalidFileIdx folder.range with
      | ok folderIdx =>
        simp only []
        split
        · rfl
        · cases hnext : mFiles[folderIdx]? with
          | none => rfl
          | some next =>
            simp only []
            rw [hlen, hpath]
            exact hrec next htail
      | outOfBounds => rfl
      | outOfFuel => rfl
    · rw [findFirstOf_none pre suf hb]
      simp [getFolderLoop, segmentsOf, segmentsAux_no_backslash suf [] hb, resolveSegments]

/-- `GetFolder` descends through the backslash-terminated segments of the path. -/
theorem GetFolder_eq_resolveSegments (ext : Externals) (r : VFXReader) (folderPath : CharString)
    (inFolder : Option MetroFile) :
    r.GetFolder ext folderPath inFolder =
      (startFolder r.mFiles inFolder >>= fun folder =>
        resolveSegments ext r.mFiles (segmentsOf folderPath) folder) := by
  have h := fun folder => getFolderLoop_eq ext r.mFiles (folderPath.length + 1) [] folderPath
    folder (Nat.lt_succ_self _)
  simp only [List.nil_append, List.length_nil] at h
  simp only [VFXReader.GetFolder, h]


/-! ## Lemmas: name scans and chains of folders -/

theorem scanName_not_found (mFiles : List MetroFile) (name : CharString) (notFound : Nat) :
    ∀ (l : List Nat), (∀ j ∈ l, j < mFiles.length) →
    (∀ j ∈ l, ∀ A : MetroFile, mFiles[j]? = some A → A.name ≠ name) →
    scanName mFiles name notFound l = .ok notFound := by
  intro l
  induction l with
  | nil => intro _ _; rfl
  | cons j l ih =>
    intro hb hn
    have hj : j < mFiles.length := hb j (by simp)
    have hget : mFiles[j]? = some mFiles[j] := List.getElem?_eq_getElem hj
    have hne : name ≠ (mFiles[j]).name := fun e => hn j (by simp) _ hget e.symm
    simp only [scanName, hget, hne, if_false]
    exact ih (fun k hk => hb k (by simp [hk])) (fun k hk => hn k (by simp [hk]))

theorem scanName_found (mFiles : List MetroFile) (name : CharString) (notFound i : Nat)
    (G : MetroFile) (hG : mFiles[i]? = some G) (hname : G.name = name) :
    ∀ (l : List Nat), i ∈ l → (∀ j ∈ l, j < mFiles.length) →
    (∀ j ∈ l, ∀ A : MetroFile, mFiles[j]? = some A → A.name = name → j = i) →
    scanName mFiles name notFound l = .ok i := by
  intro l
  induction l with
  | nil => intro h; simp at h
  | cons j l ih =>
    intro hi hb hu
    have hj : j < mFiles.length := hb j (by simp)
    have hget : mFiles[j]? = some mFiles[j] := List.getElem?_eq_getElem hj
    by_cases hjn : (mFiles[j]).name = name
    · have hji : j = i := hu j (by simp) _ hget hjn
      subst hji
      simp [scanName, hG, hname]
    · have hne : name ≠ (mFiles[j]).name := fun e => hjn e.symm
      have hji : j ≠ i := by
        intro e
        subst e
        rw [hget] at hG
        cases hG
        exact hjn hname
      have hil : i ∈ l := by
        rcases List.mem_cons.mp hi with h | h
        · exact absurd h.symm hji
        · exact h
      simp only [scanName, hget, hne, if_false]
      exact ih hil (fun k hk => hb k (by simp [hk])) (fun k hk => hu k (by simp [hk]))

theorem resolveSegments_chain (ext : Externals) (mFiles : List MetroFile)
    (hB : RangesInBounds mFiles) (hD : SiblingNamesDistinct mFiles)
    (hI : mFiles.length ≤ ext.InvalidFileIdx) :
    ∀ (cur : MetroFile) (chain : List MetroFile), FolderChain mFiles cur chain →
    cur ∈ mFiles → cur.IsFile = false → ∀ (rest : List CharString),
    resolveSegments ext mFiles (chain.map (fun G => G.name) ++ rest) cur =
      resolveSegments ext mFiles rest (chain.getLastD cur) := by
  intro cur chain hc
  induction hc with
  | nil cur => intro _ _ rest; rfl
  | @cons cur G tl i hi hG hfolder _ ih =>
    intro hcur hcf rest
    have hGm : G ∈ mFiles := List.getElem?_mem hG
    have hscan : scanName mFiles G.name ext.InvalidFileIdx cur.range = .ok i :=
      scanName_found mFiles G.name ext.InvalidFileIdx i G hG rfl cur.range hi
        (hB cur hcur hcf)
        (fun j hj A hA hn => hD cur hcur hcf j hj i hi A G hA hG hn)
    have hlt : i < mFiles.length := hB cur hcur hcf i hi
    have hne : i ≠ ext.InvalidFileIdx := by omega
    simp only [List.map_cons, List.cons_append, resolveSegments, hscan, hne, if_false, hG,
      List.getLastD_cons]
    exact ih hGm hfolder rest

theorem segmentsAux_append_terminated : ∀ (p acc x : CharString),
    segmentsAux (p ++ backslash :: x) acc = segmentsAux (p ++ [backslash]) acc ++ segmentsAux x [] := by
  intro p
  induction p with
  | nil => intro acc x; simp [segmentsAux]
  | cons c t ih =>
    intro acc x
    by_cases hc : c = backslash
    · simp [segmentsAux, hc, ih [] x]
    · simp [segmentsAux, hc, ih (acc ++ [c]) x]

/-- After a prefix that is empty or ends with a backslash, the segments of a path are the
segments of the prefix followed by the segments of the rest. -/
theorem segmentsOf_append (pre x : CharString) (hpre : pre = [] ∨ ∃ p, pre = p ++ [backslash]) :
    segmentsOf (pre ++ x) = segmentsOf pre ++ segmentsOf x := by
  rcases hpre with h | ⟨p, h⟩
  · subst h; simp [segmentsOf, segmentsAux]
  · subst h
    have := segmentsAux_append_terminated p [] x
    simpa [segmentsOf] using this

theorem resolveSegments_append (ext : Externals) (mFiles : List MetroFile) :
    ∀ (a b : List CharString) (cur : MetroFile),
    resolveSegments ext mFiles (a ++ b) cur =
      (resolveSegments ext mFiles a cur >>= fun o =>
        match o with
        | some G => resolveSegments ext mFiles b G
        | none => .ok none) := by
  intro a
  induction a with
  | nil => intro b cur; simp [resolveSegments]
  | cons n a ih =>
    intro b cur
    simp only [List.cons_append, resolveSegments]
    cases hscan : scanName mFiles n ext.InvalidFileIdx cur.range with
    | ok folderIdx =>
      simp only []
      split
      · rfl
      · cases hnext : mFiles[folderIdx]? with
        | none => rfl
        | some next => exact ih b next
    | outOfBounds => rfl
    | outOfFuel => rfl

/-- After a segment-closed path that resolves to `G`, a segment carried by no entry of
the range of `G` makes `GetFolder` return null. -/
theorem GetFolder_unmatched_segment (ext : Externals) (r : VFXReader)
    (pre seg tail : CharString) (inFolder : Option MetroFile) (G : MetroFile)
    (hpre : pre = [] ∨ ∃ p, pre = p ++ [backslash])
    (hG : r.GetFolder ext pre inFolder = .ok (some G))
    (hseg : backslash ∉ seg)
    (hb : ∀ j ∈ G.range, j < r.mFiles.length)
    (hn : ∀ j ∈ G.range, ∀ A : MetroFile, r.mFiles[j]? = some A → A.name ≠ seg) :
    r.GetFolder ext (pre ++ (seg ++ backslash :: tail)) inFolder = .ok none := by
  rw [GetFolder_eq_resolveSegments] at hG ⊢
  rw [segmentsOf_append pre _ hpre, segmentsOf_first seg tail hseg]
  cases hs : startFolder r.mFiles inFolder with
  | ok folder =>
    rw [hs] at hG
    simp only [Res.ok_bind] at hG ⊢
    rw [resolveSegments_append, hG]
    simp [resolveSegments, scanName_not_found r.mFiles seg ext.InvalidFileIdx G.range hb hn]
  | outOfBounds => rw [hs] at hG; cases hG
  | outOfFuel => rw [hs] at hG; cases hG


/-! ## Lemmas: the recursive file count -/

theorem CountFilesInFolder_succ (r : VFXReader) (fuel idx : Nat) :
    r.CountFilesInFolder (fuel + 1) idx =
      match r.mFiles[idx]? with
      | none => .outOfBounds
      | some folder =>
        folder.range.foldlM (countBody r.mFiles (r.CountFilesInFolder fuel)) 0 := rfl

theorem foldlM_countBody (mFiles : List MetroFile) (cnt : Nat → Res Nat) (below : Nat → List Nat) :
    ∀ (l : List Nat) (acc : Nat), acc < 2 ^ 64 → (∀ i ∈ l, i < mFiles.length) →
    (∀ i ∈ l, ∀ X : MetroFile, mFiles[i]? = some X → X.IsFile = false →
      cnt i = .ok ((below i).length % 2 ^ 64)) →
    l.foldlM (countBody mFiles cnt) acc =
      .ok ((acc + (l.flatMap (childFiles mFiles below)).length) % 2 ^ 64) := by
  intro l
  induction l with
  | nil =>
    intro acc hacc _ _
    simp only [List.foldlM_nil, List.flatMap_nil, List.length_nil, Nat.add_zero,
      Nat.mod_eq_of_lt hacc]
    rfl
  | cons i l ih =>
    intro acc hacc hb hc
    have hi : i < mFiles.length := hb i (by simp)
    have hget : mFiles[i]? = some mFiles[i] := List.getElem?_eq_getElem hi
    have hb' : ∀ j ∈ l, j < mFiles.length := fun j hj => hb j (by simp [hj])
    have hc' : ∀ j ∈ l, ∀ X : MetroFile, mFiles[j]? = some X → X.IsFile = false →
        cnt j = .ok ((below j).length % 2 ^ 64) := fun j hj => hc j (by simp [hj])
    rw [List.foldlM_cons, List.flatMap_cons, List.length_append]
    cases hf : (mFiles[i]).IsFile with
    | true =>
      have e1 : countBody mFiles cnt acc i = .ok ((acc + 1) % 2 ^ 64) := by
        simp [countBody, hget, hf]
      have e2 : childFiles mFiles below i = [i] := by simp [childFiles, hget, hf]
      rw [e1, Res.ok_bind, ih _ (Nat.mod_lt _ (by norm_num)) hb' hc', e2]
      congr 1
      simp only [List.length_singleton]
      omega
    | false =>
      have e0 := hc i (by simp) _ hget hf
      have e1 : countBody mFiles cnt acc i = .ok ((acc + (below i).length % 2 ^ 64) % 2 ^ 64) := by
        simp [countBody, hget, hf, e0]
      have e2 : childFiles mFiles below i = below i := by simp [childFiles, hget, hf]
      rw [e1, Res.ok_bind, ih _ (Nat.mod_lt _ (by norm_num)) hb' hc', e2]
      congr 1
      omega

theorem mem_range_iff (F : MetroFile) (x : Nat) :
    x ∈ F.range ↔ F.firstFile ≤ x ∧ x < F.firstFile + F.numFiles := by
  simp [MetroFile.range]

theorem Reach.lt {mFiles : List MetroFile} (hW : FoldersAfterSelf mFiles) {f x : Nat}
    (h : Reach mFiles f x) : ∀ F : MetroFile, mFiles[f]? = some F → F.IsFile = false → f < x := by
  induction h with
  | @direct f x F hF hx =>
    intro F' hF' hfo
    rw [hF] at hF'
    cases hF'
    have := (hW f F hF hfo).1
    have := (mem_range_iff F x).mp hx
    omega
  | @step f g x F G hF hg hG hfolder _ ih =>
    intro F' hF' hfo
    rw [hF] at hF'
    cases hF'
    have := (hW f F hF hfo).1
    have := (mem_range_iff F g).mp hg
    have := ih G hG hfolder
    omega

/-- The last step of a path of the hierarchy: the entry whose range holds `z`. -/
theorem Reach.parent {mFiles : List MetroFile} {b z : Nat} (h : Reach mFiles b z) :
    ∃ (p : Nat) (P : MetroFile), mFiles[p]? = some P ∧ z ∈ P.range ∧
      (p = b ∨ (P.IsFile = false ∧ Reach mFiles b p)) := by
  induction h with
  | @direct f x F hF hx => exact ⟨f, F, hF, hx, Or.inl rfl⟩
  | @step f g x F G hF hg hG hfolder _ ih =>
    obtain ⟨p, P, hP, hz, hp⟩ := ih
    refine ⟨p, P, hP, hz, Or.inr ?_⟩
    rcases hp with hp | ⟨hPf, hp⟩
    · subst hp
      rw [hG] at hP
      cases hP
      exact ⟨hfolder, Reach.direct hF hg⟩
    · exact ⟨hPf, Reach.step hF hg hG hfolder hp⟩


theorem AtOrBelow.of_parent {mFiles : List MetroFile} {a p : Nat} {A P : MetroFile}
    (hA : mFiles[a]? = some A) (hAf : A.IsFile = false)
    (hp : p = a ∨ (P.IsFile = false ∧ Reach mFiles a p)) : AtOrBelow mFiles a p := by
  rcases hp with hp | ⟨_, hp⟩
  · exact Or.inl hp
  · exact Or.inr ⟨A, hA, hAf, hp⟩

/-- Two different entries of one folder range have nothing in common below them. -/
theorem siblings_disjoint {mFiles : List MetroFile} (hW : FoldersAfterSelf mFiles)
    (hDisj : RangesDisjoint mFiles) {f : Nat} {F : MetroFile} (hF : mFiles[f]? = some F)
    (hFf : F.IsFile = false) : ∀ (z a b : Nat), a ∈ F.range → b ∈ F.range → a ≠ b →
    AtOrBelow mFiles a z → AtOrBelow mFiles b z → False := by
  intro z
  induction z using Nat.strong_induction_on with
  | _ z ih =>
    intro a b ha hb hab hQa hQb
    have hfa : f < a := by
      have := (hW f F hF hFf).1
      have := (mem_range_iff F a).mp ha
      omega
    have hfb : f < b := by
      have := (hW f F hF hFf).1
      have := (mem_range_iff F b).mp hb
      omega
    -- a folder of the range cannot reach an entry of the same range
    have key : ∀ (c c' : Nat) (C : MetroFile), c ∈ F.range → c' ∈ F.range → f < c →
        mFiles[c]? = some C → C.IsFile = false → Reach mFiles c c' → False := by
      intro c c' C _ hc' hfc hC hCf hr
      obtain ⟨p, P, hP, hz, hp⟩ := hr.parent
      have hPf : P.IsFile = false := by
        rcases hp with hp | ⟨h, _⟩
        · subst hp
          rw [hC] at hP
          cases hP
          exact hCf
        · exact h
      have hpf : p = f := hDisj p f P F c' hP hF hPf hFf hz hc'
      subst hpf
      rcases hp with hp | ⟨_, hp⟩
      · omega
      · have := hp.lt hW C hC hCf
        omega
    rcases hQa with hza | ⟨A, hA, hAf, hra⟩
    · rcases hQb with hzb | ⟨B, hB, hBf, hrb⟩
      · exact hab (hza.symm.trans hzb)
      · subst hza
        exact key b z B hb ha hfb hB hBf hrb
    · rcases hQb with hzb | ⟨B, hB, hBf, hrb⟩
      · subst hzb
        exact key a z A ha hb hfa hA hAf hra
      · obtain ⟨p, P, hP, hzp, hp⟩ := hra.parent
        obtain ⟨q, Q, hQ, hzq, hq⟩ := hrb.parent
        have hPf : P.IsFile = false := by
          rcases hp with hp | ⟨h, _⟩
          · subst hp
            rw [hA] at hP
            cases hP
            exact hAf
          · exact h
        have hQf : Q.IsFile = false := by
          rcases hq with hq | ⟨h, _⟩
          · subst hq
            rw [hB] at hQ
            cases hQ
            exact hBf
          · exact h
        have hpq : p = q := hDisj p q P Q z hP hQ hPf hQf hzp hzq
        subst hpq
        have hpz : p < z := by
          have := (hW p P hP hPf).1
          have := (mem_range_iff P z).mp hzp
          omega
        exact ih p hpz a b ha hb hab (AtOrBelow.of_parent hA hAf hp)
          (AtOrBelow.of_parent hB hBf hq)

theorem childFiles_sound_aux (mFiles : List MetroFile) (below : Nat → List Nat) (i x : Nat)
    (hbelow : ∀ X : MetroFile, mFiles[i]? = some X → X.IsFile = false → x ∈ below i →
      ReachFile mFiles i x)
    (hx : x ∈ childFiles mFiles below i) :
    (x = i ∧ ∃ X : MetroFile, mFiles[i]? = some X ∧ X.IsFile = true) ∨
      (∃ X : MetroFile, mFiles[i]? = some X ∧ X.IsFile = false ∧ ReachFile mFiles i x) := by
  unfold childFiles at hx
  cases hget : mFiles[i]? with
  | none => simp [hget] at hx
  | some X =>
    rw [hget] at hx
    cases hXf : X.IsFile with
    | true =>
      simp only [hXf, if_true, List.mem_singleton] at hx
      exact Or.inl ⟨hx, X, rfl, hXf⟩
    | false =>
      simp only [hXf] at hx
      exact Or.inr ⟨X, rfl, hXf, hbelow X hget hXf (by simpa using hx)⟩

theorem filesBelow_sound (mFiles : List MetroFile) : ∀ (n f x : Nat),
    x ∈ filesBelow mFiles n f → ReachFile mFiles f x := by
  intro n
  induction n with
  | zero => intro f x h; simp [filesBelow] at h
  | succ n ih =>
    intro f x h
    unfold filesBelow at h
    cases hF : mFiles[f]? with
    | none => simp [hF] at h
    | some F =>
      rw [hF] at h
      simp only [List.mem_flatMap] at h
      obtain ⟨i, hi, hx⟩ := h
      rcases childFiles_sound_aux mFiles _ i x (fun _ _ _ hm => ih i x hm) hx with
        ⟨hxi, X, hX, hXf⟩ | ⟨X, hX, hXf, hr, hfile⟩
      · subst hxi
        exact ⟨Reach.direct hF hi, X, hX, hXf⟩
      · exact ⟨Reach.step hF hi hX hXf hr, hfile⟩

theorem childFiles_atOrBelow (mFiles : List MetroFile) (n i x : Nat)
    (hx : x ∈ childFiles mFiles (filesBelow mFiles n) i) : AtOrBelow mFiles i x := by
  rcases childFiles_sound_aux mFiles _ i x (fun _ _ _ hm => filesBelow_sound mFiles n i x hm) hx
    with ⟨hxi, _⟩ | ⟨X, hX, hXf, hr, _⟩
  · exact Or.inl hxi
  · exact Or.inr ⟨X, hX, hXf, hr⟩

theorem filesBelow_complete {mFiles : List MetroFile} (hW : FoldersAfterSelf mFiles) {f x : Nat}
    (h : Reach mFiles f x) : ∀ (F X : MetroFile), mFiles[f]? = some F → F.IsFile = false →
    mFiles[x]? = some X → X.IsFile = true → ∀ n, mFiles.length - f ≤ n →
    x ∈ filesBelow mFiles n f := by
  induction h with
  | @direct f x F hF hx =>
    intro F' X hF' hFf hX hXf n hn
    have hlt : f < mFiles.length := (List.getElem?_eq_some.mp hF).1
    obtain ⟨m, rfl⟩ : ∃ m, n = m + 1 := ⟨n - 1, by omega⟩
    simp only [filesBelow, hF, List.mem_flatMap]
    exact ⟨x, hx, by simp [childFiles, hX, hXf]⟩
  | @step f g x F G hF hg hG hfolder _ ih =>
    intro F' X hF' hFf hX hXf n hn
    rw [hF] at hF'
    cases hF'
    have hlt : f < mFiles.length := (List.getElem?_eq_some.mp hF).1
    obtain ⟨m, rfl⟩ : ∃ m, n = m + 1 := ⟨n - 1, by omega⟩
    have hfg : f < g := by
      have := (hW f F hF hFf).1
      have := (mem_range_iff F g).mp hg
      omega
    have := ih G X hG hfolder hX hXf m (by omega)
    simp only [filesBelow, hF, List.mem_flatMap]
    exact ⟨g, hg, by simpa [childFiles, hG, hfolder] using this⟩

theorem filesBelow_nodup {mFiles : List MetroFile} (hW : FoldersAfterSelf mFiles)
    (hDisj : RangesDisjoint mFiles) : ∀ (n f : Nat) (F : MetroFile), mFiles[f]? = some F →
    F.IsFile = false → (filesBelow mFiles n f).Nodup := by
  intro n
  induction n with
  | zero => intro f F _ _; simp [filesBelow]
  | succ n ih =>
    intro f F hF hFf
    simp only [filesBelow, hF]
    rw [List.nodup_flatMap]
    refine ⟨?_, ?_⟩
    · intro i _
      unfold childFiles
      cases hX : mFiles[i]? with
      | none => simp
      | some X =>
        cases hXf : X.IsFile with
        | true => simp [hXf]
        | false => simpa [hXf] using ih i X hX hXf
    · refine List.Nodup.pairwise_of_forall_ne (List.nodup_range' _ _) ?_
      intro a ha b hb hab
      simp only [Function.onFun]
      rw [List.disjoint_left]
      intro z hza hzb
      exact siblings_disjoint hW hDisj hF hFf z a b ha hb hab
        (childFiles_atOrBelow mFiles n a z hza) (childFiles_atOrBelow mFiles n b z hzb)

theorem CountFilesInFolder_eq {r : VFXReader} (hW : FoldersAfterSelf r.mFiles) :
    ∀ (n f : Nat) (F : MetroFile), r.mFiles[f]? = some F → F.IsFile = false →
    r.mFiles.length - f ≤ n → ∀ fuel, n ≤ fuel →
    r.CountFilesInFolder fuel f = .ok ((filesBelow r.mFiles n f).length % 2 ^ 64) := by
  intro n
  induction n with
  | zero =>
    intro f F hF _ hn
    have hlt : f < r.mFiles.length := (List.getElem?_eq_some.mp hF).1
    omega
  | succ n ih =>
    intro f F hF hFf hn fuel hfuel
    obtain ⟨fuel', rfl⟩ : ∃ m, fuel = m + 1 := ⟨fuel - 1, by omega⟩
    have hWf := hW f F hF hFf
    rw [CountFilesInFolder_succ]
    simp only [hF, filesBelow]
    rw [foldlM_countBody r.mFiles (r.CountFilesInFolder fuel') (filesBelow r.mFiles n) F.range 0
      (by norm_num)]
    · simp
    · intro i hi
      have := (mem_range_iff F i).mp hi
      omega
    · intro i hi X hX hXf
      have := (mem_range_iff F i).mp hi
      exact ih i X hX hXf (by omega) fuel' (by omega)


theorem length_flatMap_childFiles (mFiles : List MetroFile) (below : Nat → List Nat) :
    ∀ (l : List Nat), (l.flatMap (childFiles mFiles below)).length =
      countFileEntries mFiles l +
        ((folderEntries mFiles l).map (fun i => (below i).length)).sum := by
  intro l
  induction l with
  | nil => rfl
  | cons i l ih =>
    rw [List.flatMap_cons, List.length_append, ih]
    unfold childFiles countFileEntries folderEntries
    cases hX : mFiles[i]? with
    | none => simp [List.filter_cons, hX]
    | some X =>
      cases hXf : X.IsFile with
      | true => simp [List.filter_cons, hX, hXf]; omega
      | false => simp [List.filter_cons, hX, hXf]; omega

theorem mem_folderEntries (mFiles : List MetroFile) (l : List Nat) (g : Nat) :
    g ∈ folderEntries mFiles l ↔
      g ∈ l ∧ ∃ G : MetroFile, mFiles[g]? = some G ∧ G.IsFile = false := by
  unfold folderEntries
  rw [List.mem_filter]
  cases hG : mFiles[g]? with
  | none => simp
  | some G => simp

/-- The number of file entries reachable from a folder is the length of the listing. -/
theorem ncard_reachFile {mFiles : List MetroFile} (hW : FoldersAfterSelf mFiles)
    (hDisj : RangesDisjoint mFiles) (n f : Nat) (F : MetroFile) (hF : mFiles[f]? = some F)
    (hFf : F.IsFile = false) (hn : mFiles.length - f ≤ n) :
    Set.ncard {x | ReachFile mFiles f x} = (filesBelow mFiles n f).length := by
  have hmem : ∀ x, x ∈ filesBelow mFiles n f ↔ ReachFile mFiles f x := by
    intro x
    constructor
    · exact filesBelow_sound mFiles n f x
    · rintro ⟨hr, X, hX, hXf⟩
      exact filesBelow_complete hW hr F X hF hFf hX hXf n hn
  have hs : {x | ReachFile mFiles f x} = ((filesBelow mFiles n f).toFinset : Set Nat) := by
    ext x
    simp [hmem]
  rw [hs, Set.ncard_coe_Finset, List.toFinset_card_of_nodup (filesBelow_nodup hW hDisj n f F hF hFf)]

theorem filesBelow_length_le {mFiles : List MetroFile} (hW : FoldersAfterSelf mFiles)
    (hDisj : RangesDisjoint mFiles) (n f : Nat) (F : MetroFile) (hF : mFiles[f]? = some F)
    (hFf : F.IsFile = false) : (filesBelow mFiles n f).length ≤ mFiles.length := by
  have hsub : filesBelow mFiles n f ⊆ List.range mFiles.length := by
    intro x hx
    obtain ⟨_, X, hX, _⟩ := filesBelow_sound mFiles n f x hx
    exact List.mem_range.mpr (List.getElem?_eq_some.mp hX).1
  have := (List.subperm_of_subset (filesBelow_nodup hW hDisj n f F hF hFf) hsub).length_le
  simpa using this


/-! ## Lemmas: parsing a serialised index -/

theorem read_uint (w v : Nat) (s : MemStream) (rest : List Nat) (hv : v < 256 ^ w)
    (h : s.remaining = leBytes w v ++ rest) :
    ∃ s', s.ReadTyped w = .ok (v, s') ∧ s'.remaining = rest :=
  ⟨s.advance w, MemStream.ReadTyped_leBytes w v s rest hv h⟩

theorem takeZ_encode : ∀ (str : CharString) (rest : List Nat), ZString str →
    takeZ (str ++ 0 :: rest) = some str := by
  intro str
  induction str with
  | nil => intro rest _; simp [takeZ]
  | cons c t ih =>
    intro rest h
    have hc := h c (by simp)
    have hmod : c % 256 = c := Nat.mod_eq_of_lt hc.2
    have hne : c ≠ 0 := by omega
    simp [takeZ, hmod, hne, ih rest (fun d hd => h d (by simp [hd]))]

theorem read_stringZ (str : CharString) (s : MemStream) (rest : List Nat) (hz : ZString str)
    (h : s.remaining = encodeStringZ str ++ rest) :
    ∃ s', s.ReadStringZ = .ok (str, s') ∧ s'.remaining = rest := by
  have h' : s.remaining = str ++ 0 :: rest := by simpa [encodeStringZ] using h
  refine ⟨s.advance (str.length + 1), ?_, ?_⟩
  · simp [MemStream.ReadStringZ, h', takeZ_encode str rest hz]
  · have := MemStream.remaining_advance s (str ++ [0]) rest (by simpa using h')
    simpa using this

theorem read_bytes : ∀ (bs : List Nat) (s : MemStream) (rest : List Nat), (∀ b ∈ bs, b < 256) →
    s.remaining = bs ++ rest →
    ∃ s', s.ReadBytes bs.length = .ok (bs, s') ∧ s'.remaining = rest := by
  intro bs
  induction bs with
  | nil => intro s rest _ h; exact ⟨s, rfl, by simpa using h⟩
  | cons b bs ih =>
    intro s rest hb h
    have hcons : s.remaining = b :: (bs ++ rest) := by simpa using h
    obtain ⟨s', h1, h2⟩ := ih (s.advance 1) rest (fun c hc => hb c (by simp [hc]))
      (MemStream.remaining_advance_one s b _ hcons)
    refine ⟨s', ?_, h2⟩
    simp [MemStream.ReadBytes, MemStream.ReadU8_cons s b _ hcons, h1,
      Nat.mod_eq_of_lt (hb b (by simp))]

theorem length_resize {α : Type} (v : List α) (n : Nat) (d : α) : (resize v n d).length = n := by
  simp [resize]
  omega

theorem read_levels : ∀ (ls old : List CharString) (s : MemStream) (rest : List Nat),
    old.length = ls.length → (∀ l ∈ ls, ZString l) →
    s.remaining = (ls.map encodeStringZ).flatten ++ rest →
    ∃ s', readLevels old s = .ok (ls, s') ∧ s'.remaining = rest := by
  intro ls
  induction ls with
  | nil =>
    intro old s rest hlen _ h
    have : old = [] := List.length_eq_zero.mp (by simpa using hlen)
    subst this
    exact ⟨s, rfl, by simpa using h⟩
  | cons l ls ih =>
    intro old s rest hlen hz h
    obtain ⟨o, old', rfl⟩ : ∃ o old', old = o :: old' := by
      cases old with
      | nil => simp at hlen
      | cons o old' => exact ⟨o, old', rfl⟩
    have h' : s.remaining = encodeStringZ l ++ ((ls.map encodeStringZ).flatten ++ rest) := by
      simpa using h
    obtain ⟨s1, h1, h2⟩ := read_stringZ l s _ (hz l (by simp)) h'
    obtain ⟨s2, h3, h4⟩ := ih old' s1 rest (by simpa using hlen)
      (fun m hm => hz m (by simp [hm])) h2
    exact ⟨s2, by simp [readLevels, h1, h3], h4⟩

theorem read_paks : ∀ (paks old : List Pak) (s : MemStream) (rest : List Nat),
    old.length = paks.length → (∀ p ∈ paks, p.Fits) →
    s.remaining = (paks.map encodePak).flatten ++ rest →
    ∃ s', readPaks old s = .ok (paks, s') ∧ s'.remaining = rest := by
  intro paks
  induction paks with
  | nil =>
    intro old s rest hlen _ h
    have : old = [] := List.length_eq_zero.mp (by simpa using hlen)
    subst this
    exact ⟨s, rfl, by simpa using h⟩
  | cons p paks ih =>
    intro old s rest hlen hfit h
    obtain ⟨o, old', rfl⟩ : ∃ o old', old = o :: old' := by
      cases old with
      | nil => simp at hlen
      | cons o old' => exact ⟨o, old', rfl⟩
    obtain ⟨hname, hcount, hlevels, hchunk⟩ := hfit p (by simp)
    have h' : s.remaining = encodeStringZ p.name ++ (leBytes 4 p.levels.length ++
        ((p.levels.map encodeStringZ).flatten ++ (leBytes 4 p.chunk ++
          ((paks.map encodePak).flatten ++ rest)))) := by
      simpa [encodePak, List.append_assoc] using h
    obtain ⟨s1, h1, r1⟩ := read_stringZ p.name s _ hname h'
    obtain ⟨s2, h2, r2⟩ := read_uint 4 p.levels.length s1 _ (by norm_num at hcount ⊢; omega) r1
    obtain ⟨s3, h3, r3⟩ := read_levels p.levels (resize o.levels p.levels.length []) s2 _
      (length_resize _ _ _) hlevels r2
    obtain ⟨s4, h4, r4⟩ := read_uint 4 p.chunk s3 _ (by norm_num at hchunk ⊢; omega) r3
    obtain ⟨s5, h5, r5⟩ := ih old' s4 rest (by simpa using hlen)
      (fun q hq => hfit q (by simp [hq])) r4
    exact ⟨s5, by simp [readPaks, h1, h2, h3, h4, h5], r5⟩

theorem read_name (S : CharString) (X terminator : Nat) (s : MemStream) (rest : List Nat)
    (hlen : S.length ≤ 254) (hS : ∀ c ∈ S, c < 256) (hX : X < 256)
    (hs : s.remaining = encodeXored S X terminator ++ rest) :
    ∃ s', readCharStringXored s = .ok (S, s') ∧ s'.remaining = rest :=
  ⟨_, readCharStringXored_encodeXored S X terminator s rest hlen hS hX hs⟩


theorem read_files : ∀ (es : List EntryRecord) (olds : List MetroFile) (k : Nat)
    (folders : List Nat) (s : MemStream) (rest : List Nat),
    olds.length = es.length → (∀ e ∈ es, e.Fits) →
    s.remaining = (es.map encodeEntry).flatten ++ rest →
    ∃ s', readFiles olds k folders s =
        .ok (parsedEntries olds k es, folders ++ folderIndices k es, s') ∧
      s'.remaining = rest := by
  intro es
  induction es with
  | nil =>
    intro olds k folders s rest hlen _ h
    have : olds = [] := List.length_eq_zero.mp (by simpa using hlen)
    subst this
    exact ⟨s, by simp [readFiles, parsedEntries, folderIndices], by simpa using h⟩
  | cons e es ih =>
    intro olds k folders s rest hlen hfit h
    obtain ⟨o, olds', rfl⟩ : ∃ o olds', olds = o :: olds' := by
      cases olds with
      | nil => simp at hlen
      | cons o olds' => exact ⟨o, olds', rfl⟩
    obtain ⟨hflags, hnlen, hname, hmask, hvar⟩ := hfit e (by simp)
    have hlen' : olds'.length = es.length := by simpa using hlen
    have hfit' : ∀ e' ∈ es, e'.Fits := fun q hq => hfit q (by simp [hq])
    have hkind : ∀ (m : MetroFile) (i : Nat),
        ({ m with idx := i, flags := e.mf.flags } : MetroFile).IsFile = e.mf.IsFile := by
      intro m i
      rfl
    cases hf : e.mf.IsFile with
    | true =>
      rw [hf] at hvar
      simp only [if_true] at hvar
      obtain ⟨hpak, hoff, hsu, hsc⟩ := hvar
      have h' : s.remaining = leBytes 2 e.mf.flags ++ (leBytes 2 e.mf.pakIdx ++
          (leBytes 4 e.mf.offset ++ (leBytes 4 e.mf.sizeUncompressed ++
            (leBytes 4 e.mf.sizeCompressed ++ (encodeXored e.mf.name e.xorMask e.terminator ++
              ((es.map encodeEntry).flatten ++ rest)))))) := by
        simpa [encodeEntry, hf, List.append_assoc] using h
      obtain ⟨s1, h1, r1⟩ := read_uint 2 e.mf.flags s _ (by norm_num at hflags ⊢; omega) h'
      obtain ⟨s2, h2, r2⟩ := read_uint 2 e.mf.pakIdx s1 _ (by norm_num at hpak ⊢; omega) r1
      obtain ⟨s3, h3, r3⟩ := read_uint 4 e.mf.offset s2 _ (by norm_num at hoff ⊢; omega) r2
      obtain ⟨s4, h4, r4⟩ := read_uint 4 e.mf.sizeUncompressed s3 _
        (by norm_num at hsu ⊢; omega) r3
      obtain ⟨s5, h5, r5⟩ := read_uint 4 e.mf.sizeCompressed s4 _
        (by norm_num at hsc ⊢; omega) r4
      obtain ⟨s6, h6, r6⟩ := read_name e.mf.name e.xorMask e.terminator s5 _ hnlen hname hmask r5
      obtain ⟨s7, h7, r7⟩ := ih olds' (k + 1) folders s6 rest hlen' hfit' r6
      refine ⟨s7, ?_, r7⟩
      simp only [readFiles, h1, Res.ok_bind, hkind, hf, if_true, h2, h3, h4, h5, h6, h7,
        Res.pure_eq, parsedEntries, parsedEntry, folderIndices]
    | false =>
      rw [hf] at hvar
      simp only [Bool.false_eq_true, if_false] at hvar
      obtain ⟨hnum, hfirst⟩ := hvar
      have h' : s.remaining = leBytes 2 e.mf.flags ++ (leBytes 2 e.mf.numFiles ++
          (leBytes 4 e.mf.firstFile ++ (encodeXored e.mf.name e.xorMask e.terminator ++
              ((es.map encodeEntry).flatten ++ rest)))) := by
        simpa [encodeEntry, hf, List.append_assoc] using h
      obtain ⟨s1, h1, r1⟩ := read_uint 2 e.mf.flags s _ (by norm_num at hflags ⊢; omega) h'
      obtain ⟨s2, h2, r2⟩ := read_uint 2 e.mf.numFiles s1 _ (by norm_num at hnum ⊢; omega) r1
      obtain ⟨s3, h3, r3⟩ := read_uint 4 e.mf.firstFile s2 _ (by norm_num at hfirst ⊢; omega) r2
      obtain ⟨s4, h4, r4⟩ := read_name e.mf.name e.xorMask e.terminator s3 _ hnlen hname hmask r3
      obtain ⟨s5, h5, r5⟩ := ih olds' (k + 1) (folders ++ [k]) s4 rest hlen' hfit' r4
      refine ⟨s5, ?_, r5⟩
      simp only [readFiles, h1, Res.ok_bind, hkind, hf, Bool.false_eq_true, if_false, h2, h3, h4,
        h5, Res.pure_eq, parsedEntries, parsedEntry, folderIndices, List.append_assoc,
        List.singleton_append]

/-- Loading the index file of an archive value: the reader afterwards, whatever it held
before. -/
theorem loadFromData_serialize (ext : Externals) (filePath : FsPath) (r : VFXReader)
    (a : Archive) (hfit : a.Fits) (hlz4 : ext.Type_LZ4 < 2 ^ 32) :
    r.loadFromData ext filePath (serialize kVFXVersionExodus ext.Type_LZ4 a) =
      .ok (true,
        { mContentVersion := a.contentVersion, mGUID := a.guid, mPaks := a.paks,
          mFiles := parsedEntries (resize r.mFiles a.entries.length ext.newFile) 0 a.entries,
          mFolders := r.mFolders ++ folderIndices 0 a.entries,
          mBasePath := filePath.parent_path, mFileName := filePath.filename }) := by
  obtain ⟨hcv, hglen, hguid, hunk, hnp, hne, hpaks, hentries⟩ := hfit
  have hdata : serialize kVFXVersionExodus ext.Type_LZ4 a =
      leBytes 4 kVFXVersionExodus ++ leBytes 4 ext.Type_LZ4 ++
        (encodeStringZ a.contentVersion ++ (a.guid ++ (leBytes 4 a.paks.length ++
          (leBytes 4 a.entries.length ++ (leBytes 4 a.unknown_0 ++
            ((a.paks.map encodePak).flatten ++ ((a.entries.map encodeEntry).flatten ++ [])))))))
      := by
    simp [serialize, List.append_assoc]
  rw [hdata, loadFromData_header ext filePath r kVFXVersionExodus ext.Type_LZ4 _
    (by norm_num [kVFXVersionExodus]) hlz4]
  have hl : (leBytes 4 kVFXVersionExodus ++ leBytes 4 ext.Type_LZ4).length = 8 := by
    simp [leBytes]
  have h0 := MemStream.remaining_advance
    (MemStream.over (leBytes 4 kVFXVersionExodus ++ leBytes 4 ext.Type_LZ4 ++
      (encodeStringZ a.contentVersion ++ (a.guid ++ (leBytes 4 a.paks.length ++
        (leBytes 4 a.entries.length ++ (leBytes 4 a.unknown_0 ++
          ((a.paks.map encodePak).flatten ++ ((a.entries.map encodeEntry).flatten ++ [])))))))))
    (leBytes 4 kVFXVersionExodus ++ leBytes 4 ext.Type_LZ4) _ rfl
  rw [hl] at h0
  obtain ⟨s3, h3, r3⟩ := read_stringZ a.contentVersion _ _ hcv h0
  obtain ⟨s4, h4, r4⟩ := read_bytes a.guid s3 _ hguid r3
  rw [hglen] at h4
  obtain ⟨s5, h5, r5⟩ := read_uint 4 a.paks.length s4 _ (by norm_num at hnp ⊢; omega) r4
  obtain ⟨s6, h6, r6⟩ := read_uint 4 a.entries.length s5 _ (by norm_num at hne ⊢; omega) r5
  obtain ⟨s7, h7, r7⟩ := read_uint 4 a.unknown_0 s6 _ (by norm_num at hunk ⊢; omega) r6
  obtain ⟨s8, h8, r8⟩ := read_paks a.paks (resize r.mPaks a.paks.length ext.newPak) s7 _
    (length_resize _ _ _) hpaks r7
  obtain ⟨s9, h9, _⟩ := read_files a.entries (resize r.mFiles a.entries.length ext.newFile) 0
    r.mFolders s8 [] (length_resize _ _ _) hentries r8
  simp only [and_self, if_true, h3, Res.ok_bind, h4, h5, h6, h7, h8, h9, Res.pure_eq]


/-! ## Lemmas used by the statements on whole archives -/

theorem parsedEntries_length : ∀ (es : List EntryRecord) (olds : List MetroFile) (k : Nat),
    olds.length = es.length → (parsedEntries olds k es).length = es.length := by
  intro es
  induction es with
  | nil => intro olds k _; cases olds <;> rfl
  | cons e es ih =>
    intro olds k h
    cases olds with
    | nil => simp at h
    | cons o olds => simp [parsedEntries, ih olds (k + 1) (by simpa using h)]

theorem parsedEntries_getElem? : ∀ (es : List EntryRecord) (olds : List MetroFile) (k i : Nat)
    (e : EntryRecord), olds.length = es.length → es[i]? = some e →
    ∃ o, olds[i]? = some o ∧ (parsedEntries olds k es)[i]? = some (parsedEntry o (k + i) e) := by
  intro es
  induction es with
  | nil => intro olds k i e _ h; simp at h
  | cons e' es ih =>
    intro olds k i e hlen h
    cases olds with
    | nil => simp at hlen
    | cons o olds =>
      cases i with
      | zero =>
        simp only [List.getElem?_cons_zero, Option.some.injEq] at h
        subst h
        exact ⟨o, by simp, by simp [parsedEntries]⟩
      | succ i =>
        simp only [List.getElem?_cons_succ] at h
        obtain ⟨o', h1, h2⟩ := ih olds (k + 1) i e (by simpa using hlen) h
        refine ⟨o', by simpa using h1, ?_⟩
        simp only [parsedEntries, List.getElem?_cons_succ, h2]
        congr 2
        omega

theorem drop_take_window (l : List Nat) (a n o k : Nat) (h : o + k ≤ n) :
    (((l.drop a).take n).drop o).take k = (l.drop (a + o)).take k := by
  rw [List.drop_take, List.take_take, List.drop_drop, Nat.min_eq_left (by omega)]


/-! ## C1: string decoder round trip -/

/-- C1. For every plain string `S` of at most 254 bytes (so also for every length 1..254)
and every mask byte `X`, the decoder `readCharStringXored`, run on a stream positioned at
the bytes `[len(S)+1, X, S[0] xor X, ..., S[len-1] xor X, terminator]`, returns exactly
`S` and leaves the cursor `len(S) + 3` bytes further on: the terminator is consumed and
never unmasked. -/
theorem readCharStringXored_round_trip (S : CharString) (X terminator : Nat) (s : MemStream)
    (rest : List Nat) (hlen : S.length ≤ 254) (hS : ∀ c ∈ S, c < 256) (hX : X < 256)
    (hs : s.remaining = encodeXored S X terminator ++ rest) :
    readCharStringXored s = .ok (S, { s with cursor := s.cursor + (S.length + 3) }) :=
  (readCharStringXored_encodeXored S X terminator s rest hlen hS hX hs).1

/-- The string `hi` masked with `0x5A`. -/
theorem readCharStringXored_round_trip_witness :
    readCharStringXored (MemStream.over [3, 90, 50, 51, 90]) =
      .ok ([104, 105], { good := true, data := [3, 90, 50, 51, 90], cursor := 5 }) :=
  readCharStringXored_round_trip [104, 105] 90 90 (MemStream.over [3, 90, 50, 51, 90]) []
    (by decide) (by decide) (by decide) (by decide)

/-! ## C2: index parse round trip -/

/-- C2. For every archive value whose fields fit the layout of section 4.2, serialised
with version 3 and the LZ4 tag, `LoadFromFile` on a freshly constructed reader returns
true and reproduces every field: content version, GUID, the packages (name, tags, chunk),
and for each entry its flags, its name and the fields of its variant (`pakIdx`, `offset`,
`sizeUncompressed`, `sizeCompressed` for a file; `numFiles`, `firstFile` for a folder). -/
theorem LoadFromFile_serialize_round_trip (ext : Externals) (filePath : FsPath) (a : Archive)
    (guid0 : List Nat) (hfit : a.Fits) (hlz4 : ext.Type_LZ4 < 2 ^ 32)
    (hdisk : ext.disk filePath = some (serialize kVFXVersionExodus ext.Type_LZ4 a)) :
    ∃ r' : VFXReader, (VFXReader.fresh guid0).LoadFromFile ext filePath = .ok (true, r') ∧
      r'.mContentVersion = a.contentVersion ∧ r'.mGUID = a.guid ∧ r'.mPaks = a.paks ∧
      r'.mFiles.length = a.entries.length ∧
      ∀ (i : Nat) (e : EntryRecord), a.entries[i]? = some e →
        ∃ mf : MetroFile, r'.mFiles[i]? = some mf ∧ mf.flags = e.mf.flags ∧
          mf.name = e.mf.name ∧ mf.IsFile = e.mf.IsFile ∧
          (e.mf.IsFile = true → mf.pakIdx = e.mf.pakIdx ∧ mf.offset = e.mf.offset ∧
            mf.sizeUncompressed = e.mf.sizeUncompressed ∧
            mf.sizeCompressed = e.mf.sizeCompressed) ∧
          (e.mf.IsFile = false → mf.numFiles = e.mf.numFiles ∧ mf.firstFile = e.mf.firstFile) := by
  have hload : (VFXReader.fresh guid0).LoadFromFile ext filePath = .ok (true,
      { mContentVersion := a.contentVersion, mGUID := a.guid, mPaks := a.paks,
        mFiles := parsedEntries
          (resize (VFXReader.fresh guid0).mFiles a.entries.length ext.newFile) 0 a.entries,
        mFolders := (VFXReader.fresh guid0).mFolders ++ folderIndices 0 a.entries,
        mBasePath := filePath.parent_path, mFileName := filePath.filename }) := by
    simp only [VFXReader.LoadFromFile, hdisk]
    exact loadFromData_serialize ext filePath (VFXReader.fresh guid0) a hfit hlz4
  refine ⟨_, hload, rfl, rfl, rfl, parsedEntries_length _ _ _ (length_resize _ _ _), ?_⟩
  intro i e he
  obtain ⟨o, _, h2⟩ := parsedEntries_getElem? a.entries
    (resize (VFXReader.fresh guid0).mFiles a.entries.length ext.newFile) 0 i e
    (length_resize _ _ _) he
  refine ⟨_, h2, ?_⟩
  cases hf : e.mf.IsFile with
  | true =>
    refine ⟨?_, ?_, ?_, ?_, ?_⟩ <;> simp [parsedEntry, hf]
    simpa [MetroFile.IsFile] using hf
  | false =>
    refine ⟨?_, ?_, ?_, ?_, ?_⟩ <;> simp [parsedEntry, hf]
    simpa [MetroFile.IsFile] using hf

/-- The sample archive (one package, a root folder, one file), read from the file `i`. -/
theorem LoadFromFile_serialize_round_trip_witness :
    ∃ r' : VFXReader,
      (VFXReader.fresh []).LoadFromFile sampleExternals { parent_path := [], filename := [105] } =
        .ok (true, r') ∧
      r'.mContentVersion = sampleArchive.contentVersion ∧ r'.mGUID = sampleArchive.guid ∧
      r'.mPaks = sampleArchive.paks ∧ r'.mFiles.length = sampleArchive.entries.length ∧
      ∀ (i : Nat) (e : EntryRecord), sampleArchive.entries[i]? = some e →
        ∃ mf : MetroFile, r'.mFiles[i]? = some mf ∧ mf.flags = e.mf.flags ∧
          mf.name = e.mf.name ∧ mf.IsFile = e.mf.IsFile ∧
          (e.mf.IsFile = true → mf.pakIdx = e.mf.pakIdx ∧ mf.offset = e.mf.offset ∧
            mf.sizeUncompressed = e.mf.sizeUncompressed ∧
            mf.sizeCompressed = e.mf.sizeCompressed) ∧
          (e.mf.IsFile = false → mf.numFiles = e.mf.numFiles ∧ mf.firstFile = e.mf.firstFile) :=
  LoadFromFile_serialize_round_trip sampleExternals { parent_path := [], filename := [105] }
    sampleArchive []
    (by
      simp [Archive.Fits, sampleArchive, ZString, Pak.Fits, EntryRecord.Fits, mkFolder, mkFile,
        MetroFile.IsFile])
    (by decide) rfl

/-! ## C3: unsupported formats are rejected -/

/-- C3. For every index file whose 4-byte version is not 3 or whose 4-byte compression
tag is not the LZ4 identifier, `LoadFromFile` returns false and the reader (content
version, GUID, packages, entries, folder indices, base path, file name) is exactly what
it was before the call. -/
theorem LoadFromFile_unsupported_format (ext : Externals) (filePath : FsPath) (r : VFXReader)
    (version compressionType : Nat) (rest : List Nat)
    (hv : version < 2 ^ 32) (hc : compressionType < 2 ^ 32)
    (hbad : version ≠ 3 ∨ compressionType ≠ ext.Type_LZ4)
    (hdisk : ext.disk filePath = some (leBytes 4 version ++ leBytes 4 compressionType ++ rest)) :
    r.LoadFromFile ext filePath = .ok (false, r) := by
  simp only [VFXReader.LoadFromFile, hdisk]
  rw [loadFromData_header ext filePath r version compressionType rest hv hc]
  have : ¬ (version = kVFXVersionExodus ∧ compressionType = ext.Type_LZ4) := by
    rintro ⟨h1, h2⟩
    rcases hbad with h | h
    · exact h h1
    · exact h h2
  simp [this]

/-- An index file with version 1 and the LZ4 tag, loaded into a reader that already
holds entries. -/
theorem LoadFromFile_unsupported_format_witness :
    (readerOf treeFiles []).LoadFromFile
        { sampleExternals with disk := fun _ => some [1, 0, 0, 0, 1, 0, 0, 0, 9, 9] }
        { parent_path := [], filename := [105] } =
      .ok (false, readerOf treeFiles []) :=
  LoadFromFile_unsupported_format
    { sampleExternals with disk := fun _ => some [1, 0, 0, 0, 1, 0, 0, 0, 9, 9] }
    { parent_path := [], filename := [105] } (readerOf treeFiles []) 1 1 [9, 9]
    (by decide) (by decide) (Or.inl (by decide)) rfl

/-! ## C4: clamping of the sub-range -/

/-- C4. For every file of uncompressed size `n` (a `size_t`) and every request
`(subOffset, subLength)`, sentinel included, the window `(o, l)` that `ExtractFile` gives
to `SetWindow` has `o ≤ n` and `o + l ≤ n`, with `o = 0` for the sentinel offset and
`min(subOffset, n)` otherwise, `l = n - o` for the sentinel length and
`min(subLength, n - o)` otherwise; the machine subtraction `n - o` does not wrap. For
`n = 1000` the request `(900, 500)` gives `(900, 100)` and the request
`(2000, sentinel)` gives a window of 0 bytes (the sentinel being none of 900, 500, 2000). -/
theorem streamWindow_clamped (ext : Externals) (n subOffset subLength : Nat) (hn : n < 2 ^ 64) :
    (streamWindow ext n subOffset subLength).1 ≤ n ∧
    (streamWindow ext n subOffset subLength).1 + (streamWindow ext n subOffset subLength).2 ≤ n ∧
    (streamWindow ext n subOffset subLength).1 =
      (if subOffset = ext.kInvalidValue then 0 else min subOffset n) ∧
    (streamWindow ext n subOffset subLength).2 =
      (if subLength = ext.kInvalidValue then n - (streamWindow ext n subOffset subLength).1
       else min subLength (n - (streamWindow ext n subOffset subLength).1)) ∧
    sizeSub n (streamWindow ext n subOffset subLength).1 =
      n - (streamWindow ext n subOffset subLength).1 ∧
    (ext.kInvalidValue ≠ 900 → ext.kInvalidValue ≠ 500 →
      streamWindow ext 1000 900 500 = (900, 100)) ∧
    (ext.kInvalidValue ≠ 2000 →
      (streamWindow ext 1000 2000 ext.kInvalidValue).2 = 0) := by
  refine ⟨streamWindow_fst_le _ _ _ _, streamWindow_sum_le _ _ _ _ hn, streamWindow_fst _ _ _ _,
    streamWindow_snd _ _ _ _ hn, sizeSub_eq _ _ hn (streamWindow_fst_le _ _ _ _), ?_, ?_⟩
  · intro h1 h2
    have e1 : (900 : Nat) ≠ ext.kInvalidValue := fun e => h1 e.symm
    have e2 : (500 : Nat) ≠ ext.kInvalidValue := fun e => h2 e.symm
    simp [streamWindow, e1, e2, sizeSub]
  · intro h1
    have e1 : (2000 : Nat) ≠ ext.kInvalidValue := fun e => h1 e.symm
    simp [streamWindow, e1, sizeSub]

/-- The two requests of the claim on a file of 1000 bytes, with the all-ones sentinel. -/
theorem streamWindow_clamped_witness :
    streamWindow sampleExternals 1000 900 500 = (900, 100) ∧
      streamWindow sampleExternals 1000 2000 sampleExternals.kInvalidValue = (1000, 0) :=
  ⟨(streamWindow_clamped sampleExternals 1000 900 500 (by decide)).2.2.2.2.2.1
      (by decide) (by decide),
    by decide⟩


/-! ## C5: path resolution -/

/-- C5, as stated, fails. The archive parsed from the index file of `folderOnlyArchive`
has a root that holds the folder `a`, so sibling names are distinct; yet `GetFolder` does
not return `a` for its name chain joined by a single backslash, neither for the chain `a`
(the root is returned: what follows the last backslash is never looked up) nor for the
chain with the root name in front (null). And the path `zz`, whose only segment names no
entry, resolves to the root instead of null. -/
theorem GetFolder_joined_chain_counterexample :
    (VFXReader.fresh []).LoadFromFile (diskOf folderOnlyArchive) indexPath =
        .ok (true, folderOnlyReader) ∧
      folderOnlyReader.mFiles[1]? = some (mkFolder 1 [97] 2 0) ∧
      folderOnlyReader.GetFolder sampleExternals (joinPath [[97]]) none =
        .ok (some (mkFolder 0 [] 1 1)) ∧
      folderOnlyReader.GetFolder sampleExternals (joinPath [[], [97]]) none = .ok none ∧
      mkFolder 0 [] 1 1 ≠ mkFolder 1 [97] 2 0 ∧
      folderOnlyReader.GetFolder sampleExternals [122, 122] none =
        .ok (some (mkFolder 0 [] 1 1)) := by
  decide

/-- C5, amended. In an archive whose folder ranges are in bounds, whose entries carry
distinct names within every folder range, whose names hold no backslash and whose
indices differ from the not-found sentinel, for every chain of folders from the root down
to `F`, `GetFolder` applied from the root to the path in which every name of the chain
(the root left out) is followed by one backslash returns exactly the entry `F`. And for
every starting folder and every path `pre ++ seg ++ "\" ++ tail` whose segment-closed
prefix `pre` resolves to an entry `G`, if no entry of the range of `G` carries `seg` then
`GetFolder` returns null. -/
theorem GetFolder_chain_resolves (ext : Externals) (r : VFXReader) (root : MetroFile)
    (chain : List MetroFile) (hroot : r.mFiles.head? = some root) (hrootf : root.IsFile = false)
    (hB : RangesInBounds r.mFiles) (hD : SiblingNamesDistinct r.mFiles)
    (hI : r.mFiles.length ≤ ext.InvalidFileIdx) (hN : ∀ G ∈ chain, backslash ∉ G.name)
    (hc : FolderChain r.mFiles root chain) :
    r.GetFolder ext (chainPath (chain.map (fun G => G.name))) none =
        .ok (some (chain.getLastD root)) ∧
      ∀ (pre seg tail : CharString) (inFolder : Option MetroFile) (G : MetroFile),
        (pre = [] ∨ ∃ p, pre = p ++ [backslash]) →
        r.GetFolder ext pre inFolder = .ok (some G) → backslash ∉ seg →
        (∀ j ∈ G.range, j < r.mFiles.length) →
        (∀ j ∈ G.range, ∀ A : MetroFile, r.mFiles[j]? = some A → A.name ≠ seg) →
        r.GetFolder ext (pre ++ (seg ++ backslash :: tail)) inFolder = .ok none := by
  refine ⟨?_, ?_⟩
  · have hmem : root ∈ r.mFiles := List.mem_of_mem_head? hroot
    have hseg := segmentsOf_chainPath (chain.map (fun G => G.name)) []
      (by
        intro n hn
        obtain ⟨G, hG, rfl⟩ := List.mem_map.mp hn
        exact hN G hG)
    rw [GetFolder_eq_resolveSegments]
    simp only [startFolder, hroot, Res.ok_bind]
    have h0 : segmentsOf [] = [] := rfl
    rw [List.append_nil, h0, List.append_nil] at hseg
    rw [hseg]
    have := resolveSegments_chain ext r.mFiles hB hD hI root chain hc hmem hrootf []
    rw [List.append_nil] at this
    rw [this]
    rfl
  · intro pre seg tail inFolder G hpre hG hseg hb hn
    exact GetFolder_unmatched_segment ext r pre seg tail inFolder G hpre hG hseg hb hn

/-- The chain `a`, `b` of the sample tree: the path `a\b\` resolves to `b`. -/
theorem GetFolder_chain_resolves_witness :
    (readerOf treeFiles []).GetFolder sampleExternals [97, 92, 98, 92] none =
      .ok (some (mkFolder 3 [98] 4 0)) :=
  (GetFolder_chain_resolves sampleExternals (readerOf treeFiles []) (mkFolder 0 [] 1 2)
    [mkFolder 1 [97] 3 1, mkFolder 3 [98] 4 0] rfl rfl
    (by
      intro G hG hf j hj
      have hl : (readerOf treeFiles []).mFiles.length = 4 := rfl
      rw [hl]
      simp only [readerOf, treeFiles, List.mem_cons, List.mem_singleton, List.not_mem_nil,
        or_false] at hG
      rcases hG with rfl | rfl | rfl | rfl <;>
        simp [MetroFile.range, mkFolder, mkFile, MetroFile.IsFile] at hj hf ⊢ <;> omega)
    (by
      intro G hG hf j hj k hk A B hA hB hn
      simp only [readerOf, treeFiles, List.mem_cons, List.mem_singleton, List.not_mem_nil,
        or_false] at hG
      have hjl : j < 4 := (List.getElem?_eq_some.mp hA).1
      have hkl : k < 4 := (List.getElem?_eq_some.mp hB).1
      interval_cases j <;> interval_cases k <;>
        simp [readerOf, treeFiles, mkFolder, mkFile] at hA hB ⊢ <;>
        (subst hA; subst hB; simp at hn))
    (by decide) (by decide)
    (FolderChain.cons 1 (by decide) rfl rfl
      (FolderChain.cons 3 (by decide) rfl rfl (FolderChain.nil _)))).1

/-! ## C6: `GetFolder` and the kind of the entries -/

/-- C6, evaluated where it fails. In the archive parsed from the index file of
`fileOnlyArchive` the root holds only the file entry `a`; `GetFolder` with the path `a\`
returns that file entry: the scan of lines 173-179 compares names and never looks at
`IsFile`. -/
theorem GetFolder_returns_file_entry :
    (VFXReader.fresh []).LoadFromFile (diskOf fileOnlyArchive) indexPath =
        .ok (true, fileOnlyReader) ∧
      fileOnlyReader.GetFolder sampleExternals [97, 92] none =
        .ok (some (mkFile 1 [97] 0 0 4 4)) ∧
      (mkFile 1 [97] 0 0 4 4).IsFile = true := by
  decide

/-! ## C7: `FindFile` and the kind of the entries -/

/-- C7, evaluated where it fails. In the archive parsed from the index file of
`folderOnlyArchive` the root holds only the folder entry `a`; `FindFile` with the name `a`
returns index 1, the index of that folder, not the sentinel: the scan of lines 209-215
compares names and never looks at `IsFile`. -/
theorem FindFile_returns_folder_index :
    (VFXReader.fresh []).LoadFromFile (diskOf folderOnlyArchive) indexPath =
        .ok (true, folderOnlyReader) ∧
      folderOnlyReader.FindFile sampleExternals [97] none = .ok 1 ∧
      folderOnlyReader.mFiles[1]? = some (mkFolder 1 [97] 2 0) ∧
      (mkFolder 1 [97] 2 0).IsFile = false ∧
      sampleExternals.InvalidFileIdx ≠ 1 := by
  decide


/-! ## C8: extraction of a stored-raw entry -/

/-- C8. For every entry with `sizeCompressed == sizeUncompressed` whose package file
opens and holds at least `offset + size` bytes, `ExtractFile` with both sub-range
arguments set to the sentinel returns a valid view whose bytes are exactly the package
bytes at `[offset, offset + size)`; with a sub-range it returns a valid view whose bytes
are exactly the package bytes at `[offset + o, offset + o + l)` for the clamped window
`(o, l)`; and the decompression collaborator has no part in the result. -/
theorem ExtractFile_stored_raw (ext : Externals) (r : VFXReader) (fileIdx subOffset subLength : Nat)
    (mf : MetroFile) (pak : Pak) (bytes : List Nat)
    (hmf : r.mFiles[fileIdx]? = some mf) (hpak : r.mPaks[mf.pakIdx]? = some pak)
    (hraw : mf.sizeCompressed = mf.sizeUncompressed)
    (hdisk : ext.disk { parent_path := r.mBasePath, filename := pak.name } = some bytes)
    (hlen : mf.offset + mf.sizeUncompressed ≤ bytes.length)
    (hsize : mf.sizeUncompressed < 2 ^ 64) :
    r.ExtractFile ext fileIdx ext.kInvalidValue ext.kInvalidValue =
        .ok { good := true, data := (bytes.drop mf.offset).take mf.sizeUncompressed,
              cursor := 0 } ∧
      r.ExtractFile ext fileIdx subOffset subLength =
        .ok { good := true,
              data := (bytes.drop
                  (mf.offset + (streamWindow ext mf.sizeUncompressed subOffset subLength).1)).take
                (streamWindow ext mf.sizeUncompressed subOffset subLength).2,
              cursor := 0 } ∧
      ∀ D : List Nat → Nat → Nat → List Nat × Nat,
        r.ExtractFile { ext with DecompressStream := D } fileIdx subOffset subLength =
          r.ExtractFile ext fileIdx subOffset subLength := by
  have hread : readAt ext bytes mf.offset mf.sizeUncompressed =
      (bytes.drop mf.offset).take mf.sizeUncompressed :=
    readAt_of_le ext bytes mf.offset mf.sizeUncompressed hlen
  have hgen : ∀ so sl, r.ExtractFile ext fileIdx so sl =
      .ok { good := true,
            data := (bytes.drop (mf.offset + (streamWindow ext mf.sizeUncompressed so sl).1)).take
              (streamWindow ext mf.sizeUncompressed so sl).2,
            cursor := 0 } := by
    intro so sl
    rw [ExtractFile_eq ext r fileIdx so sl mf pak hmf hpak]
    simp only [hdisk, hraw, hread, if_true, MemStream.over, MemStream.Good, MemStream.SetWindow,
      List.take_take, Nat.min_self]
    rw [drop_take_window bytes mf.offset mf.sizeUncompressed _ _
      (streamWindow_sum_le ext mf.sizeUncompressed so sl hsize)]
  refine ⟨?_, hgen subOffset subLength, ?_⟩
  · rw [hgen]
    have h1 : (streamWindow ext mf.sizeUncompressed ext.kInvalidValue ext.kInvalidValue).1 = 0 := by
      simp [streamWindow]
    have h2 : (streamWindow ext mf.sizeUncompressed ext.kInvalidValue ext.kInvalidValue).2 =
        mf.sizeUncompressed := by
      have := streamWindow_snd ext mf.sizeUncompressed ext.kInvalidValue ext.kInvalidValue hsize
      rw [h1] at this
      simpa using this
    rw [h1, h2, Nat.add_zero]
  · intro D
    rw [ExtractFile_eq ext r fileIdx subOffset subLength mf pak hmf hpak,
      ExtractFile_eq { ext with DecompressStream := D } r fileIdx subOffset subLength mf pak
        hmf hpak]
    simp only [hdisk, hraw, if_true]
    rfl

/-- The raw file of the sample package: bytes 1..3 of `p`, and its window `(1, 1)`. -/
theorem ExtractFile_stored_raw_witness :
    (readerOf extractFiles sampleArchive.paks).ExtractFile sampleExternals 1
        sampleExternals.kInvalidValue sampleExternals.kInvalidValue =
      .ok { good := true, data := [20, 30, 40], cursor := 0 } ∧
    (readerOf extractFiles sampleArchive.paks).ExtractFile sampleExternals 1 1 1 =
      .ok { good := true, data := [30], cursor := 0 } :=
  ⟨(ExtractFile_stored_raw sampleExternals (readerOf extractFiles sampleArchive.paks) 1 1 1
      (mkFile 1 [97] 0 1 3 3) { name := [112], levels := [[108, 49]], chunk := 5 }
      [10, 20, 30, 40, 50] rfl rfl rfl rfl (by decide) (by decide)).1,
   (ExtractFile_stored_raw sampleExternals (readerOf extractFiles sampleArchive.paks) 1 1 1
      (mkFile 1 [97] 0 1 3 3) { name := [112], levels := [[108, 49]], chunk := 5 }
      [10, 20, 30, 40, 50] rfl rfl rfl rfl (by decide) (by decide)).2.1⟩

/-! ## C9: failed extraction -/

/-- C9. For every entry with `sizeCompressed != sizeUncompressed`, `ExtractFile` returns a
valid (`Good`) view if and only if the package file opens and the decompression
collaborator reports exactly `sizeUncompressed` bytes written; otherwise (size mismatch,
or package file not opened) the result is the default-constructed invalid view, on which
no window has been set. -/
theorem ExtractFile_compressed_good_iff (ext : Externals) (r : VFXReader)
    (fileIdx subOffset subLength : Nat) (mf : MetroFile) (pak : Pak)
    (hmf : r.mFiles[fileIdx]? = some mf) (hpak : r.mPaks[mf.pakIdx]? = some pak)
    (hne : mf.sizeCompressed ≠ mf.sizeUncompressed) :
    ∃ v : MemStream, r.ExtractFile ext fileIdx subOffset subLength = .ok v ∧
      (v.Good = true ↔
        ∃ bytes, ext.disk { parent_path := r.mBasePath, filename := pak.name } = some bytes ∧
          (ext.DecompressStream (readAt ext bytes mf.offset mf.sizeCompressed) mf.sizeCompressed
            mf.sizeUncompressed).2 = mf.sizeUncompressed) ∧
      (v.Good = false → v = MemStream.empty) := by
  rw [ExtractFile_eq ext r fileIdx subOffset subLength mf pak hmf hpak]
  cases hdisk : ext.disk { parent_path := r.mBasePath, filename := pak.name } with
  | none =>
    exact ⟨MemStream.empty, rfl, by simp [MemStream.Good, MemStream.empty], fun _ => rfl⟩
  | some bytes =>
    by_cases hd : (ext.DecompressStream (readAt ext bytes mf.offset mf.sizeCompressed)
        mf.sizeCompressed mf.sizeUncompressed).2 = mf.sizeUncompressed
    · refine ⟨_, rfl, ?_, ?_⟩
      · simp [hne, hd, MemStream.Good, MemStream.over, MemStream.SetWindow]
      · simp [hne, hd, MemStream.Good, MemStream.over, MemStream.SetWindow]
    · refine ⟨_, rfl, ?_, ?_⟩
      · simp [hne, hd, MemStream.Good, MemStream.empty]
      · simp [hne, hd, MemStream.Good, MemStream.empty]

/-- The compressed file of the sample package, with a decompressor that reports one
byte too few: the view returned is invalid exactly as the theorem says. -/
theorem ExtractFile_compressed_good_iff_witness :
    ∃ v : MemStream,
      (readerOf extractFiles sampleArchive.paks).ExtractFile
          { sampleExternals with DecompressStream := fun _ _ dstLen => ([], dstLen - 1) }
          2 0 4 = .ok v ∧
      (v.Good = false → v = MemStream.empty) :=
  let ⟨v, h1, _, h3⟩ := ExtractFile_compressed_good_iff
    { sampleExternals with DecompressStream := fun _ _ dstLen => ([], dstLen - 1) }
    (readerOf extractFiles sampleArchive.paks) 2 0 4 (mkFile 2 [98] 0 0 4 2)
    { name := [112], levels := [[108, 49]], chunk := 5 } rfl rfl (by decide)
  ⟨v, h1, h3⟩


/-! ## C10: recursive file count -/

/-- The count of a folder is the number of file entries reachable from it, at every fuel
that covers the entry table. -/
theorem CountFilesInFolder_eq_ncard {r : VFXReader} (hW : FoldersAfterSelf r.mFiles)
    (hDisj : RangesDisjoint r.mFiles) (hlen : r.mFiles.length < 2 ^ 64) (f : Nat) (F : MetroFile)
    (hF : r.mFiles[f]? = some F) (hFf : F.IsFile = false) (fuel : Nat)
    (hfuel : r.mFiles.length ≤ fuel) :
    r.CountFilesInFolder fuel f = .ok (Set.ncard {x | ReachFile r.mFiles f x}) := by
  have hn : r.mFiles.length - f ≤ r.mFiles.length := Nat.sub_le _ _
  rw [CountFilesInFolder_eq hW r.mFiles.length f F hF hFf hn fuel hfuel,
    ncard_reachFile hW hDisj r.mFiles.length f F hF hFf hn]
  have := filesBelow_length_le hW hDisj r.mFiles.length f F hF hFf
  rw [Nat.mod_eq_of_lt (by omega)]

theorem ncard_reachFile_rec {mFiles : List MetroFile} (hW : FoldersAfterSelf mFiles)
    (hDisj : RangesDisjoint mFiles) (f : Nat) (F : MetroFile)
    (hF : mFiles[f]? = some F) (hFf : F.IsFile = false) :
    Set.ncard {x | ReachFile mFiles f x} =
      countFileEntries mFiles F.range +
        ((folderEntries mFiles F.range).map
          (fun g => Set.ncard {x | ReachFile mFiles g x})).sum := by
  have hlt : f < mFiles.length := (List.getElem?_eq_some.mp hF).1
  obtain ⟨m, hm⟩ : ∃ m, mFiles.length = m + 1 := ⟨mFiles.length - 1, by omega⟩
  rw [ncard_reachFile hW hDisj (m + 1) f F hF hFf (by omega)]
  simp only [filesBelow, hF]
  rw [length_flatMap_childFiles]
  congr 1
  congr 1
  apply List.map_congr_left
  intro g hg
  obtain ⟨hgr, G, hG, hGf⟩ := (mem_folderEntries mFiles F.range g).mp hg
  have hWf := hW f F hF hFf
  have := (mem_range_iff F g).mp hgr
  exact (ncard_reachFile hW hDisj m g G hG hGf (by omega)).symm

/-- C10, as stated, fails. In the archive `overlapFiles` every folder range is in bounds
and starts after the index of its folder, and one file entry (index 2) is reachable from
the root; `CountFilesInFolder(0)` returns 2, because that file lies in the range of the
root and in the range of the folder at index 1. -/
theorem CountFilesInFolder_overlap_counterexample :
    FoldersAfterSelf overlapFiles ∧
      (readerOf overlapFiles []).CountFilesInFolder 3 0 = .ok 2 ∧
      Set.ncard {x | ReachFile overlapFiles 0 x} = 1 := by
  refine ⟨?_, by decide, ?_⟩
  · intro g G hG hf
    have hg : g < 3 := (List.getElem?_eq_some.mp hG).1
    interval_cases g <;> simp [overlapFiles, mkFolder, mkFile] at hG <;> subst hG <;>
      simp [MetroFile.IsFile] at hf ⊢ <;> decide
  · have hs : {x | ReachFile overlapFiles 0 x} = {2} := by
      ext x
      simp only [Set.mem_setOf_eq, Set.mem_singleton_iff]
      constructor
      · rintro ⟨_, X, hX, hXf⟩
        have hx : x < 3 := (List.getElem?_eq_some.mp hX).1
        interval_cases x <;> simp [overlapFiles, mkFolder, mkFile] at hX <;> subst hX <;>
          simp [MetroFile.IsFile] at hXf ⊢
      · rintro rfl
        exact ⟨Reach.direct (F := mkFolder 0 [] 1 2) rfl (by decide),
          mkFile 2 [102] 0 0 4 4, rfl, rfl⟩
    rw [hs, Set.ncard_singleton]

/-- C10, amended. For every archive of fewer than `2 ^ 64` entries in which each folder
range is in bounds and starts strictly after the index of its folder, and in which no entry
lies in the ranges of two different folders, and for every folder index `f`,
`CountFilesInFolder(f)` returns the number of file entries reachable from `f` through the
containment hierarchy, and this number is the number of file entries in the range of `f`
plus the sum of `CountFilesInFolder` over the folder entries in the range of `f`. -/
theorem CountFilesInFolder_counts_reachable (r : VFXReader) (hW : FoldersAfterSelf r.mFiles)
    (hDisj : RangesDisjoint r.mFiles) (hlen : r.mFiles.length < 2 ^ 64) (f : Nat) (F : MetroFile)
    (hF : r.mFiles[f]? = some F) (hFf : F.IsFile = false) :
    (∀ fuel, r.mFiles.length ≤ fuel →
      r.CountFilesInFolder fuel f = .ok (Set.ncard {x | ReachFile r.mFiles f x})) ∧
    (∀ g ∈ folderEntries r.mFiles F.range, ∀ fuel, r.mFiles.length ≤ fuel →
      r.CountFilesInFolder fuel g = .ok (Set.ncard {x | ReachFile r.mFiles g x})) ∧
    Set.ncard {x | ReachFile r.mFiles f x} =
      countFileEntries r.mFiles F.range +
        ((folderEntries r.mFiles F.range).map
          (fun g => Set.ncard {x | ReachFile r.mFiles g x})).sum := by
  refine ⟨fun fuel hfuel => CountFilesInFolder_eq_ncard hW hDisj hlen f F hF hFf fuel hfuel,
    ?_, ncard_reachFile_rec hW hDisj f F hF hFf⟩
  intro g hg fuel hfuel
  obtain ⟨_, G, hG, hGf⟩ := (mem_folderEntries r.mFiles F.range g).mp hg
  exact CountFilesInFolder_eq_ncard hW hDisj hlen g G hG hGf fuel hfuel

theorem treeFiles_foldersAfterSelf : FoldersAfterSelf treeFiles := by
  intro g G hG hf
  have hg : g < 4 := (List.getElem?_eq_some.mp hG).1
  interval_cases g <;> simp [treeFiles, mkFolder, mkFile] at hG <;> subst hG <;>
    simp [MetroFile.IsFile] at hf ⊢ <;> decide

theorem treeFiles_rangesDisjoint : RangesDisjoint treeFiles := by
  intro g h G H x hG hH hGf hHf hxG hxH
  have hg : g < 4 := (List.getElem?_eq_some.mp hG).1
  have hh : h < 4 := (List.getElem?_eq_some.mp hH).1
  interval_cases g <;> interval_cases h <;>
    simp [treeFiles, mkFolder, mkFile] at hG hH <;> subst hG <;> subst hH <;>
    simp [MetroFile.IsFile, MetroFile.range] at hGf hHf hxG hxH ⊢ <;> omega

/-- The sample tree: the root holds the folder `a` and the file `f`, `a` holds the empty
folder `b`; the count of the root is 1, the number of reachable file entries. -/
theorem CountFilesInFolder_counts_reachable_witness :
    (readerOf treeFiles []).CountFilesInFolder 4 0 = .ok 1 ∧
      Set.ncard {x | ReachFile treeFiles 0 x} = 1 := by
  have h := (CountFilesInFolder_counts_reachable (readerOf treeFiles [])
    treeFiles_foldersAfterSelf treeFiles_rangesDisjoint (by decide) 0 (mkFolder 0 [] 1 2)
    rfl rfl).1 4 (by decide)
  have h4 : (readerOf treeFiles []).CountFilesInFolder 4 0 = .ok 1 := by decide
  rw [h4] at h
  exact ⟨h4, (Res.ok.inj h).symm⟩


/-! ## Lemmas: what every successful load establishes -/

theorem Res.bind_eq_ok {α β : Type} (x : Res α) (f : α → Res β) (v : β) :
    (x >>= f) = .ok v ↔ ∃ a, x = .ok a ∧ f a = .ok v := by
  cases x with
  | ok a => simp
  | outOfBounds => simp
  | outOfFuel => simp

theorem readFiles_inv : ∀ (olds : List MetroFile) (k : Nat) (folders : List Nat) (s : MemStream)
    (files : List MetroFile) (folders' : List Nat) (s' : MemStream),
    readFiles olds k folders s = .ok (files, folders', s') →
    files.length = olds.length ∧ (∀ (i : Nat) (mf : MetroFile), files[i]? = some mf → mf.idx = k + i) ∧
      folders' = folders ++ folderPositionsFrom k files := by
  intro olds
  induction olds with
  | nil =>
    intro k folders s files folders' s' h
    simp only [readFiles, Res.ok.injEq, Prod.mk.injEq] at h
    obtain ⟨rfl, rfl, _⟩ := h
    simp [folderPositionsFrom]
  | cons old olds ih =>
    intro k folders s files folders' s' h
    simp only [readFiles, Res.bind_eq_ok] at h
    obtain ⟨⟨flags, s1⟩, _, h⟩ := h
    simp only [] at h
    split at h
    · rename_i hfile
      simp only [Res.bind_eq_ok] at h
      obtain ⟨⟨pakIdx, s2⟩, _, ⟨offset, s3⟩, _, ⟨su, s4⟩, _, ⟨sc, s5⟩, _, ⟨name, s6⟩, _,
        ⟨rest', fo, s7⟩, hrest, h⟩ := h
      simp only [Res.pure_eq, Res.ok.injEq, Prod.mk.injEq] at h
      obtain ⟨rfl, rfl, _⟩ := h
      obtain ⟨h1, h2, h3⟩ := ih (k + 1) folders s6 rest' fo s7 hrest
      have hflag : flags % 2 = 1 := by simpa [MetroFile.IsFile] using hfile
      refine ⟨by simp [h1], ?_, ?_⟩
      · intro i mf hi
        cases i with
        | zero =>
          simp only [List.getElem?_cons_zero, Option.some.injEq] at hi
          subst hi
          rfl
        | succ i =>
          simp only [List.getElem?_cons_succ] at hi
          have := h2 i mf hi
          omega
      · simp only [folderPositionsFrom, MetroFile.IsFile, hflag, decide_True, if_true]
        exact h3
    · rename_i hfile
      simp only [Res.bind_eq_ok] at h
      obtain ⟨⟨numFiles, s2⟩, _, ⟨firstFile, s3⟩, _, ⟨name, s4⟩, _,
        ⟨rest', fo, s5⟩, hrest, h⟩ := h
      simp only [Res.pure_eq, Res.ok.injEq, Prod.mk.injEq] at h
      obtain ⟨rfl, rfl, _⟩ := h
      obtain ⟨h1, h2, h3⟩ := ih (k + 1) (folders ++ [k]) s4 rest' fo s5 hrest
      have hflag : ¬ flags % 2 = 1 := by simpa [MetroFile.IsFile] using hfile
      refine ⟨by simp [h1], ?_, ?_⟩
      · intro i mf hi
        cases i with
        | zero =>
          simp only [List.getElem?_cons_zero, Option.some.injEq] at hi
          subst hi
          rfl
        | succ i =>
          simp only [List.getElem?_cons_succ] at hi
          have := h2 i mf hi
          omega
      · simp only [folderPositionsFrom, MetroFile.IsFile, hflag, decide_False,
          Bool.false_eq_true, if_false]
        rw [h3]
        simp


theorem loadFromData_inv (ext : Externals) (filePath : FsPath) (data : List Nat)
    (r r' : VFXReader) (h : r.loadFromData ext filePath data = .ok (true, r')) :
    ∃ (n : Nat) (s s' : MemStream),
      readFiles (resize r.mFiles n ext.newFile) 0 r.mFolders s =
        .ok (r'.mFiles, r'.mFolders, s') := by
  simp only [VFXReader.loadFromData, Res.bind_eq_ok] at h
  obtain ⟨⟨version, s1⟩, _, ⟨compressionType, s2⟩, _, h⟩ := h
  simp only [] at h
  split at h
  · simp only [Res.bind_eq_ok] at h
    obtain ⟨⟨cv, s3⟩, _, ⟨guid, s4⟩, _, ⟨numVFS, s5⟩, _, ⟨numFiles, s6⟩, _, ⟨unk, s7⟩, _,
      ⟨paks, s8⟩, _, ⟨files, folders, s9⟩, hfiles, h⟩ := h
    simp only [Res.pure_eq, Res.ok.injEq, Prod.mk.injEq, true_and] at h
    subst h
    exact ⟨numFiles, s8, s9, hfiles⟩
  · simp at h

theorem LoadFromFile_inv (ext : Externals) (filePath : FsPath) (r r' : VFXReader)
    (h : r.LoadFromFile ext filePath = .ok (true, r')) :
    ∃ (n : Nat) (s s' : MemStream),
      readFiles (resize r.mFiles n ext.newFile) 0 r.mFolders s =
        .ok (r'.mFiles, r'.mFolders, s') := by
  unfold VFXReader.LoadFromFile at h
  cases hd : ext.disk filePath with
  | none => rw [hd] at h; simp at h
  | some data =>
    rw [hd] at h
    exact loadFromData_inv ext filePath data r r' h

/-- After every successful load each entry carries its position in `idx`, and the
folder-index vector is what it was before, followed by the positions of the folders. -/
theorem LoadFromFile_idx (ext : Externals) (filePath : FsPath) (r r' : VFXReader)
    (h : r.LoadFromFile ext filePath = .ok (true, r')) :
    IdxIsPosition r'.mFiles ∧ r'.mFolders = r.mFolders ++ folderPositionsFrom 0 r'.mFiles := by
  obtain ⟨n, s, s', hread⟩ := LoadFromFile_inv ext filePath r r' h
  obtain ⟨_, h2, h3⟩ := readFiles_inv _ 0 r.mFolders s r'.mFiles r'.mFolders s' hread
  refine ⟨?_, h3⟩
  intro i mf hi
  simpa using h2 i mf hi

theorem mem_folderPositionsFrom : ∀ (files : List MetroFile) (k i : Nat),
    i ∈ folderPositionsFrom k files ↔
      ∃ (j : Nat) (mf : MetroFile), i = k + j ∧ files[j]? = some mf ∧ mf.IsFile = false := by
  intro files
  induction files with
  | nil => intro k i; simp [folderPositionsFrom]
  | cons mf rest ih =>
    intro k i
    have hstep : (∃ (j : Nat) (m : MetroFile), i = k + 1 + j ∧ rest[j]? = some m ∧
        m.IsFile = false) ↔
        ∃ (j : Nat) (m : MetroFile), i = k + (j + 1) ∧ (mf :: rest)[j + 1]? = some m ∧
          m.IsFile = false := by
      constructor
      · rintro ⟨j, m, h1, h2, h3⟩
        exact ⟨j, m, by omega, by simpa using h2, h3⟩
      · rintro ⟨j, m, h1, h2, h3⟩
        exact ⟨j, m, by omega, by simpa using h2, h3⟩
    cases hf : mf.IsFile with
    | true =>
      simp only [folderPositionsFrom, hf, if_true, ih, hstep]
      constructor
      · rintro ⟨j, m, h1, h2, h3⟩
        exact ⟨j + 1, m, h1, h2, h3⟩
      · rintro ⟨j, m, h1, h2, h3⟩
        cases j with
        | zero =>
          simp only [List.getElem?_cons_zero, Option.some.injEq] at h2
          subst h2
          rw [hf] at h3
          cases h3
        | succ j => exact ⟨j, m, h1, h2, h3⟩
    | false =>
      simp only [folderPositionsFrom, hf, Bool.false_eq_true, if_false, List.mem_cons, ih, hstep]
      constructor
      · rintro (h | ⟨j, m, h1, h2, h3⟩)
        · exact ⟨0, mf, by omega, by simp, hf⟩
        · exact ⟨j + 1, m, h1, h2, h3⟩
      · rintro ⟨j, m, h1, h2, h3⟩
        cases j with
        | zero => exact Or.inl (by omega)
        | succ j => exact Or.inr ⟨j, m, h1, h2, h3⟩

theorem folderPositionsFrom_pairwise : ∀ (files : List MetroFile) (k : Nat),
    (folderPositionsFrom k files).Pairwise (fun a b => a < b) := by
  intro files
  induction files with
  | nil => intro k; simp [folderPositionsFrom]
  | cons mf rest ih =>
    intro k
    cases hf : mf.IsFile with
    | true => simpa [folderPositionsFrom, hf] using ih (k + 1)
    | false =>
      simp only [folderPositionsFrom, hf, Bool.false_eq_true, if_false, List.pairwise_cons]
      refine ⟨?_, ih (k + 1)⟩
      intro a ha
      obtain ⟨j, _, h1, _, _⟩ := (mem_folderPositionsFrom rest (k + 1) a).mp ha
      omega


/-! ## Lemmas: the extension filter -/

theorem FindFilesInFolder_succ (r : VFXReader) (extension : CharString) (withSubfolders : Bool)
    (fuel folderIdx : Nat) :
    r.FindFilesInFolder extension withSubfolders (fuel + 1) folderIdx =
      match r.mFiles[folderIdx]? with
      | none => .outOfBounds
      | some folder =>
        if !folder.IsFile then
          folder.range.foldlM
            (findBody r.mFiles extension
              (fun i => r.FindFilesInFolder extension withSubfolders fuel i)) []
        else .ok [] := rfl

/-- The flag `withSubfolders` is passed along and never read. -/
theorem FindFilesInFolder_flag (r : VFXReader) (extension : CharString) :
    ∀ (fuel folderIdx : Nat),
      r.FindFilesInFolder extension false fuel folderIdx =
        r.FindFilesInFolder extension true fuel folderIdx := by
  intro fuel
  induction fuel with
  | zero => intro _; rfl
  | succ fuel ih =>
    intro folderIdx
    rw [FindFilesInFolder_succ, FindFilesInFolder_succ]
    have : (fun i => r.FindFilesInFolder extension false fuel i) =
        (fun i => r.FindFilesInFolder extension true fuel i) := funext ih
    rw [this]

theorem foldlM_findBody (mFiles : List MetroFile) (extension : CharString)
    (sub : Nat → Res (List Nat)) (below : Nat → List Nat) (hIdx : IdxIsPosition mFiles) :
    ∀ (l : List Nat) (acc : List Nat), (∀ i ∈ l, i < mFiles.length) →
    (∀ i ∈ l, ∀ X : MetroFile, mFiles[i]? = some X → X.IsFile = false →
      sub i = .ok ((below i).filter (nameEndsWith mFiles extension))) →
    l.foldlM (findBody mFiles extension sub) acc =
      .ok (acc ++ (l.flatMap (childFiles mFiles below)).filter (nameEndsWith mFiles extension)) := by
  intro l
  induction l with
  | nil =>
    intro acc _ _
    simp only [List.foldlM_nil, List.flatMap_nil, List.filter_nil, List.append_nil]
    rfl
  | cons i l ih =>
    intro acc hb hc
    have hi : i < mFiles.length := hb i (by simp)
    have hget : mFiles[i]? = some mFiles[i] := List.getElem?_eq_getElem hi
    have hidx : (mFiles[i]).idx = i := hIdx i _ hget
    have hb' : ∀ j ∈ l, j < mFiles.length := fun j hj => hb j (by simp [hj])
    have hc' : ∀ j ∈ l, ∀ X : MetroFile, mFiles[j]? = some X → X.IsFile = false →
        sub j = .ok ((below j).filter (nameEndsWith mFiles extension)) :=
      fun j hj => hc j (by simp [hj])
    rw [List.foldlM_cons, List.flatMap_cons, List.filter_append, ← List.append_assoc]
    cases hf : (mFiles[i]).IsFile with
    | true =>
      have e2 : childFiles mFiles below i = [i] := by simp [childFiles, hget, hf]
      have hp : nameEndsWith mFiles extension i = StrEndsWith (mFiles[i]).name extension := by
        simp [nameEndsWith, hget]
      cases hs : StrEndsWith (mFiles[i]).name extension with
      | true =>
        have e1 : findBody mFiles extension sub acc i = .ok (acc ++ [i]) := by
          simp [findBody, hget, hf, hs, hidx]
        rw [e1, Res.ok_bind, ih _ hb' hc', e2]
        simp [List.filter_cons, hp, hs]
      | false =>
        have e1 : findBody mFiles extension sub acc i = .ok acc := by
          simp [findBody, hget, hf, hs]
        rw [e1, Res.ok_bind, ih _ hb' hc', e2]
        simp [List.filter_cons, hp, hs]
    | false =>
      have e0 := hc i (by simp) _ hget hf
      have e1 : findBody mFiles extension sub acc i =
          .ok (acc ++ (below i).filter (nameEndsWith mFiles extension)) := by
        simp [findBody, hget, hf, hidx, e0]
      have e2 : childFiles mFiles below i = below i := by simp [childFiles, hget, hf]
      rw [e1, Res.ok_bind, ih _ hb' hc', e2]

theorem FindFilesInFolder_eq {r : VFXReader} (extension : CharString) (withSubfolders : Bool)
    (hW : FoldersAfterSelf r.mFiles) (hIdx : IdxIsPosition r.mFiles) :
    ∀ (n f : Nat) (F : MetroFile), r.mFiles[f]? = some F → F.IsFile = false →
    r.mFiles.length - f ≤ n → ∀ fuel, n ≤ fuel →
    r.FindFilesInFolder extension withSubfolders fuel f =
      .ok ((filesBelow r.mFiles n f).filter (nameEndsWith r.mFiles extension)) := by
  intro n
  induction n with
  | zero =>
    intro f F hF _ hn
    have hlt : f < r.mFiles.length := (List.getElem?_eq_some.mp hF).1
    omega
  | succ n ih =>
    intro f F hF hFf hn fuel hfuel
    obtain ⟨fuel', rfl⟩ : ∃ m, fuel = m + 1 := ⟨fuel - 1, by omega⟩
    have hWf := hW f F hF hFf
    rw [FindFilesInFolder_succ]
    simp only [hF, hFf, Bool.not_false, if_true, filesBelow]
    rw [foldlM_findBody r.mFiles extension _ (filesBelow r.mFiles n) hIdx F.range []]
    · simp
    · intro i hi
      have := (mem_range_iff F i).mp hi
      omega
    · intro i hi X hX hXf
      have := (mem_range_iff F i).mp hi
      exact ih i X hX hXf (by omega) fuel' (by omega)

theorem filter_flatMap_childFiles (mFiles : List MetroFile) (extension : CharString)
    (below : Nat → List Nat) : ∀ (l : List Nat),
    (l.flatMap (childFiles mFiles below)).filter (nameEndsWith mFiles extension) =
      l.flatMap (childMatches mFiles extension
        (fun i => (below i).filter (nameEndsWith mFiles extension))) := by
  intro l
  induction l with
  | nil => rfl
  | cons i l ih =>
    rw [List.flatMap_cons, List.flatMap_cons, List.filter_append, ih]
    congr 1
    unfold childFiles childMatches
    cases hX : mFiles[i]? with
    | none => rfl
    | some X =>
      cases hf : X.IsFile with
      | true =>
        cases hs : StrEndsWith X.name extension <;>
          simp [hf, hs, List.filter_cons, nameEndsWith, hX]
      | false => simp [hf]


/-! ## Lemmas: parent lookup, repeated loads, unbounded recursion -/

theorem containsFile_iff (F : MetroFile) (x : Nat) : F.ContainsFile x = true ↔ x ∈ F.range := by
  simp [MetroFile.ContainsFile, mem_range_iff]

theorem getParentLoop_eq (mFiles : List MetroFile) (x : Nat) : ∀ (l : List Nat),
    (∀ i ∈ l, i < mFiles.length) →
    getParentLoop mFiles x l =
      .ok ((l.filterMap (fun i => mFiles[i]?)).find? (fun F => F.ContainsFile x)) := by
  intro l
  induction l with
  | nil => intro _; rfl
  | cons i l ih =>
    intro hb
    have hi : i < mFiles.length := hb i (by simp)
    have hget : mFiles[i]? = some mFiles[i] := List.getElem?_eq_getElem hi
    have hrest := ih (fun j hj => hb j (by simp [hj]))
    cases hc : (mFiles[i]).ContainsFile x with
    | true => simp [getParentLoop, hget, hc, List.filterMap_cons, List.find?_cons]
    | false => simp [getParentLoop, hget, hc, List.filterMap_cons, List.find?_cons, hrest]

theorem mem_listedFolders (r : VFXReader) (F : MetroFile) :
    F ∈ listedFolders r ↔ ∃ i ∈ r.mFolders, r.mFiles[i]? = some F := by
  simp [listedFolders, List.mem_filterMap]

theorem resize_self {α : Type} (v : List α) (d : α) : resize v v.length d = v := by
  simp [resize]

theorem parsedEntry_idem (old : MetroFile) (k : Nat) (e : EntryRecord) :
    parsedEntry (parsedEntry old k e) k e = parsedEntry old k e := by
  unfold parsedEntry
  cases e.mf.IsFile <;> rfl

theorem parsedEntries_idem : ∀ (es : List EntryRecord) (olds : List MetroFile) (k : Nat),
    parsedEntries (parsedEntries olds k es) k es = parsedEntries olds k es := by
  intro es
  induction es with
  | nil => intro olds k; cases olds <;> rfl
  | cons e es ih =>
    intro olds k
    cases olds with
    | nil => rfl
    | cons o olds => simp [parsedEntries, parsedEntry_idem, ih]

/-- A folder whose range holds its own index: the count never returns. -/
theorem CountFilesInFolder_selfLoop (paks : List Pak) (folders : List Nat) : ∀ (fuel : Nat),
    (loadedReader paks selfLoopFiles folders).CountFilesInFolder fuel 0 = .outOfFuel := by
  intro fuel
  induction fuel with
  | zero => rfl
  | succ fuel ih =>
    rw [CountFilesInFolder_succ]
    have hget : (loadedReader paks selfLoopFiles folders).mFiles[0]? = some (mkFolder 0 [] 0 1) :=
      rfl
    have hrange : (mkFolder 0 [] 0 1).range = [0] := rfl
    simp only [hget, hrange, List.foldlM_cons, List.foldlM_nil, countBody, ih]
    rfl

theorem getElem?_of_parsedEntries : ∀ (es : List EntryRecord) (olds : List MetroFile) (k i : Nat)
    (F : MetroFile), olds.length = es.length → (parsedEntries olds k es)[i]? = some F →
    ∃ (o : MetroFile) (e : EntryRecord), es[i]? = some e ∧ F = parsedEntry o (k + i) e := by
  intro es olds k i F hlen hF
  have hi : i < es.length := by
    have := (List.getElem?_eq_some.mp hF).1
    rwa [parsedEntries_length es olds k hlen] at this
  obtain ⟨o, _, h2⟩ := parsedEntries_getElem? es olds k i es[i] hlen (List.getElem?_eq_getElem hi)
  rw [h2] at hF
  exact ⟨o, es[i], List.getElem?_eq_getElem hi, (Option.some.inj hF).symm⟩


theorem parsedEntry_isFile (old : MetroFile) (k : Nat) (e : EntryRecord) :
    (parsedEntry old k e).IsFile = e.mf.IsFile := by
  unfold parsedEntry
  cases hk : e.mf.IsFile with
  | true => simpa [MetroFile.IsFile] using hk
  | false => simpa [MetroFile.IsFile] using hk


/-- `LoadFromFile` on the index file of an archive value, from any prior reader. -/
theorem LoadFromFile_serialize (ext : Externals) (filePath : FsPath) (r : VFXReader)
    (a : Archive) (hfit : a.Fits) (hlz4 : ext.Type_LZ4 < 2 ^ 32)
    (hdisk : ext.disk filePath = some (serialize kVFXVersionExodus ext.Type_LZ4 a)) :
    r.LoadFromFile ext filePath =
      .ok (true,
        { mContentVersion := a.contentVersion, mGUID := a.guid, mPaks := a.paks,
          mFiles := parsedEntries (resize r.mFiles a.entries.length ext.newFile) 0 a.entries,
          mFolders := r.mFolders ++ folderIndices 0 a.entries,
          mBasePath := filePath.parent_path, mFileName := filePath.filename }) := by
  simp only [VFXReader.LoadFromFile, hdisk]
  exact loadFromData_serialize ext filePath r a hfit hlz4


/-- After a successful load into a fresh reader every entry carries its position and the
folder-index vector is the increasing list of the folder positions. -/
theorem fresh_load_folders (ext : Externals) (filePath : FsPath) (guid0 : List Nat)
    (r : VFXReader) (h : (VFXReader.fresh guid0).LoadFromFile ext filePath = .ok (true, r)) :
    (∀ (i : Nat) (mf : MetroFile), r.mFiles[i]? = some mf → mf.idx = i) ∧
      r.GetAllFolders.Pairwise (fun a b => a < b) ∧
      ∀ i, i ∈ r.GetAllFolders ↔ ∃ mf : MetroFile, r.mFiles[i]? = some mf ∧ mf.IsFile = false := by
  obtain ⟨hidx, hfolders⟩ := LoadFromFile_idx ext filePath (VFXReader.fresh guid0) r h
  have hf : r.GetAllFolders = folderPositionsFrom 0 r.mFiles := by
    simpa [VFXReader.GetAllFolders, VFXReader.fresh] using hfolders
  refine ⟨hidx, ?_, ?_⟩
  · rw [hf]
    exact folderPositionsFrom_pairwise _ _
  · intro i
    rw [hf, mem_folderPositionsFrom]
    constructor
    · rintro ⟨j, mf, h1, h2, h3⟩
      have : i = j := by omega
      subst this
      exact ⟨mf, h2, h3⟩
    · rintro ⟨mf, h2, h3⟩
      exact ⟨i, mf, by omega, h2, h3⟩


/-! ## C11: contents of the extension filter -/

/-- C11, as stated, fails. The archive parsed from the index file of `overlapFiles` obeys
the data model of the spec (entry 0 is the root, the range of every folder is in bounds,
starts after the folder and holds its direct and transitive children; every entry has its
position in `idx`), and one file entry, index 2, lies below the root. With the empty
suffix `FindFilesInFolder(0, "", true)` returns index 2 twice: once through the folder at
index 1, once from the range of the root itself. -/
theorem FindFilesInFolder_overlap_counterexample :
    (VFXReader.fresh []).LoadFromFile (diskOf (archiveOf [samplePak] overlapFiles)) indexPath =
        .ok (true, loadedReader [samplePak] overlapFiles [0, 1]) ∧
      FoldersAfterSelf overlapFiles ∧ IdxIsPosition overlapFiles ∧
      (loadedReader [samplePak] overlapFiles [0, 1]).FindFilesInFolder [] true 3 0 = .ok [2, 2] ∧
      ¬ ([2, 2] : List Nat).Nodup := by
  refine ⟨by decide, ?_, ?_, by decide, by decide⟩
  · intro g G hG hf
    have hg : g < 3 := (List.getElem?_eq_some.mp hG).1
    interval_cases g <;> simp [overlapFiles, mkFolder, mkFile] at hG <;> subst hG <;>
      simp [MetroFile.IsFile] at hf ⊢ <;> decide
  · intro i mf hi
    have hg : i < 3 := (List.getElem?_eq_some.mp hi).1
    interval_cases i <;> simp [overlapFiles, mkFolder, mkFile] at hi <;> subst hi <;> rfl

/-- C11, amended. For every archive left by a successful `LoadFromFile` in which each
folder range is in bounds and starts strictly after the index of its folder, and in which
no entry lies in the ranges of two different folders, for every folder index `f` and
suffix `ext`, `FindFilesInFolder(f, ext, true)` returns a list that contains exactly the
indices of the file entries reachable from `f` whose name ends with `ext`, each once; and
applied to the index of a file entry `FindFilesInFolder` returns the empty list. -/
theorem FindFilesInFolder_contents (ext : Externals) (filePath : FsPath) (r0 r : VFXReader)
    (hload : r0.LoadFromFile ext filePath = .ok (true, r)) (extension : CharString)
    (hW : FoldersAfterSelf r.mFiles) (hDisj : RangesDisjoint r.mFiles) :
    (∀ (f : Nat) (F : MetroFile), r.mFiles[f]? = some F → F.IsFile = false →
      ∃ l : List Nat,
        (∀ fuel, r.mFiles.length ≤ fuel → r.FindFilesInFolder extension true fuel f = .ok l) ∧
        l.Nodup ∧
        ∀ x, x ∈ l ↔ (ReachFile r.mFiles f x ∧
          ∃ X : MetroFile, r.mFiles[x]? = some X ∧ StrEndsWith X.name extension = true)) ∧
    (∀ (f : Nat) (F : MetroFile) (fuel : Nat), r.mFiles[f]? = some F → F.IsFile = true →
      r.FindFilesInFolder extension true (fuel + 1) f = .ok []) := by
  have hIdx := (LoadFromFile_idx ext filePath r0 r hload).1
  refine ⟨?_, ?_⟩
  · intro f F hF hFf
    have hn : r.mFiles.length - f ≤ r.mFiles.length := Nat.sub_le _ _
    refine ⟨(filesBelow r.mFiles r.mFiles.length f).filter (nameEndsWith r.mFiles extension),
      fun fuel hfuel => FindFilesInFolder_eq extension true hW hIdx r.mFiles.length f F hF hFf hn
        fuel hfuel,
      (filesBelow_nodup hW hDisj r.mFiles.length f F hF hFf).filter _, ?_⟩
    intro x
    rw [List.mem_filter]
    constructor
    · rintro ⟨hx, hp⟩
      have hr := filesBelow_sound r.mFiles r.mFiles.length f x hx
      obtain ⟨X, hX, _⟩ := hr.2
      exact ⟨hr, X, hX, by simpa [nameEndsWith, hX] using hp⟩
    · rintro ⟨⟨hr, X, hX, hXf⟩, Y, hY, hs⟩
      refine ⟨filesBelow_complete hW hr F X hF hFf hX hXf _ hn, ?_⟩
      simpa [nameEndsWith, hY] using hs
  · intro f F fuel hF hFf
    rw [FindFilesInFolder_succ]
    simp [hF, hFf]

/-- The sample tree, loaded from its index file: below the root only the file `f`
(index 2) has a name ending with `f`. -/
theorem FindFilesInFolder_contents_witness :
    ∃ l : List Nat,
      (∀ fuel, 4 ≤ fuel →
        (loadedReader [samplePak] treeFiles [0, 1, 3]).FindFilesInFolder [102] true fuel 0 =
          .ok l) ∧
      l.Nodup ∧
      ∀ x, x ∈ l ↔ (ReachFile treeFiles 0 x ∧
        ∃ X : MetroFile, treeFiles[x]? = some X ∧ StrEndsWith X.name [102] = true) :=
  (FindFilesInFolder_contents (diskOf (archiveOf [samplePak] treeFiles)) indexPath
    (VFXReader.fresh []) (loadedReader [samplePak] treeFiles [0, 1, 3]) (by decide) [102]
    treeFiles_foldersAfterSelf treeFiles_rangesDisjoint).1 0 (mkFolder 0 [] 1 2) rfl rfl

/-! ## C12: the containment invariant after a parse -/

/-- C12, as stated, fails. The index file of a single root folder with `firstFile = 5`,
`numFiles = 3` is loaded with success, and the range `[5, 8)` of that folder lies outside
the table of one entry: the parser stores both fields as read. -/
theorem LoadFromFile_wild_range_counterexample :
    (VFXReader.fresh []).LoadFromFile (diskOf (archiveOf [] wildRangeFiles)) indexPath =
        .ok (true, loadedReader [] wildRangeFiles [0]) ∧
      (loadedReader [] wildRangeFiles [0]).mFiles[0]? = some (mkFolder 0 [] 5 3) ∧
      (mkFolder 0 [] 5 3).IsFile = false ∧
      ¬ ((mkFolder 0 [] 5 3).firstFile + (mkFolder 0 [] 5 3).numFiles ≤
        (loadedReader [] wildRangeFiles [0]).mFiles.length) := by
  decide

/-- C12, amended. For every index file that serialises an archive value (fitting the
layout) in which every folder record has `firstFile + numFiles` at most the number of
entries, `LoadFromFile` on a fresh reader returns true and every folder entry `F` of the
resulting archive has `F.firstFile + F.numFiles <= total entry count`, so every index of
`[F.firstFile, F.firstFile + F.numFiles)` is a valid entry index. The parser itself
compares neither field with the entry count. -/
theorem LoadFromFile_keeps_ranges_in_bounds (ext : Externals) (filePath : FsPath) (a : Archive)
    (guid0 : List Nat) (hfit : a.Fits) (hlz4 : ext.Type_LZ4 < 2 ^ 32)
    (hdisk : ext.disk filePath = some (serialize kVFXVersionExodus ext.Type_LZ4 a))
    (hranges : ∀ e ∈ a.entries, e.mf.IsFile = false →
      e.mf.firstFile + e.mf.numFiles ≤ a.entries.length) :
    ∃ r' : VFXReader, (VFXReader.fresh guid0).LoadFromFile ext filePath = .ok (true, r') ∧
      ∀ (i : Nat) (F : MetroFile), r'.mFiles[i]? = some F → F.IsFile = false →
        F.firstFile + F.numFiles ≤ r'.mFiles.length ∧
        ∀ j ∈ F.range, ∃ E : MetroFile, r'.mFiles[j]? = some E := by
  have hload := loadFromData_serialize ext filePath (VFXReader.fresh guid0) a hfit hlz4
  refine ⟨_, by simp only [VFXReader.LoadFromFile, hdisk]; exact hload, ?_⟩
  intro i F hF hFf
  simp only at hF ⊢
  have hlen := parsedEntries_length a.entries
    (resize (VFXReader.fresh guid0).mFiles a.entries.length ext.newFile) 0 (length_resize _ _ _)
  obtain ⟨o, e, he, rfl⟩ := getElem?_of_parsedEntries a.entries _ 0 i F (length_resize _ _ _) hF
  have hkind : e.mf.IsFile = false := by
    rw [← parsedEntry_isFile o (0 + i) e]
    exact hFf
  have hr := hranges e (List.getElem?_mem he) hkind
  have hfields : (parsedEntry o (0 + i) e).firstFile = e.mf.firstFile ∧
      (parsedEntry o (0 + i) e).numFiles = e.mf.numFiles := by
    simp [parsedEntry, hkind]
  rw [hlen]
  refine ⟨by rw [hfields.1, hfields.2]; exact hr, ?_⟩
  intro j hj
  have hj' := (mem_range_iff _ j).mp hj
  rw [hfields.1, hfields.2] at hj'
  have hjl : j < (parsedEntries (resize (VFXReader.fresh guid0).mFiles a.entries.length
      ext.newFile) 0 a.entries).length := by
    rw [hlen]
    omega
  exact ⟨_, List.getElem?_eq_getElem hjl⟩

/-- The sample archive: its root folder has the range `[1, 2)` in a table of two entries. -/
theorem LoadFromFile_keeps_ranges_in_bounds_witness :
    ∃ r' : VFXReader,
      (VFXReader.fresh []).LoadFromFile sampleExternals { parent_path := [], filename := [105] } =
        .ok (true, r') ∧
      ∀ (i : Nat) (F : MetroFile), r'.mFiles[i]? = some F → F.IsFile = false →
        F.firstFile + F.numFiles ≤ r'.mFiles.length ∧
        ∀ j ∈ F.range, ∃ E : MetroFile, r'.mFiles[j]? = some E :=
  LoadFromFile_keeps_ranges_in_bounds sampleExternals { parent_path := [], filename := [105] }
    sampleArchive []
    (by
      simp [Archive.Fits, sampleArchive, ZString, Pak.Fits, EntryRecord.Fits, mkFolder, mkFile,
        MetroFile.IsFile])
    (by decide) rfl (by decide)


/-! ## C13: package indices after a parse -/

/-- C13, as stated, fails. The index file with no package and a file entry whose `pakIdx`
is 0 is loaded with success; the package index of that entry is not smaller than the
number of packages, and the lookup `mPaks[mf.pakIdx]` of `ExtractFile` is out of bounds. -/
theorem LoadFromFile_wild_pakIdx_counterexample :
    (VFXReader.fresh []).LoadFromFile (diskOf (archiveOf [] orphanFiles)) indexPath =
        .ok (true, loadedReader [] orphanFiles [0]) ∧
      (loadedReader [] orphanFiles [0]).mFiles[1]? = some (mkFile 1 [97] 0 0 4 4) ∧
      (mkFile 1 [97] 0 0 4 4).IsFile = true ∧
      ¬ ((mkFile 1 [97] 0 0 4 4).pakIdx < (loadedReader [] orphanFiles [0]).mPaks.length) ∧
      (loadedReader [] orphanFiles [0]).ExtractFile sampleExternals 1
        sampleExternals.kInvalidValue sampleExternals.kInvalidValue = .outOfBounds := by
  decide

/-- C13, amended. For every index file that serialises an archive value (fitting the
layout) in which every file record has `pakIdx` smaller than the number of packages,
`LoadFromFile` on a fresh reader returns true and every file entry of the resulting
archive has `pakIdx` smaller than the number of packages, so the lookup
`mPaks[mf.pakIdx]` of `ExtractFile` is in bounds and `ExtractFile` returns a view. The
parser itself does not compare `pakIdx` with the number of packages. -/
theorem LoadFromFile_keeps_pakIdx_valid (ext : Externals) (filePath : FsPath) (a : Archive)
    (guid0 : List Nat) (hfit : a.Fits) (hlz4 : ext.Type_LZ4 < 2 ^ 32)
    (hdisk : ext.disk filePath = some (serialize kVFXVersionExodus ext.Type_LZ4 a))
    (hpaks : ∀ e ∈ a.entries, e.mf.IsFile = true → e.mf.pakIdx < a.paks.length) :
    ∃ r' : VFXReader, (VFXReader.fresh guid0).LoadFromFile ext filePath = .ok (true, r') ∧
      ∀ (i : Nat) (mf : MetroFile), r'.mFiles[i]? = some mf → mf.IsFile = true →
        mf.pakIdx < r'.mPaks.length ∧
        ∀ subOffset subLength, ∃ v : MemStream,
          r'.ExtractFile ext i subOffset subLength = .ok v := by
  have hload := loadFromData_serialize ext filePath (VFXReader.fresh guid0) a hfit hlz4
  refine ⟨_, by simp only [VFXReader.LoadFromFile, hdisk]; exact hload, ?_⟩
  intro i mf hmf hfile
  simp only at hmf ⊢
  obtain ⟨o, e, he, hmfe⟩ := getElem?_of_parsedEntries a.entries _ 0 i mf (length_resize _ _ _) hmf
  have hkind : e.mf.IsFile = true := by
    rw [← parsedEntry_isFile o (0 + i) e, ← hmfe]
    exact hfile
  have hp : mf.pakIdx = e.mf.pakIdx := by
    rw [hmfe]
    simp [parsedEntry, hkind]
  have hlt : mf.pakIdx < a.paks.length := by
    rw [hp]
    exact hpaks e (List.getElem?_mem he) hkind
  refine ⟨hlt, ?_⟩
  intro subOffset subLength
  rw [ExtractFile_eq ext _ i subOffset subLength mf a.paks[mf.pakIdx] hmf
    (List.getElem?_eq_getElem hlt)]
  simp only
  cases ext.disk { parent_path := filePath.parent_path, filename := (a.paks[mf.pakIdx]).name } with
  | none => exact ⟨_, rfl⟩
  | some bytes => exact ⟨_, rfl⟩

/-- The sample archive: its file entry lies in package 0 of one package. -/
theorem LoadFromFile_keeps_pakIdx_valid_witness :
    ∃ r' : VFXReader,
      (VFXReader.fresh []).LoadFromFile sampleExternals { parent_path := [], filename := [105] } =
        .ok (true, r') ∧
      ∀ (i : Nat) (mf : MetroFile), r'.mFiles[i]? = some mf → mf.IsFile = true →
        mf.pakIdx < r'.mPaks.length ∧
        ∀ subOffset subLength, ∃ v : MemStream,
          r'.ExtractFile sampleExternals i subOffset subLength = .ok v :=
  LoadFromFile_keeps_pakIdx_valid sampleExternals { parent_path := [], filename := [105] }
    sampleArchive []
    (by
      simp [Archive.Fits, sampleArchive, ZString, Pak.Fits, EntryRecord.Fits, mkFolder, mkFile,
        MetroFile.IsFile])
    (by decide) rfl (by decide)

/-! ## C14: order of the extension filter -/

theorem preorderFiles_foldersAfterSelf : FoldersAfterSelf preorderFiles := by
  intro g G hG hf
  have hg : g < 4 := (List.getElem?_eq_some.mp hG).1
  interval_cases g <;> simp [preorderFiles, mkFolder, mkFile] at hG <;> subst hG <;>
    simp [MetroFile.IsFile] at hf ⊢ <;> decide

theorem preorderFiles_rangesDisjoint : RangesDisjoint preorderFiles := by
  intro g h G H x hG hH hGf hHf hxG hxH
  have hg : g < 4 := (List.getElem?_eq_some.mp hG).1
  have hh : h < 4 := (List.getElem?_eq_some.mp hH).1
  interval_cases g <;> interval_cases h <;>
    simp [preorderFiles, mkFolder, mkFile] at hG hH <;> subst hG <;> subst hH <;>
    simp [MetroFile.IsFile, MetroFile.range] at hGf hHf hxG hxH ⊢ <;> omega

theorem preorderFiles_idxIsPosition : IdxIsPosition preorderFiles := by
  intro i mf hi
  have hg : i < 4 := (List.getElem?_eq_some.mp hi).1
  interval_cases i <;> simp [preorderFiles, mkFolder, mkFile] at hi <;> subst hi <;> rfl

/-- C14, as stated, fails. In the archive parsed from the index file of `preorderFiles`
(ranges in bounds, after their folder and pairwise disjoint, `idx` equal to the position)
the root holds the folder `a` at index 1 and the file `f` at index 2, and `a` holds the
file `g` at index 3. `FindFilesInFolder(0, "", true)` returns `[3, 2]`: the files of `a`
come at the place of `a`, before `f`, so the list is not increasing in entry index. In
the archive of `overlapFiles`, where the range of the root also holds the file of its
sub-folder, the list is `[2, 2]`, not strictly increasing either. -/
theorem FindFilesInFolder_order_counterexample :
    (VFXReader.fresh []).LoadFromFile (diskOf (archiveOf [samplePak] preorderFiles)) indexPath =
        .ok (true, loadedReader [samplePak] preorderFiles [0, 1]) ∧
      FoldersAfterSelf preorderFiles ∧ RangesDisjoint preorderFiles ∧
      IdxIsPosition preorderFiles ∧
      (loadedReader [samplePak] preorderFiles [0, 1]).FindFilesInFolder [] true 4 0 =
        .ok [3, 2] ∧
      ¬ ([3, 2] : List Nat).Pairwise (fun a b => a < b) ∧
      (loadedReader [samplePak] overlapFiles [0, 1]).FindFilesInFolder [] true 4 0 =
        .ok [2, 2] ∧
      ¬ ([2, 2] : List Nat).Pairwise (fun a b => a < b) :=
  ⟨by decide, preorderFiles_foldersAfterSelf, preorderFiles_rangesDisjoint,
    preorderFiles_idxIsPosition, by decide, by decide, by decide, by decide⟩

/-- C14, amended. For every archive left by a successful `LoadFromFile` in which each
folder range is in bounds and starts strictly after the index of its folder, for every
folder index `f` and suffix `ext`, the indices returned by
`FindFilesInFolder(f, ext, true)` appear in pre-order of the folder hierarchy: the entries
of the range of `f` are taken in increasing index order, a file whose name ends with
`ext` gives its own index, and a folder gives, at its place, the list that
`FindFilesInFolder` returns for it. The list need not be increasing in entry index. -/
theorem FindFilesInFolder_preorder (ext : Externals) (filePath : FsPath) (r0 r : VFXReader)
    (hload : r0.LoadFromFile ext filePath = .ok (true, r)) (extension : CharString)
    (hW : FoldersAfterSelf r.mFiles) (f : Nat) (F : MetroFile)
    (hF : r.mFiles[f]? = some F) (hFf : F.IsFile = false) :
    ∃ sub : Nat → List Nat,
      (∀ (g : Nat) (G : MetroFile), g ∈ F.range → r.mFiles[g]? = some G → G.IsFile = false →
        ∀ fuel, r.mFiles.length ≤ fuel →
          r.FindFilesInFolder extension true fuel g = .ok (sub g)) ∧
      ∀ fuel, r.mFiles.length ≤ fuel →
        r.FindFilesInFolder extension true fuel f =
          .ok (F.range.flatMap (childMatches r.mFiles extension sub)) := by
  have hIdx := (LoadFromFile_idx ext filePath r0 r hload).1
  have hlt : f < r.mFiles.length := (List.getElem?_eq_some.mp hF).1
  obtain ⟨m, hm⟩ : ∃ m, r.mFiles.length = m + 1 := ⟨r.mFiles.length - 1, by omega⟩
  have hWf := hW f F hF hFf
  refine ⟨fun i => (filesBelow r.mFiles m i).filter (nameEndsWith r.mFiles extension), ?_, ?_⟩
  · intro g G hg hG hGf fuel hfuel
    have := (mem_range_iff F g).mp hg
    exact FindFilesInFolder_eq extension true hW hIdx m g G hG hGf (by omega) fuel (by omega)
  · intro fuel hfuel
    rw [FindFilesInFolder_eq extension true hW hIdx (m + 1) f F hF hFf (by omega) fuel (by omega)]
    simp only [filesBelow, hF]
    rw [filter_flatMap_childFiles]

/-- The archive of `preorderFiles`, loaded from its index file: the list of the root is
the list of the folder `a` followed by what the file `f` gives. -/
theorem FindFilesInFolder_preorder_witness :
    ∃ sub : Nat → List Nat,
      (∀ (g : Nat) (G : MetroFile), g ∈ (mkFolder 0 [] 1 2).range →
        preorderFiles[g]? = some G → G.IsFile = false → ∀ fuel, 4 ≤ fuel →
          (loadedReader [samplePak] preorderFiles [0, 1]).FindFilesInFolder [] true fuel g =
            .ok (sub g)) ∧
      ∀ fuel, 4 ≤ fuel →
        (loadedReader [samplePak] preorderFiles [0, 1]).FindFilesInFolder [] true fuel 0 =
          .ok ((mkFolder 0 [] 1 2).range.flatMap (childMatches preorderFiles [] sub)) :=
  FindFilesInFolder_preorder (diskOf (archiveOf [samplePak] preorderFiles)) indexPath
    (VFXReader.fresh []) (loadedReader [samplePak] preorderFiles [0, 1]) (by decide) []
    preorderFiles_foldersAfterSelf 0 (mkFolder 0 [] 1 2) rfl rfl

/-! ## C15: empty path segments -/

/-- C15, as stated, fails. In the archive parsed from the index file of `treeFiles` the
path `a\b\` resolves to the folder `b`; with an extra backslash after the first one
(`a\\b\`) and with an extra backslash at the start (`\a\b\`) `GetFolder` returns null:
the empty segment is looked up as the empty name, which no entry of the range carries. -/
theorem GetFolder_empty_segment_counterexample :
    (VFXReader.fresh []).LoadFromFile (diskOf (archiveOf [samplePak] treeFiles)) indexPath =
        .ok (true, loadedReader [samplePak] treeFiles [0, 1, 3]) ∧
      (loadedReader [samplePak] treeFiles [0, 1, 3]).GetFolder sampleExternals
        [97, 92, 98, 92] none = .ok (some (mkFolder 3 [98] 4 0)) ∧
      (loadedReader [samplePak] treeFiles [0, 1, 3]).GetFolder sampleExternals
        [97, 92, 92, 98, 92] none = .ok none ∧
      (loadedReader [samplePak] treeFiles [0, 1, 3]).GetFolder sampleExternals
        [92, 97, 92, 98, 92] none = .ok none := by
  decide

/-- C15, amended. `GetFolder` does not skip an empty segment, it looks it up as the empty
name: for every archive, starting folder and path `pre ++ rest` whose part `pre` is empty
or ends with a backslash and resolves to an entry `G`, inserting an extra backslash
between `pre` and `rest` makes `GetFolder` return null whenever no entry of the range of
`G` (its indices in bounds) carries the empty name. Only what follows the last backslash
of a path is ignored. -/
theorem GetFolder_empty_segment (ext : Externals) (r : VFXReader) (pre rest : CharString)
    (inFolder : Option MetroFile) (G : MetroFile)
    (hpre : pre = [] ∨ ∃ p, pre = p ++ [backslash])
    (hG : r.GetFolder ext pre inFolder = .ok (some G))
    (hb : ∀ j ∈ G.range, j < r.mFiles.length)
    (hn : ∀ j ∈ G.range, ∀ A : MetroFile, r.mFiles[j]? = some A → A.name ≠ []) :
    r.GetFolder ext (pre ++ backslash :: rest) inFolder = .ok none := by
  have := GetFolder_unmatched_segment ext r pre [] rest inFolder G hpre hG (by simp) hb hn
  simpa using this

/-- The sample tree: `a\` resolves to the folder `a`, whose range holds only `b`, so
`a\\b\` resolves to null. -/
theorem GetFolder_empty_segment_witness :
    (readerOf treeFiles []).GetFolder sampleExternals [97, 92, 92, 98, 92] none = .ok none :=
  GetFolder_empty_segment sampleExternals (readerOf treeFiles []) [97, 92] [98, 92] none
    (mkFolder 1 [97] 3 1) (Or.inr ⟨[97], rfl⟩) (by decide) (by decide) (by decide)


/-! ## C16: parent lookup -/

/-- C16, as stated, fails in its last part. In the archive parsed from the index file of
`orphanFiles` the ranges of distinct folders are pairwise disjoint (the root is the only
folder and its range is empty), and the non-root entry 1 lies in the range of no folder:
`GetParentFolder(1)` is null, so that entry has no parent rather than exactly one. -/
theorem GetParentFolder_orphan_counterexample :
    (VFXReader.fresh []).LoadFromFile (diskOf (archiveOf [samplePak] orphanFiles)) indexPath =
        .ok (true, loadedReader [samplePak] orphanFiles [0]) ∧
      RangesDisjoint orphanFiles ∧
      (loadedReader [samplePak] orphanFiles [0]).GetParentFolder 1 = .ok none ∧
      ∀ (g : Nat) (G : MetroFile), orphanFiles[g]? = some G → G.IsFile = false →
        1 ∉ G.range := by
  refine ⟨by decide, ?_, by decide, ?_⟩
  · intro g h G H x hG hH hGf hHf hxG hxH
    have hg : g < 2 := (List.getElem?_eq_some.mp hG).1
    have hh : h < 2 := (List.getElem?_eq_some.mp hH).1
    interval_cases g <;> interval_cases h <;>
      simp [orphanFiles, mkFolder, mkFile] at hG hH <;> subst hG <;> subst hH <;>
      simp [MetroFile.IsFile, MetroFile.range] at hGf hHf hxG hxH ⊢
  · intro g G hG hGf
    have hg : g < 2 := (List.getElem?_eq_some.mp hG).1
    interval_cases g <;> simp [orphanFiles, mkFolder, mkFile] at hG <;> subst hG <;>
      simp [MetroFile.IsFile, MetroFile.range] at hGf ⊢

/-- Parent lookup over a folder-index list of valid indices: the first listed folder whose
range holds `x`; with disjoint ranges and all folders listed, the one folder that holds
`x`. -/
theorem GetParentFolder_listed (r : VFXReader)
    (hL : ∀ i ∈ r.mFolders, i < r.mFiles.length) (x : Nat) :
    r.GetParentFolder x = .ok ((listedFolders r).find? (fun F => F.ContainsFile x)) ∧
    (r.GetParentFolder x = .ok none ↔
      ∀ i ∈ r.mFolders, ∀ F : MetroFile, r.mFiles[i]? = some F → x ∉ F.range) ∧
    (RangesDisjoint r.mFiles →
      (∀ i, i ∈ r.mFolders ↔ ∃ G : MetroFile, r.mFiles[i]? = some G ∧ G.IsFile = false) →
      ∀ (g : Nat) (F : MetroFile), r.mFiles[g]? = some F → F.IsFile = false → x ∈ F.range →
        r.GetParentFolder x = .ok (some F) ∧
        ∀ (h : Nat) (H : MetroFile), r.mFiles[h]? = some H → H.IsFile = false → x ∈ H.range →
          h = g) := by
  have hget : r.GetParentFolder x = .ok ((listedFolders r).find? (fun F => F.ContainsFile x)) :=
    getParentLoop_eq r.mFiles x r.mFolders hL
  refine ⟨hget, ?_, ?_⟩
  · rw [hget]
    simp only [Res.ok.injEq, List.find?_eq_none, mem_listedFolders]
    constructor
    · intro h i hi F hF hx
      exact h F ⟨i, hi, hF⟩ ((containsFile_iff F x).mpr hx)
    · rintro h F ⟨i, hi, hF⟩ hc
      exact h i hi F hF ((containsFile_iff F x).mp hc)
  · intro hDisj hAll g F hF hFf hx
    refine ⟨?_, fun h H hH hHf hxH => hDisj h g H F x hH hF hHf hFf hxH hx⟩
    rw [hget]
    cases hfind : (listedFolders r).find? (fun F => F.ContainsFile x) with
    | none =>
      have hnone := List.find?_eq_none.mp hfind F
        ((mem_listedFolders r F).mpr ⟨g, (hAll g).mpr ⟨F, hF, hFf⟩, hF⟩)
      exact absurd ((containsFile_iff F x).mpr hx) hnone
    | some G =>
      have hGc : G.ContainsFile x = true :=
        List.find?_some (p := fun F : MetroFile => F.ContainsFile x) hfind
      obtain ⟨h, hh, hG⟩ := (mem_listedFolders r G).mp (List.mem_of_find?_eq_some hfind)
      obtain ⟨G', hG', hGf⟩ := (hAll h).mp hh
      rw [hG] at hG'
      cases hG'
      have hhg : h = g := hDisj h g G F x hG hF hGf hFf ((containsFile_iff G x).mp hGc) hx
      subst hhg
      rw [hG] at hF
      cases hF
      rfl


/-- C16, amended. For every archive left by a successful `LoadFromFile` on a fresh reader
and every entry index `x`, `GetParentFolder(x)` returns the first folder, in the order of
the folder-index list, whose range contains `x`, and null exactly when no folder's range
contains `x`; consequently, in an archive where the ranges of distinct folders are
pairwise disjoint, for every folder `F` and every index `x` in the range of `F`,
`GetParentFolder(x)` is `F` and no other folder holds `x`: every entry has at most one
parent, and exactly one when it lies in the range of some folder. -/
theorem GetParentFolder_first_listed (ext : Externals) (filePath : FsPath) (guid0 : List Nat)
    (r : VFXReader) (hload : (VFXReader.fresh guid0).LoadFromFile ext filePath = .ok (true, r))
    (x : Nat) :
    r.GetParentFolder x = .ok ((listedFolders r).find? (fun F => F.ContainsFile x)) ∧
    (r.GetParentFolder x = .ok none ↔
      ∀ (g : Nat) (G : MetroFile), r.mFiles[g]? = some G → G.IsFile = false → x ∉ G.range) ∧
    (RangesDisjoint r.mFiles →
      ∀ (g : Nat) (F : MetroFile), r.mFiles[g]? = some F → F.IsFile = false → x ∈ F.range →
        r.GetParentFolder x = .ok (some F) ∧
        ∀ (h : Nat) (H : MetroFile), r.mFiles[h]? = some H → H.IsFile = false → x ∈ H.range →
          h = g) := by
  obtain ⟨_, _, hAll⟩ := fresh_load_folders ext filePath guid0 r hload
  have hL : ∀ i ∈ r.mFolders, i < r.mFiles.length := by
    intro i hi
    obtain ⟨G, hG, _⟩ := (hAll i).mp hi
    exact (List.getElem?_eq_some.mp hG).1
  obtain ⟨h1, h2, h3⟩ := GetParentFolder_listed r hL x
  refine ⟨h1, ?_, fun hDisj => h3 hDisj hAll⟩
  rw [h2]
  constructor
  · intro h g G hG hGf
    exact h g ((hAll g).mpr ⟨G, hG, hGf⟩) G hG
  · intro h i hi F hF
    obtain ⟨G, hG, hGf⟩ := (hAll i).mp hi
    rw [hF] at hG
    cases hG
    exact h i F hF hGf

/-- The sample tree, loaded from its index file: the parent of entry 3 is the first
listed folder whose range holds 3, the folder `a`. -/
theorem GetParentFolder_first_listed_witness :
    (loadedReader [samplePak] treeFiles [0, 1, 3]).GetParentFolder 3 =
      .ok (some (mkFolder 1 [97] 3 1)) :=
  (GetParentFolder_first_listed (diskOf (archiveOf [samplePak] treeFiles)) indexPath []
    (loadedReader [samplePak] treeFiles [0, 1, 3]) (by decide) 3).1

/-! ## C17: entry indices and the folder-index list after a load -/

/-- C17. For every index file on which `LoadFromFile`, called on a freshly constructed
reader, returns true, the entry stored at position `i` has `idx == i` for every `i`, and
the list returned by `GetAllFolders` is strictly increasing and holds exactly the
positions whose entry is a folder: no file index in it, no folder index missing. -/
theorem LoadFromFile_fresh_indexing (ext : Externals) (filePath : FsPath) (guid0 : List Nat)
    (r' : VFXReader) (h : (VFXReader.fresh guid0).LoadFromFile ext filePath = .ok (true, r')) :
    (∀ (i : Nat) (mf : MetroFile), r'.mFiles[i]? = some mf → mf.idx = i) ∧
      r'.GetAllFolders.Pairwise (fun a b => a < b) ∧
      ∀ i, i ∈ r'.GetAllFolders ↔ ∃ mf : MetroFile, r'.mFiles[i]? = some mf ∧ mf.IsFile = false := by
  exact fresh_load_folders ext filePath guid0 r' h

/-- The sample tree, loaded from its index file: the folders are the entries 0, 1, 3. -/
theorem LoadFromFile_fresh_indexing_witness :
    (∀ (i : Nat) (mf : MetroFile),
        (loadedReader [samplePak] treeFiles [0, 1, 3]).mFiles[i]? = some mf → mf.idx = i) ∧
      (loadedReader [samplePak] treeFiles [0, 1, 3]).GetAllFolders.Pairwise (fun a b => a < b) ∧
      ∀ i, i ∈ (loadedReader [samplePak] treeFiles [0, 1, 3]).GetAllFolders ↔
        ∃ mf : MetroFile, (loadedReader [samplePak] treeFiles [0, 1, 3]).mFiles[i]? = some mf ∧
          mf.IsFile = false :=
  LoadFromFile_fresh_indexing (diskOf (archiveOf [samplePak] treeFiles)) indexPath []
    (loadedReader [samplePak] treeFiles [0, 1, 3]) (by decide)


/-! ## C18: loading twice -/

/-- C18, as stated, fails. The index file of `folderOnlyArchive` loaded twice in a row
into the same reader: after the first load `GetAllFolders` is `[0, 1]`, after the second
it is `[0, 1, 0, 1]`, so the reader is not in the state one load leaves. -/
theorem LoadFromFile_twice_counterexample :
    (VFXReader.fresh []).LoadFromFile (diskOf folderOnlyArchive) indexPath =
        .ok (true, folderOnlyReader) ∧
      folderOnlyReader.LoadFromFile (diskOf folderOnlyArchive) indexPath =
        .ok (true, { folderOnlyReader with mFolders := [0, 1, 0, 1] }) ∧
      folderOnlyReader.GetAllFolders = [0, 1] ∧
      ({ folderOnlyReader with mFolders := [0, 1, 0, 1] } : VFXReader).GetAllFolders ≠
        folderOnlyReader.GetAllFolders := by
  decide

/-- C18, amended. For every valid index file (the serialisation of an archive value that
fits the layout), calling `LoadFromFile` twice in a row on the same fresh reader succeeds
both times and leaves content version, GUID, package list, entry list, base path and file
name as the first load left them; the folder-index list returned by `GetAllFolders` is
not the same: it is the list after the first load followed by the same indices once
more, because `mFolders` is appended to and never cleared. -/
theorem LoadFromFile_twice (ext : Externals) (filePath : FsPath) (a : Archive)
    (guid0 : List Nat) (hfit : a.Fits) (hlz4 : ext.Type_LZ4 < 2 ^ 32)
    (hdisk : ext.disk filePath = some (serialize kVFXVersionExodus ext.Type_LZ4 a)) :
    ∃ r1 r2 : VFXReader,
      (VFXReader.fresh guid0).LoadFromFile ext filePath = .ok (true, r1) ∧
      r1.LoadFromFile ext filePath = .ok (true, r2) ∧
      r2.mContentVersion = r1.mContentVersion ∧ r2.mGUID = r1.mGUID ∧ r2.mPaks = r1.mPaks ∧
      r2.mFiles = r1.mFiles ∧ r2.mBasePath = r1.mBasePath ∧ r2.mFileName = r1.mFileName ∧
      r2.GetAllFolders = r1.GetAllFolders ++ r1.GetAllFolders := by
  have h1 := LoadFromFile_serialize ext filePath (VFXReader.fresh guid0) a hfit hlz4 hdisk
  refine ⟨_, _, h1, LoadFromFile_serialize ext filePath _ a hfit hlz4 hdisk,
    rfl, rfl, rfl, ?_, rfl, rfl, ?_⟩
  · simp only
    have hlen := parsedEntries_length a.entries
      (resize (VFXReader.fresh guid0).mFiles a.entries.length ext.newFile) 0
      (length_resize _ _ _)
    have hres : resize (parsedEntries
        (resize (VFXReader.fresh guid0).mFiles a.entries.length ext.newFile) 0 a.entries)
        a.entries.length ext.newFile =
        parsedEntries (resize (VFXReader.fresh guid0).mFiles a.entries.length ext.newFile) 0
          a.entries := by
      have := resize_self (parsedEntries
        (resize (VFXReader.fresh guid0).mFiles a.entries.length ext.newFile) 0 a.entries)
        ext.newFile
      rwa [hlen] at this
    rw [hres, parsedEntries_idem]
  · simp [VFXReader.GetAllFolders, VFXReader.fresh]

/-- The sample archive loaded twice from the file `i`. -/
theorem LoadFromFile_twice_witness :
    ∃ r1 r2 : VFXReader,
      (VFXReader.fresh []).LoadFromFile sampleExternals { parent_path := [], filename := [105] } =
        .ok (true, r1) ∧
      r1.LoadFromFile sampleExternals { parent_path := [], filename := [105] } = .ok (true, r2) ∧
      r2.mContentVersion = r1.mContentVersion ∧ r2.mGUID = r1.mGUID ∧ r2.mPaks = r1.mPaks ∧
      r2.mFiles = r1.mFiles ∧ r2.mBasePath = r1.mBasePath ∧ r2.mFileName = r1.mFileName ∧
      r2.GetAllFolders = r1.GetAllFolders ++ r1.GetAllFolders :=
  LoadFromFile_twice sampleExternals { parent_path := [], filename := [105] } sampleArchive []
    (by
      simp [Archive.Fits, sampleArchive, ZString, Pak.Fits, EntryRecord.Fits, mkFolder, mkFile,
        MetroFile.IsFile])
    (by decide) rfl

/-! ## C19: the argument `withSubfolders` -/

/-- C19. The argument `withSubfolders` has no effect: for every archive, folder index `f`
and suffix `ext`, `FindFilesInFolder(f, ext, false)` returns what
`FindFilesInFolder(f, ext, true)` returns, and so does the overload that takes the folder
as a path; in the archive of `preorderFiles` the file at index 3, which lies in the
nested folder `a`, is returned with `withSubfolders` false. -/
theorem FindFilesInFolder_withSubfolders_ignored (ext : Externals) (r : VFXReader)
    (extension folder : CharString) (fuel f : Nat) :
    r.FindFilesInFolder extension false fuel f = r.FindFilesInFolder extension true fuel f ∧
      r.FindFilesInFolderPath ext folder extension false fuel =
        r.FindFilesInFolderPath ext folder extension true fuel ∧
      (readerOf preorderFiles []).FindFilesInFolder [] false 4 0 = .ok [3, 2] := by
  refine ⟨FindFilesInFolder_flag r extension fuel f, ?_, by decide⟩
  unfold VFXReader.FindFilesInFolderPath
  cases r.GetFolder ext folder none with
  | ok o =>
    cases o with
    | none => rfl
    | some folderPtr => exact FindFilesInFolder_flag r extension fuel folderPtr.idx
  | outOfBounds => rfl
  | outOfFuel => rfl

/-! ## C20: termination of the recursive queries -/

/-- C20. For every archive left by a successful `LoadFromFile` in which each folder range
is in bounds and starts strictly after the index of its folder, `CountFilesInFolder` and
`FindFilesInFolder` terminate on every folder index: with any fuel that covers the entry
table each returns one value that does not depend on the fuel. And for an archive that
violates this, the parsed archive of a single folder whose range `[0, 1)` holds its own
index, the recursion of `CountFilesInFolder` never returns, whatever the fuel. -/
theorem recursive_queries_terminate (ext : Externals) (filePath : FsPath) (r0 r : VFXReader)
    (hload : r0.LoadFromFile ext filePath = .ok (true, r)) (hW : FoldersAfterSelf r.mFiles)
    (f : Nat) (F : MetroFile) (hF : r.mFiles[f]? = some F) (hFf : F.IsFile = false)
    (extension : CharString) (withSubfolders : Bool) :
    (∃ c : Nat, ∀ fuel, r.mFiles.length ≤ fuel → r.CountFilesInFolder fuel f = .ok c) ∧
    (∃ l : List Nat, ∀ fuel, r.mFiles.length ≤ fuel →
      r.FindFilesInFolder extension withSubfolders fuel f = .ok l) ∧
    ((VFXReader.fresh []).LoadFromFile (diskOf (archiveOf [] selfLoopFiles)) indexPath =
        .ok (true, loadedReader [] selfLoopFiles [0]) ∧
      (loadedReader [] selfLoopFiles [0]).mFiles[0]? = some (mkFolder 0 [] 0 1) ∧
      0 ∈ (mkFolder 0 [] 0 1).range ∧
      ∀ fuel, (loadedReader [] selfLoopFiles [0]).CountFilesInFolder fuel 0 = .outOfFuel) := by
  have hn : r.mFiles.length - f ≤ r.mFiles.length := Nat.sub_le _ _
  have hIdx := (LoadFromFile_idx ext filePath r0 r hload).1
  refine ⟨⟨_, fun fuel hfuel => CountFilesInFolder_eq hW r.mFiles.length f F hF hFf hn fuel hfuel⟩,
    ⟨_, fun fuel hfuel => FindFilesInFolder_eq extension withSubfolders hW hIdx r.mFiles.length
      f F hF hFf hn fuel hfuel⟩,
    by decide, rfl, by decide, CountFilesInFolder_selfLoop [] [0]⟩

/-- The sample tree, loaded from its index file: both queries return on the root. -/
theorem recursive_queries_terminate_witness :
    (∃ c : Nat, ∀ fuel, 4 ≤ fuel →
      (loadedReader [samplePak] treeFiles [0, 1, 3]).CountFilesInFolder fuel 0 = .ok c) ∧
    (∃ l : List Nat, ∀ fuel, 4 ≤ fuel →
      (loadedReader [samplePak] treeFiles [0, 1, 3]).FindFilesInFolder [] true fuel 0 = .ok l) :=
  let h := recursive_queries_terminate (diskOf (archiveOf [samplePak] treeFiles)) indexPath
    (VFXReader.fresh []) (loadedReader [samplePak] treeFiles [0, 1, 3]) (by decide)
    treeFiles_foldersAfterSelf 0 (mkFolder 0 [] 1 2) rfl rfl [] true
  ⟨h.1, h.2.1⟩


end MetroEX
